import Mathlib

/-!
# Distributed coordination primitives of `service/sync`

A shallow embedding of the global lock (`globallock.go`), the region leader
election (`regionleader.go`) and the orphan reaper (`regionlock.go`), with the
properties proved about them.

Conventions.
* External collaborators (the wide-column store, the coordination ensemble, the
  clock, the id generator) are inputs of the embedded functions: every call the
  source makes to them consumes a recorded outcome and appends an `Event` to a
  trace, so that "what the code did" is a value one can state theorems about.
* Durations and instants are integers (nanoseconds), byte strings are
  `List Nat`, Go `error` values are small inductive types.
-/

namespace HailoSync

/-! ## binary64 arithmetic

A finite `float64` value is the rational number it denotes. Every operation of
Go on `float64` is the exact operation followed by `roundF64`. Overflow to an
infinity is not modelled: the conversions back to integers return `none` outside
the range of the target type, which is where Go leaves the result unspecified. -/

/-- The integer nearest to `y`, a tie going to the even one. -/
def roundHalfEven (y : ℚ) : Int :=
  let f := ⌊y⌋
  let r := y - f
  if r < 1 / 2 then f
  else if 1 / 2 < r then f + 1
  else if f % 2 = 0 then f else f + 1

/-- Exponent of the binade of `x` (`x ≠ 0`), not below the least normal exponent. -/
def binadeF64 (x : ℚ) : Int :=
  max (Int.log 2 |x|) (-1022)

/-- Round to nearest `float64`, ties to even: 53 significant bits, subnormals
below `2 ^ (-1022)`. -/
def roundF64 (x : ℚ) : ℚ :=
  if x = 0 then 0
  else
    let ulp : ℚ := 2 ^ (binadeF64 x - 52)
    roundHalfEven (x / ulp) * ulp

/-- Conversion of a `float64` to a signed integer type of `bits` bits: truncation
toward zero, defined when the result fits. -/
def truncToInt (bits : Nat) (x : ℚ) : Option Int :=
  let t : Int := if 0 ≤ x then ⌊x⌋ else ⌈x⌉
  if -(2 : Int) ^ (bits - 1) ≤ t ∧ t < (2 : Int) ^ (bits - 1) then some t else none

/-- The constant `time.Second`, in nanoseconds. -/
def second : Int := 1000000000

/-- The method `time.Duration.Seconds`: `float64(d / Second) + float64(d % Second) / 1e9`. -/
def Duration.Seconds (d : Int) : ℚ :=
  let sec := Int.tdiv d second
  let nsec := Int.tmod d second
  roundF64 (roundF64 sec + roundF64 (roundF64 nsec / 1000000000))

/-- The function `durationToSeconds` (lines 191-197): scale the duration by `factor`, then the
number of seconds rounded up, as an `int32`. -/
def durationToSeconds (d : Int) (factor : ℚ) : Option Int :=
  let scaled : Option Int :=
    if factor ≠ 0 then truncToInt 64 (roundF64 (roundF64 d * factor)) else some d
  match scaled with
  | none => none
  | some d1 =>
    let f : ℚ := ⌈Duration.Seconds d1⌉
    truncToInt 32 f


/-! ## Global lock: `GlobalTimedLock` and `Unlock` (`globallock.go`)

The calls to the logger and to the instrumentation counters have no effect on
the values below and are left out. -/

/-- An error value of the store client (connection pool, reader or writer). -/
structure StoreErr where
  code : Nat
deriving DecidableEq, Repr

/-- The error values `GlobalTimedLock` returns. `ErrContended`, `ErrGenUuid` and
`ErrHoldFor` are three distinct package variables made by `errors.New`; an error
of the store is never one of them. -/
inductive LockErr where
  | errContended
  | errGenUuid
  | errHoldFor
  /-- The error `fmt.Errorf("Error locking due to C*: %v", err)` (line 100). -/
  | connection (cause : StoreErr)
  /-- The error of `writer.Run`, returned as it is (line 118). -/
  | store (cause : StoreErr)
deriving DecidableEq, Repr

/-- The variable `minHoldFor`: two seconds. -/
def minHoldFor : Int := 2 * second

/-- The variable `defaultWaitFor`: one second. -/
def defaultWaitFor : Int := second

/-- The variable `defaultHoldFor`: five seconds. -/
def defaultHoldFor : Int := 5 * second

/-- The struct `globalLock`; `exitClosed` says whether the channel `exit` is closed. -/
structure globalLock where
  id : List Nat
  lockId : List Nat
  exitClosed : Bool
  unlocked : Bool
deriving DecidableEq, Repr

/-- The calls `GlobalTimedLock` and `Unlock` make to their collaborators. -/
inductive Event where
  /-- Call of `gossie.NewTimeUUID()`. -/
  | newTimeUUID
  /-- Call of `cassandra.ConnectionPool(keyspace)`. -/
  | connectionPool
  /-- Insert of one column under row `key`, with its TTL in seconds, and `Run`. -/
  | insert (key column : List Nat) (ttl : Option Int)
  /-- Call of `reader.Get(key)`. -/
  | get (key : List Nat)
  /-- Call of `time.Sleep(addJitter(delayFor))`. -/
  | sleep
  /-- Call of `close(gl.exit)`. -/
  | closeExit
  /-- Delete of one column under row `key`, and `Run`. -/
  | deleteColumns (key column : List Nat)
  /-- Start of the refresher goroutine (line 162). -/
  | goRefresher
  /-- A run-time panic (close of a closed channel). -/
  | goPanic
deriving DecidableEq, Repr

/-- The method `globalLock.Unlock` (lines 45-68). `pool` is the error of
`cassandra.ConnectionPool`, if any; the error of the delete is only logged. -/
def globalLock.Unlock (gl : globalLock) (pool : Option StoreErr) : globalLock × List Event :=
  if gl.unlocked then (gl, [])
  else if gl.exitClosed then (gl, [Event.goPanic])
  else
    let gl1 : globalLock := { gl with exitClosed := true, unlocked := true }
    match pool with
    | some _ => (gl1, [Event.closeExit, Event.connectionPool])
    | none =>
      (gl1, [Event.closeExit, Event.connectionPool, Event.deleteColumns gl.id gl.lockId])

/-- What `reader.Get` answers: an error, or a row that may be `nil`, given by the
names of its columns in the order the store returns them. -/
inductive ReadResult where
  | failed (e : StoreErr)
  | row (columns : Option (List (List Nat)))
deriving DecidableEq, Repr

/-- One iteration of the poll loop as the world answers it: the clock at the
deadline check (consulted from the second iteration on) and the row read. -/
structure Poll where
  now : Int
  read : ReadResult
deriving DecidableEq, Repr

/-- The answers of the collaborators during one call of `GlobalTimedLock`. -/
structure World where
  /-- Result of `gossie.NewTimeUUID()`: the new id, or `none` when it fails. -/
  uuid : Option (List Nat)
  /-- Error of `cassandra.ConnectionPool` at line 98. -/
  pool : Option StoreErr
  /-- Error of the lease insert at line 114. -/
  write : Option StoreErr
  /-- The variable `start`, the clock at line 125. -/
  start : Int
  /-- The iterations of the poll loop, in order. -/
  polls : List Poll
  /-- Error of `cassandra.ConnectionPool` inside `Unlock` on the give-up path. -/
  unlockPool : Option StoreErr
deriving DecidableEq, Repr

/-- The two results of `GlobalTimedLock`, the calls it made, and the number of
read-back errors it added to its local `errs` (which it never returns). -/
structure Outcome where
  lock : Option globalLock
  err : Option LockErr
  trace : List Event
  errs : Nat
deriving DecidableEq, Repr

/-- The poll loop (lines 126-156) and what follows it. `attempts`, `errs` and the
trace so far are carried along; `none` when the recorded iterations run out
before the loop is left. -/
def pollLoop (l : globalLock) (waitFor start : Int) (unlockPool : Option StoreErr) :
    List Poll → Nat → Nat → List Event → Option Outcome
  | [], _, _, _ => none
  | p :: rest, attempts, errs, tr =>
    if attempts > 0 ∧ p.now > start + waitFor then
      some { lock := none, err := some LockErr.errContended,
             trace := tr ++ (l.Unlock unlockPool).2, errs := errs }
    else
      let tr1 := (if attempts > 0 then tr ++ [Event.sleep] else tr) ++ [Event.get l.id]
      match p.read with
      | .failed _ => pollLoop l waitFor start unlockPool rest (attempts + 1) (errs + 1) tr1
      | .row none => pollLoop l waitFor start unlockPool rest (attempts + 1) (errs + 1) tr1
      | .row (some []) => pollLoop l waitFor start unlockPool rest (attempts + 1) (errs + 1) tr1
      | .row (some (col :: _)) =>
        if col = l.lockId then
          some { lock := some l, err := none, trace := tr1 ++ [Event.goRefresher],
                 errs := errs }
        else pollLoop l waitFor start unlockPool rest (attempts + 1) errs tr1

/-- The function `GlobalTimedLock` (lines 81-189). -/
def GlobalTimedLock (w : World) (id : List Nat) (waitFor holdFor : Int) : Option Outcome :=
  if holdFor < minHoldFor then
    some { lock := none, err := some LockErr.errHoldFor, trace := [], errs := 0 }
  else
    match w.uuid with
    | none =>
      some { lock := none, err := some LockErr.errGenUuid, trace := [Event.newTimeUUID],
             errs := 0 }
    | some u =>
      let l : globalLock := { id := id, lockId := u, exitClosed := false, unlocked := false }
      match w.pool with
      | some e =>
        some { lock := none, err := some (LockErr.connection e),
               trace := [Event.newTimeUUID, Event.connectionPool], errs := 0 }
      | none =>
        let tr := [Event.newTimeUUID, Event.connectionPool,
                   Event.insert id u (durationToSeconds holdFor 1)]
        match w.write with
        | some e => some { lock := none, err := some (LockErr.store e), trace := tr, errs := 0 }
        | none => pollLoop l waitFor w.start w.unlockPool w.polls 0 0 tr

/-- The period of the refresher loop: `time.Duration(float64(holdFor) * 0.75)`
(line 165). -/
def refreshInterval (holdFor : Int) : Option Int :=
  truncToInt 64 (roundF64 (roundF64 holdFor * (3 / 4)))

/-- The insert the refresher issues each period (lines 172-179). -/
def refreshInsert (l : globalLock) (holdFor : Int) : Event :=
  Event.insert l.id l.lockId (durationToSeconds holdFor (3 / 2))

/-- Number of delete calls for column `column` of row `key` in a trace. -/
def deleteCount (key column : List Nat) (tr : List Event) : Nat :=
  tr.count (Event.deleteColumns key column)

/-- A world in which the lease is written, both reads fail and the deadline has
passed at the second deadline check; `unlockPool` is left to the caller. -/
def failingReads (unlockPool : Option StoreErr) : World :=
  { uuid := some [7], pool := none, write := none, start := 0,
    polls := [{ now := 0, read := .failed ⟨1⟩ }, { now := 5, read := .failed ⟨1⟩ },
              { now := 2000000000, read := .failed ⟨1⟩ }],
    unlockPool := unlockPool }

/-- A world in which another lease stays first in the row until the deadline. -/
def otherHolder : World :=
  { uuid := some [7], pool := none, write := none, start := 0,
    polls := [{ now := 0, read := .row (some [[3], [7]]) },
              { now := 2000000000, read := .row (some [[3], [7]]) }],
    unlockPool := none }

/-- A world in which the own lease is first at the first read. -/
def freeRow : World :=
  { uuid := some [7], pool := none, write := none, start := 0,
    polls := [{ now := 0, read := .row (some [[7]]) }],
    unlockPool := none }

/-! ## Global lock: the lease protocol as a transition system

Each contender calling `GlobalTimedLock` on one row goes through the steps of
the source in order: `gossie.NewTimeUUID()` (line 86), the lease insert
(lines 103-114), the read-back poll (lines 141-155) and `Unlock`
(lines 45-68, also called on the give-up path, line 132). Leases never expire
in this model. -/

namespace GlobalLockProtocol

/-- Where one contender stands inside `GlobalTimedLock`. -/
inductive Phase where
  /-- Not yet called `gossie.NewTimeUUID`. -/
  | idle
  /-- The lock id `u` is generated, the lease is not yet written. -/
  | generated (u : Nat)
  /-- The lease column `u` is written; the contender is in the poll loop. -/
  | written (u : Nat)
  /-- A poll found `u` first in the row: the lock is held. -/
  | won (u : Nat)
  /-- The attempt is over: `Unlock` has run. -/
  | done
deriving DecidableEq, Repr

/-- The lock id a contender carries, if it has generated one and is not done. -/
def Phase.lockId : Phase → Option Nat
  | .idle => none
  | .generated u => some u
  | .written u => some u
  | .won u => some u
  | .done => none

/-- The row of one lock id in the store, the id generator and all contenders. -/
structure State where
  /-- Next value of the time-ordered id generator. -/
  clock : Nat
  /-- Names of the lease columns currently in the row. -/
  store : List Nat
  /-- Phase of every contender. -/
  phase : Nat → Phase

/-- One atomic step of one contender `c`. -/
inductive Action where
  | gen (c : Nat)
  | write (c : Nat)
  | read (c : Nat)
  | unlock (c : Nat)
deriving DecidableEq, Repr

/-- Insert of a column: a row holds each column name once. -/
def insertColumn (u : Nat) (row : List Nat) : List Nat :=
  if u ∈ row then row else u :: row

/-- Delete of a column by name. -/
def deleteColumn (u : Nat) (row : List Nat) : List Nat :=
  row.filter (fun v => v ≠ u)

/-- A row read: the store returns the columns sorted by name. -/
def readRow (row : List Nat) : List Nat :=
  row.insertionSort (fun a b => a ≤ b)

/-- Change the phase of contender `c`. -/
def setPhase (f : Nat → Phase) (c : Nat) (p : Phase) : Nat → Phase :=
  fun d => if d = c then p else f d

/-- The initial state: empty row, nobody has started. -/
def init : State := { clock := 0, store := [], phase := fun _ => Phase.idle }

/-- Effect of one action; an action that is not enabled leaves the state as it is.
`read` wins iff the first column of the sorted row is the contender's own id
(`bytes.Equal(col.Name, l.lockId)`), and otherwise stays in the poll loop;
`unlock` is `Unlock` after a win, or the give-up path of the poll loop. -/
def step (s : State) : Action → State
  | .gen c =>
    match s.phase c with
    | .idle =>
      { clock := s.clock + 1, store := s.store,
        phase := setPhase s.phase c (.generated s.clock) }
    | _ => s
  | .write c =>
    match s.phase c with
    | .generated u =>
      { clock := s.clock, store := insertColumn u s.store,
        phase := setPhase s.phase c (.written u) }
    | _ => s
  | .read c =>
    match s.phase c with
    | .written u =>
      if (readRow s.store).head? = some u then
        { clock := s.clock, store := s.store, phase := setPhase s.phase c (.won u) }
      else s
    | _ => s
  | .unlock c =>
    match s.phase c with
    | .written u =>
      { clock := s.clock, store := deleteColumn u s.store,
        phase := setPhase s.phase c .done }
    | .won u =>
      { clock := s.clock, store := deleteColumn u s.store,
        phase := setPhase s.phase c .done }
    | _ => s

/-- The state after an interleaving of contender steps. -/
def run (s : State) (acts : List Action) : State :=
  acts.foldl step s

/-- Contender `c` has won and has not yet unlocked. -/
def holds (s : State) (c : Nat) : Prop :=
  ∃ u, s.phase c = Phase.won u

/-- At most one contender holds the lock. -/
def MutualExclusion (s : State) : Prop :=
  ∀ c d, holds s c → holds s d → c = d

/-- A lease write is in order when its lock id is larger than every lease column
then in the row; every other action is in order. -/
def writeInOrder (s : State) : Action → Bool
  | .write c =>
    match s.phase c with
    | .generated u => s.store.all (fun v => decide (v < u))
    | _ => true
  | _ => true

/-- Every lease write of the interleaving is in order: leases reach the store in
lock id order. -/
def writesInOrder : State → List Action → Bool
  | _, [] => true
  | s, a :: rest => writeInOrder s a && writesInOrder (step s a) rest

/-- The schedule in which contender 0 generates its lock id first and writes its
lease last, after contender 1 has read the row. -/
def lateWriter : List Action :=
  [.gen 0, .gen 1, .write 1, .read 1, .write 0, .read 0]

/-- Two contenders, each writing its lease right after generating its id. -/
def promptWriters : List Action :=
  [.gen 0, .write 0, .gen 1, .write 1, .read 1, .read 0, .read 1, .unlock 0, .read 1]

end GlobalLockProtocol

/-! ## Region leader election (`regionleader.go`) -/

deriving instance DecidableEq for Except

/-- Errors of the coordination-ensemble client that the source tells apart. -/
inductive ZkErr where
  | noNode
  | nodeExists
  | other (code : Nat)
deriving DecidableEq, Repr

/-- The two failures of `strconv.Atoi`. -/
inductive AtoiErr where
  | badSyntax
  | outOfRange
deriving DecidableEq, Repr

/-- Value of a decimal digit, `none` for any other character. -/
def digitVal (c : Char) : Option Nat :=
  if '0' ≤ c ∧ c ≤ '9' then some (c.toNat - '0'.toNat) else none

/-- Value of a string of decimal digits, most significant first; `none` when a
character is not a digit. -/
def parseDigits : List Char → Nat → Option Nat
  | [], acc => some acc
  | c :: cs, acc =>
    match digitVal c with
    | some d => parseDigits cs (acc * 10 + d)
    | none => none

/-- The function `strconv.Atoi` on a 64-bit platform: an optional sign, then at least one
decimal digit and nothing else; the value must fit `int64`. -/
def atoi (s : List Char) : Except AtoiErr Int :=
  let digits (neg : Bool) (ds : List Char) : Except AtoiErr Int :=
    if ds = [] then .error .badSyntax
    else
      match parseDigits ds 0 with
      | none => .error .badSyntax
      | some n =>
        if neg then
          if n ≤ 2 ^ 63 then .ok (-(n : Int)) else .error .outOfRange
        else
          if n < 2 ^ 63 then .ok (n : Int) else .error .outOfRange
  match s with
  | [] => .error .badSyntax
  | '-' :: ds => digits true ds
  | '+' :: ds => digits false ds
  | ds => digits false ds

/-- The function `strings.Split(s, sep)` for a one-character separator: the pieces between
the separators, in order; never empty. -/
def splitChar (sep : Char) : List Char → List (List Char)
  | [] => [[]]
  | c :: cs =>
    if c = sep then [] :: splitChar sep cs
    else
      match splitChar sep cs with
      | [] => [[c]]
      | piece :: pieces => (c :: piece) :: pieces

/-- The function `parseSeq` (lines 215-218): the integer after the last `-` of the path. -/
def parseSeq (path : String) : Except AtoiErr Int :=
  atoi ((splitChar '-' path.data).getLastD [])

/-- A child of the election path as one listing sees it: its name and the
payload `zookeeper.Get` returns for it (empty when the read fails). -/
structure Child where
  name : String
  data : List Nat
deriving DecidableEq, Repr

/-- Failure of `findLowestSequenceNode`. -/
inductive FindErr where
  | zk (e : ZkErr)
  | parse (e : AtoiErr)
deriving DecidableEq, Repr

/-- What `findLowestSequenceNode` returns, with the deletes it issued. -/
structure FindResult where
  lowestSeq : Int
  prevSeqPath : String
  err : Option FindErr
  /-- Paths of the expired nodes it asked the ensemble to delete, in order. -/
  deleted : List String
deriving DecidableEq, Repr

/-- The local variables of the loop of `findLowestSequenceNode`. -/
structure FindVars where
  ttl : Int
  lowestSeq : Int
  prevSeq : Int
  prevSeqPath : String
  deleted : List String

/-- The zero `time.Time` (1 January of year 1, UTC) in Unix nanoseconds. -/
def zeroTime : Int := -62135596800 * 1000000000

/-- The loop of `findLowestSequenceNode` (lines 236-259) over the children still
to visit. `gobDecode` is `time.Time.GobDecode`, which leaves `ttl` as it was when
it fails; `now` is the clock. -/
def findLoop (gobDecode : List Nat → Option Int) (now : Int) (path : String) (seq : Int) :
    List Child → FindVars → FindResult
  | [], st =>
    { lowestSeq := st.lowestSeq, prevSeqPath := st.prevSeqPath, err := none,
      deleted := st.deleted }
  | ch :: rest, st =>
    let ttl := if ch.data.length > 0 then (gobDecode ch.data).getD st.ttl else st.ttl
    if ch.data.length > 0 ∧ ttl < now then
      findLoop gobDecode now path seq rest
        { st with ttl := ttl, deleted := st.deleted ++ [path ++ "/" ++ ch.name] }
    else
      match parseSeq ch.name with
      | .error e =>
        { lowestSeq := -1, prevSeqPath := "", err := some (.parse e), deleted := st.deleted }
      | .ok s =>
        let lowestSeq := if s < st.lowestSeq then s else st.lowestSeq
        if s < seq ∧ s > st.prevSeq then
          findLoop gobDecode now path seq rest
            { ttl := ttl, lowestSeq := lowestSeq, prevSeq := s, prevSeqPath := ch.name,
              deleted := st.deleted }
        else
          findLoop gobDecode now path seq rest
            { ttl := ttl, lowestSeq := lowestSeq, prevSeq := st.prevSeq,
              prevSeqPath := st.prevSeqPath, deleted := st.deleted }

/-- The function `findLowestSequenceNode` (lines 221-262). `children` is the answer of
`zookeeper.Children(path)`. -/
def findLowestSequenceNode (gobDecode : List Nat → Option Int) (now : Int)
    (children : Except ZkErr (List Child)) (path : String) (seq : Int) : FindResult :=
  match children with
  | .error e => { lowestSeq := -1, prevSeqPath := "", err := some (.zk e), deleted := [] }
  | .ok cs =>
    findLoop gobDecode now path seq cs
      { ttl := zeroTime, lowestSeq := seq, prevSeq := 0, prevSeqPath := "", deleted := [] }

/-- The win test of `waitForWinner` (lines 174-182) for a caller whose own
sequence number is `seq`: the listing succeeded and `seq == lowestSeq`. -/
def winTest (gobDecode : List Nat → Option Int) (now : Int)
    (children : Except ZkErr (List Child)) (path : String) (seq : Int) : Bool :=
  let r := findLowestSequenceNode gobDecode now children path seq
  r.err.isNone && decide (seq = r.lowestSeq)

/-- A child with an empty payload. -/
def plainChild (name : String) : Child := { name := name, data := [] }

/-- The listing of the second scenario of the specification: the first two
sequential nodes of a fresh election path. -/
def firstTwo : List Child := [plainChild "lock-0000000000", plainChild "lock-0000000001"]


/-! ## Orphan reaper (`regionlock.go`) -/

/-- The constant `reaperThreshold`. -/
def reaperThreshold : Int := 2

/-- The map `reaper.paths`: tracked path to its count of consecutive sweeps that
saw it without children. -/
abbrev Paths := AList (fun _ : String => Int)

/-- The three results of `zk.Exists`. -/
structure ExistsReply where
  found : Bool
  numChildren : Int
  err : Option ZkErr
deriving DecidableEq, Repr

/-- What the ensemble answers during one sweep, and the order in which the sweep
visits the snapshot of the keys (Go iterates a map in no fixed order). -/
structure Sweep where
  look : String → ExistsReply
  del : String → Option ZkErr
  order : (keys : List String) → { l : List String // l.Perm keys }

/-- The method `resetPath` (lines 223-227). -/
def resetPath (paths : Paths) (path : String) : Paths :=
  paths.insert path 0

/-- The method `addPath` (lines 218-220). -/
def addPath (paths : Paths) (path : String) : Paths :=
  resetPath paths path

/-- The method `incrementPath` (lines 189-201): the new map and the returned count, which
is `paths[path]` after the update (0 for a path that is not tracked). -/
def incrementPath (paths : Paths) (path : String) : Paths × Int :=
  match paths.lookup path with
  | some n => (paths.insert path (n + 1), n + 1)
  | none => (paths, 0)

/-- The method `removePath` (lines 230-237). -/
def removePath (paths : Paths) (path : String) : Paths :=
  match paths.lookup path with
  | some cnt => if cnt ≥ reaperThreshold then paths.erase path else paths
  | none => paths

/-- The observation counts as "no node, or a node without children": the body
of the loop reaches `incrementPath` (line 173). -/
def ExistsReply.empty (r : ExistsReply) : Bool :=
  if !r.found then !(r.err ≠ none ∧ r.err ≠ some ZkErr.noNode)
  else !(r.numChildren > 0)

/-- The body of the loop of `reap` for one path (lines 156-184); the state is
the map and the list of paths whose deletion was attempted so far. -/
def reapPath (sw : Sweep) (st : Paths × List String) (path : String) : Paths × List String :=
  if (sw.look path).empty then
    let inc := incrementPath st.1 path
    if inc.2 ≥ reaperThreshold then
      match sw.del path with
      | none => (removePath inc.1 path, st.2 ++ [path])
      | some ZkErr.noNode => (removePath inc.1 path, st.2 ++ [path])
      | some _ => (resetPath inc.1 path, st.2 ++ [path])
    else (inc.1, st.2)
  else (resetPath st.1 path, st.2)

/-- The method `reap` (lines 145-186): one sweep over a snapshot of the tracked paths.
Returns the map after the sweep and the paths whose deletion it attempted. -/
def reap (sw : Sweep) (paths : Paths) : Paths × List String :=
  (sw.order paths.keys).1.foldl (reapPath sw) (paths, [])

/-- Consecutive sweeps: the delete attempts of each sweep, in order. -/
def reapAll : List Sweep → Paths → List (List String)
  | [], _ => []
  | sw :: rest, paths => (reap sw paths).2 :: reapAll rest (reap sw paths).1

/-- The map after consecutive sweeps. -/
def reapAllState : List Sweep → Paths → Paths
  | [], paths => paths
  | sw :: rest, paths => reapAllState rest (reap sw paths).1

/-- A sweep that visits the keys in the order of the snapshot. -/
def sweepOf (look : String → ExistsReply) (del : String → Option ZkErr) : Sweep :=
  { look := look, del := del, order := fun keys => ⟨keys, List.Perm.refl keys⟩ }

/-- Observation: the path exists and has children. -/
def busy : ExistsReply := { found := true, numChildren := 1, err := none }

/-- Observation: the path exists and has no children. -/
def childless : ExistsReply := { found := true, numChildren := 0, err := none }

/-- Observation: the path does not exist. -/
def missing : ExistsReply := { found := false, numChildren := 0, err := some ZkErr.noNode }

/-- The reaper right after `addPath "/ns/a"`. -/
def oneTracked : Paths := addPath ∅ "/ns/a"

/-- The map after one sweep of `oneTracked` that saw every path without children. -/
def seenEmptyOnce : Paths :=
  (reap (sweepOf (fun _ => childless) (fun _ => none)) oneTracked).1

/-! ## Auxiliary predicates of the proofs -/

namespace GlobalLockProtocol

/-- Invariant of the runs whose lease writes are in order: lock ids are unique
and below the generator's next value, and the lease of a contender that has won
is in the row and is its least column. -/
structure Inv (s : State) : Prop where
  unique : ∀ c d u, (s.phase c).lockId = some u → (s.phase d).lockId = some u → c = d
  fresh : ∀ c u, (s.phase c).lockId = some u → u < s.clock
  least : ∀ c u, s.phase c = Phase.won u → u ∈ s.store ∧ ∀ v ∈ s.store, u ≤ v

end GlobalLockProtocol

/-- The events of the poll loop proper: sleeps and reads of row `id`. -/
def pollEvents (id : List Nat) (mid : List Event) : Prop :=
  ∀ e ∈ mid, e = Event.sleep ∨ e = Event.get id

/-- What `GlobalTimedLock` returns in the world `otherHolder`. -/
def otherHolderOutcome : Outcome :=
  { lock := none, err := some LockErr.errContended,
    trace := [Event.newTimeUUID, Event.connectionPool,
      Event.insert [1] [7] (durationToSeconds 3000000000 1), Event.get [1],
      Event.closeExit, Event.connectionPool, Event.deleteColumns [1] [7]],
    errs := 0 }

/-- What `GlobalTimedLock` returns in the world `freeRow`. -/
def freeRowOutcome : Outcome :=
  { lock := some { id := [1], lockId := [7], exitClosed := false, unlocked := false },
    err := none,
    trace := [Event.newTimeUUID, Event.connectionPool,
      Event.insert [1] [7] (durationToSeconds 3000000000 1), Event.get [1],
      Event.goRefresher],
    errs := 0 }

/-- What one sweep does to a tracked path whose count is `n`: the count after the
sweep (`none` when the path is no longer tracked) and whether its deletion was
attempted. -/
def trackedStep (sw : Sweep) (p : String) (n : Int) : Option Int × Bool :=
  if (sw.look p).empty then
    if n + 1 ≥ reaperThreshold then
      (if sw.del p = none ∨ sw.del p = some ZkErr.noNode then none else some 0, true)
    else (some (n + 1), false)
  else (some 0, false)

/-- The count of `p` is low enough that the next sweep cannot reach the
threshold unless the previous sweep saw `p` empty. -/
def calm (paths : Paths) (p : String) (prevEmpty : Bool) : Prop :=
  ∀ n, paths.lookup p = some n → n ≤ 0 ∨ (n ≤ 1 ∧ prevEmpty = true)

/-! ## Region lock paths (`regionlock.go`) -/

/-- The function `strings.Replace(s, old, new, -1)` for one-character `old` and
`new`: every occurrence is replaced. -/
def replaceChar (old new : Char) (s : List Char) : List Char :=
  s.map (fun c => if c = old then new else c)

/-- The function `strings.Contains(s, sub)`: `sub` starts at some position of `s`. -/
def containsSub (sub : List Char) : List Char → Bool
  | [] => sub.isEmpty
  | c :: cs => sub.isPrefixOf (c :: cs) || containsSub sub cs

/-- The two errors of `constructLockPath`. -/
inductive PathErr where
  /-- The error "Namespace or ID cannot be blank". -/
  | blank
  /-- The error "Generated lock path contains double slash". -/
  | doubleSlash
deriving DecidableEq, Repr

/-- The function `constructLockPath` (lines 58-77): the path is returned also
when there is an error. -/
def constructLockPath (namespace_ id : String) : String × Option PathErr :=
  let id1 : String := String.mk (replaceChar '/' '#' id.data)
  let path : String := "/" ++ namespace_ ++ "/" ++ id1
  if namespace_ = "" ∨ id1 = "" then (path, some PathErr.blank)
  else if containsSub ['/', '/'] path.data then (path, some PathErr.doubleSlash)
  else (path, none)

/-- The loop of `createParents` (lines 205-211): `pth` is the path built so far,
`issued` the create requests made so far. `ErrNodeExists` counts as success. -/
def createLoop (create : String → Option ZkErr) :
    List (List Char) → String → List String → Option ZkErr × List String
  | [], _, issued => (none, issued)
  | p :: rest, pth, issued =>
    let pth1 := pth ++ "/" ++ String.mk p
    match create pth1 with
    | none => createLoop create rest pth1 (issued ++ [pth1])
    | some ZkErr.nodeExists => createLoop create rest pth1 (issued ++ [pth1])
    | some e => (some e, issued ++ [pth1])

/-- The function `createParents` (lines 202-213). `create` is the error
`zookeeper.Create` returns for a path; the result is the returned error and the
create requests in order. -/
def createParents (create : String → Option ZkErr) (path : String) :
    Option ZkErr × List String :=
  createLoop create (splitChar '/' path.data).tail "" []

/-- The function `zookeeper.CreateParents` (`zookeeper.go`, lines 367-378): the
same loop over `Create` of that package. -/
def CreateParents (create : String → Option ZkErr) (path : String) :
    Option ZkErr × List String :=
  createLoop create (splitChar '/' path.data).tail "" []

/-- The text `/s1/s2/.../sk` made of the segments `s1 .. sk`. -/
def slashJoin : List (List Char) → List Char
  | [] => []
  | s :: rest => '/' :: s ++ slashJoin rest

/-- A create answer that lets the loop go on: `nil` or `ErrNodeExists`. -/
def createOk (o : Option ZkErr) : Prop :=
  o = none ∨ o = some ZkErr.nodeExists

/-- The paths of the non-empty prefixes of `rest` put after the segments `done`,
shortest first. -/
def parentRequests (done rest : List (List Char)) : List String :=
  rest.inits.tail.map (fun pre => String.mk (slashJoin (done ++ pre)))

/-! ## Region leaders: the registry, `Rescind` and `CleanupRegionLeaders`
(`regionleader.go`)

A `*regionLeader` is an index into the list of all leaders allocated so far.
Calls run one after the other. The goroutine that `newRegionLeader` starts
(lines 50-61) calls `Rescind` when its `GetW` fails or its watch fires; it is
started before the leader is registered (lines 64-66), so its `Rescind` runs
either before the registration (the argument `early` of `newRegionLeader`) or
after it, as one of the later `Rescind` calls. -/

/-- The struct `regionLeader`; `rescindedClosed` says whether the channel
`rescinded` is closed, `cleanupDone` whether the `sync.Once` named `cleanup` has
run. -/
structure regionLeader where
  active : Bool
  lockNode : String
  rescindedClosed : Bool
  cleanupDone : Bool
deriving DecidableEq, Repr

/-- The leaders allocated so far and the package variable `rls`. -/
structure Leaders where
  heap : List regionLeader
  rls : List Nat
deriving DecidableEq, Repr

/-- The calls `Rescind` makes, in order. -/
inductive LeaderEvent where
  /-- Call of `close(rl.rescinded)`. -/
  | closeRescinded (rl : Nat)
  /-- Call of `zookeeper.Delete(node, -1)`. -/
  | delete (node : String)
  /-- Call of `time.Sleep(cleanupDelay)`. -/
  | sleep
  /-- The locked section that removes `rl` from `rls` (lines 94-101). -/
  | unregister (rl : Nat)
deriving DecidableEq, Repr

/-- The package state after `init`: no leader, empty registry. -/
def noLeaders : Leaders := { heap := [], rls := [] }

/-- The delete is a success when it returns `nil` or `ErrNoNode` (line 84). -/
def deleteDone (o : Option ZkErr) : Bool :=
  decide (o = none ∨ o = some ZkErr.noNode)

/-- The retry loop of `Rescind` (lines 82-91) over the outcomes of the successive
deletes; `none` when the recorded outcomes run out before a delete succeeds. -/
def deleteLoop (node : String) : List (Option ZkErr) → List LeaderEvent →
    Option (List LeaderEvent)
  | [], _ => none
  | o :: rest, tr =>
    if deleteDone o then some (tr ++ [LeaderEvent.delete node])
    else deleteLoop node rest (tr ++ [LeaderEvent.delete node, LeaderEvent.sleep])

/-- The loop at lines 95-100: the first entry equal to `rl` is cut out. -/
def unregister (rl : Nat) : List Nat → List Nat
  | [] => []
  | x :: xs => if x = rl then xs else x :: unregister rl xs

/-- The method `Rescind` (lines 77-103). `dels` are the outcomes of the
successive deletes. A pointer that was never allocated does nothing. -/
def Rescind (s : Leaders) (rl : Nat) (dels : List (Option ZkErr)) :
    Option (Leaders × List LeaderEvent) :=
  match s.heap[rl]? with
  | none => some (s, [])
  | some l =>
    if l.cleanupDone then some (s, [])
    else
      match deleteLoop l.lockNode dels [LeaderEvent.closeRescinded rl] with
      | none => none
      | some tr =>
        some ({ heap := s.heap.set rl { l with rescindedClosed := true, cleanupDone := true },
                rls := unregister rl s.rls },
              tr ++ [LeaderEvent.unregister rl])

/-- The function `newRegionLeader` (lines 43-69): the leader is allocated
(lines 44-48), the watcher goroutine is started (lines 50-61) and the leader is
appended to `rls` (lines 64-66). `early` is `some dels` when the goroutine has
run its `Rescind` to the end before the registration, `dels` being the outcomes
of its deletes, and `none` when it has not called `Rescind` by then. Returns the
state and the pointer; `none` when the recorded outcomes of an early `Rescind`
run out before a delete succeeds. -/
def newRegionLeader (s : Leaders) (lockNode : String) (early : Option (List (Option ZkErr))) :
    Option (Leaders × Nat) :=
  let rl := s.heap.length
  let s1 : Leaders :=
    { heap := s.heap ++ [{ active := true, lockNode := lockNode, rescindedClosed := false,
                           cleanupDone := false }],
      rls := s.rls }
  match early with
  | none => some ({ heap := s1.heap, rls := s1.rls ++ [rl] }, rl)
  | some dels =>
    match Rescind s1 rl dels with
    | none => none
    | some r => some ({ heap := r.1.heap, rls := r.1.rls ++ [rl] }, rl)

/-- The loop of `CleanupRegionLeaders` over the copy of the registry
(lines 162-164); `dels rl` are the outcomes of the deletes of leader `rl`. -/
def rescindAll (dels : Nat → List (Option ZkErr)) :
    List Nat → Leaders → Option (Leaders × List LeaderEvent)
  | [], s => some (s, [])
  | rl :: rest, s =>
    match Rescind s rl (dels rl) with
    | none => none
    | some r =>
      match rescindAll dels rest r.1 with
      | none => none
      | some r2 => some (r2.1, r.2 ++ r2.2)

/-- The function `CleanupRegionLeaders` (lines 153-165). -/
def CleanupRegionLeaders (s : Leaders) (dels : Nat → List (Option ZkErr)) :
    Option (Leaders × List LeaderEvent) :=
  rescindAll dels s.rls s

/-- A call of the package: an election that completes (with the `early` of
`newRegionLeader`), or a `Rescind`. -/
inductive LeaderOp where
  | elected (lockNode : String) (early : Option (List (Option ZkErr)))
  | rescind (rl : Nat) (dels : List (Option ZkErr))
deriving DecidableEq, Repr

/-- The state after a sequence of calls that all returned (`none` when a
`Rescind` never gets its delete through). -/
def runLeaderOps : Leaders → List LeaderOp → Option Leaders
  | s, [] => some s
  | s, LeaderOp.elected node early :: rest =>
    match newRegionLeader s node early with
    | none => none
    | some r => runLeaderOps r.1 rest
  | s, LeaderOp.rescind rl dels :: rest =>
    match Rescind s rl dels with
    | none => none
    | some r => runLeaderOps r.1 rest

/-- Three elections whose watchers do not rescind before the registration, the
second leader rescinded after one failed delete. -/
def threeElections : List LeaderOp :=
  [LeaderOp.elected "/sync/regionleader/a/lock-0000000000" none,
   LeaderOp.elected "/sync/regionleader/b/lock-0000000000" none,
   LeaderOp.elected "/sync/regionleader/c/lock-0000000004" none,
   LeaderOp.rescind 1 [some (ZkErr.other 1), none]]

/-- One election whose watcher fails in `GetW` at once and has rescinded, with a
delete that succeeds, before the leader is registered. -/
def earlyWatcher : List LeaderOp :=
  [LeaderOp.elected "/sync/regionleader/a/lock-0000000000" (some [none])]

/-- The package state after `earlyWatcher`: the leader is in the registry, its
channel closed and its `cleanup` spent. -/
def lateRegistered : Leaders :=
  { heap := [{ active := true, lockNode := "/sync/regionleader/a/lock-0000000000",
               rescindedClosed := true, cleanupDone := true }],
    rls := [0] }

/-- No watcher of these calls has rescinded before its leader was registered. -/
def noEarlyRescind (ops : List LeaderOp) : Prop :=
  ∀ node early, LeaderOp.elected node early ∈ ops → early = none

/-- The first leader of `twoLeaders`, still active. -/
def leaderA : regionLeader :=
  { active := true, lockNode := "/sync/regionleader/a/lock-0000000000",
    rescindedClosed := false, cleanupDone := false }

/-- The package state after `threeElections`. -/
def twoLeaders : Leaders :=
  { heap := [{ active := true, lockNode := "/sync/regionleader/a/lock-0000000000",
               rescindedClosed := false, cleanupDone := false },
             { active := true, lockNode := "/sync/regionleader/b/lock-0000000000",
               rescindedClosed := true, cleanupDone := true },
             { active := true, lockNode := "/sync/regionleader/c/lock-0000000004",
               rescindedClosed := false, cleanupDone := false }],
    rls := [0, 2] }

/-- The events of `k` failed deletes: each is followed by a sleep. -/
def retryEvents (node : String) : Nat → List LeaderEvent
  | 0 => []
  | k + 1 => LeaderEvent.delete node :: LeaderEvent.sleep :: retryEvents node k

/-- The registry and the leaders fit together: every registered pointer is
allocated, registered once, and its `cleanup` has not run. -/
structure LeadersOk (s : Leaders) : Prop where
  nodup : s.rls.Nodup
  live : ∀ rl ∈ s.rls, ∃ l, s.heap[rl]? = some l ∧ l.cleanupDone = false

/-- The channel `rescinded` of leader `x` is closed. -/
def rescindedIn (s : Leaders) (x : Nat) : Prop :=
  ∃ l, s.heap[x]? = some l ∧ l.rescindedClosed = true

/-! ## Authentication scope (`auth/scope.go`)

The user cache, the login service and `FromSessionToken` are inputs; instants
are Unix nanoseconds, the zero `time.Time` being `zeroTime`. The calls to the
logger and to the instrumentation counters are left out. -/

/-- The struct `User` (`auth/user.go`). -/
structure User where
  SessId : String
  Mech : String
  Device : String
  Id : String
  CreatedTs : Int
  ExpiryTs : Int
  RenewTs : Int
  Roles : List String
  Token : List Nat
  Sig : List Nat
  Data : List Nat
deriving DecidableEq, Repr

/-- The method `User.CanAutoRenew`: `!u.RenewTs.IsZero()`. -/
def User.CanAutoRenew (u : User) : Bool :=
  decide (u.RenewTs ≠ zeroTime)

/-- An error value of the user cache. -/
structure CacheErr where
  code : Nat
deriving DecidableEq, Repr

/-- An error of a call to the login service (a platform error with its code). -/
structure CallErr where
  code : String
deriving DecidableEq, Repr

/-- What the `readsession` call gives `doRecoverSession`: an error other than
"not found", or the session id and token of the response (both empty when the
service answered "not found"). -/
inductive LoginReply where
  | failed (e : CallErr)
  | replied (sessId token : String)
deriving DecidableEq, Repr

/-- The fields of `realScope` that hold state. -/
structure realScope where
  authUser : Option User
  toEndpoint : String
  fromService : String
  triedAuth : Bool
  authorised : Bool
deriving DecidableEq, Repr

/-- The answers of the collaborators during one `RecoverSession`. -/
structure AuthWorld where
  /-- The clock. -/
  now : Int
  /-- The three results of `userCache.Fetch(sessId)`: user, hit, error. -/
  fetch : String → Option User × Bool × Option CacheErr
  /-- The `readsession` endpoint of the login service. -/
  readsession : String → LoginReply
  /-- The user `FromSessionToken(sessId, token)` returns, `none` when it fails. -/
  fromSessionToken : String → String → Option User

/-- The calls `doRecoverSession` makes. -/
inductive AuthEvent where
  | cacheFetch (sessId : String)
  | readSession (sessId : String)
  | cacheStore (u : User)
deriving DecidableEq, Repr

/-- The decision at lines 131-141 of `doRecoverSession`: ask the login service
when the cache failed, when the cached user has expired and can be renewed, or
when the cache has neither a user nor a recorded miss. -/
def queryLogin (now : Int) (cached : Option User × Bool × Option CacheErr) : Bool :=
  if cached.2.2 ≠ none then true
  else
    match cached.1 with
    | some u => decide (u.ExpiryTs < now) && u.CanAutoRenew
    | none => !cached.2.1

/-- The method `doRecoverSession` (lines 129-182): the user, the error, and the
calls made. -/
def doRecoverSession (w : AuthWorld) (sessId : String) :
    Option User × Option CallErr × List AuthEvent :=
  let cached := w.fetch sessId
  if queryLogin w.now cached then
    match w.readsession sessId with
    | .failed e => (none, some e, [AuthEvent.cacheFetch sessId, AuthEvent.readSession sessId])
    | .replied sid token =>
      let u1 : Option User :=
        if sid = "" ∧ token = "" then cached.1 else w.fromSessionToken sid token
      match u1 with
      | some found =>
        (some found, none,
          [AuthEvent.cacheFetch sessId, AuthEvent.readSession sessId, AuthEvent.cacheStore found])
      | none => (none, none, [AuthEvent.cacheFetch sessId, AuthEvent.readSession sessId])
  else (cached.1, none, [AuthEvent.cacheFetch sessId])

/-- The method `RecoverSession` (lines 104-126): the scope after the call, the
returned error, and the calls made. -/
def RecoverSession (s : realScope) (w : AuthWorld) (sessId : String) :
    realScope × Option CallErr × List AuthEvent :=
  let r := doRecoverSession w sessId
  let s1 : realScope := { s with authUser := r.1 }
  if r.2.1 = none then ({ s1 with triedAuth := true }, r.2.1, r.2.2)
  else (s1, r.2.1, r.2.2)

/-- The method `IsAuth`. -/
def realScope.IsAuth (s : realScope) : Bool :=
  s.authUser.isSome

/-- A user whose session is in scope. -/
def alice : User :=
  { SessId := "sess-1", Mech := "admin", Device := "cli", Id := "alice",
    CreatedTs := 1372942090000000000, ExpiryTs := 1372970890000000000, RenewTs := zeroTime,
    Roles := ["ADMIN"], Token := [], Sig := [1], Data := [] }

/-- A scope in which `alice` is authenticated. -/
def aliceScope : realScope :=
  { authUser := some alice, toEndpoint := "", fromService := "", triedAuth := true,
    authorised := false }

/-- The scope of `New()`. -/
def freshScope : realScope :=
  { authUser := none, toEndpoint := "", fromService := "", triedAuth := false,
    authorised := false }

/-- The world of `TestRecoverSessionSad`: nothing in the cache, the login service
fails with an internal server error. -/
def loginDown : AuthWorld :=
  { now := 1372950000000000000,
    fetch := fun _ => (none, false, none),
    readsession := fun _ => LoginReply.failed ⟨"com.HailoOSS.service.login.foo"⟩,
    fromSessionToken := fun _ _ => none }

/-- An acquired lock as `GlobalTimedLock` returns it: row `[1]`, lock id `[7]`. -/
def heldLock : globalLock :=
  { id := [1], lockId := [7], exitClosed := false, unlocked := false }

/-! ## Global lock: the first poll and the lease arithmetic -/

/-- The outcome of `GlobalTimedLock` when the first read shows the own lease
first: the lock, no error, and one read between the insert and the start of
the refresher. -/
def wonAtFirstRead (id u : List Nat) (holdFor : Int) : Outcome :=
  { lock := some { id := id, lockId := u, exitClosed := false, unlocked := false },
    err := none,
    trace := [Event.newTimeUUID, Event.connectionPool,
              Event.insert id u (durationToSeconds holdFor 1), Event.get id,
              Event.goRefresher],
    errs := 0 }

/-- The outcome of `GlobalTimedLock` when the first read shows another lease
first and the deadline has passed at the second iteration: `ErrContended` after
one read and no sleep, then the calls of `Unlock`. -/
def contendedAtSecondCheck (id u : List Nat) (holdFor : Int) (unlockPool : Option StoreErr) :
    Outcome :=
  { lock := none,
    err := some LockErr.errContended,
    trace := [Event.newTimeUUID, Event.connectionPool,
              Event.insert id u (durationToSeconds holdFor 1), Event.get id] ++
      (globalLock.Unlock { id := id, lockId := u, exitClosed := false, unlocked := false }
        unlockPool).2,
    errs := 0 }

/-- An expired user that cannot be renewed: `alice` has no `RenewTs`. -/
def staleCache : AuthWorld :=
  { now := 1372980000000000000,
    fetch := fun _ => (some alice, true, none),
    readsession := fun _ => LoginReply.replied "" "",
    fromSessionToken := fun _ _ => none }

/-- The user `alice` with `RenewTs` set (and so renewable). -/
def renewableAlice : User :=
  { alice with RenewTs := 1372960000000000000 }

/-- The world of an expired cached user that can be renewed, with the answer of
the login service left open. -/
def renewableCache (reply : LoginReply) : AuthWorld :=
  { now := 1372980000000000000,
    fetch := fun _ => (some renewableAlice, true, none),
    readsession := fun _ => reply,
    fromSessionToken := fun _ _ => none }

/-! ## NSQ hosts and dead-letter queue names (`nsq/hosts.go`, `nsq/publisher.go`) -/

/-- The inner loop of `diffHosts` (lines 16-21): the value of `seen` after the
scan of `hostsB`, which stops at the first entry equal to `host`. -/
def seenIn (host : String) : List String → Bool
  | [] => false
  | ahost :: rest => if ahost = host then true else seenIn host rest

/-- The function `diffHosts` (lines 13-28): `delta` after the loop over `hostsA`. -/
def diffHosts (hostsA hostsB : List String) : List String :=
  hostsA.foldl (fun delta host => if seenIn host hostsB then delta else delta ++ [host]) []

/-- The constant `maxQueueLength`. -/
def maxQueueLength : Int := 32

/-- A string as its list of bytes, for text in ASCII. -/
def asciiBytes (s : String) : List Nat :=
  s.data.map Char.toNat

/-- The slice expression `s[:n]` on a string of bytes: `none` (a run-time panic)
when `n` is negative or beyond the length. -/
def sliceTo (s : List Nat) (n : Int) : Option (List Nat) :=
  if 0 ≤ n ∧ n ≤ s.length then some (s.take n.toNat) else none

/-- The format `"%s.%s.dl"` of `getDLQName`: the byte 46 is `.`, 100 is `d`, 108
is `l`. -/
def dlqFormat (topic channel : List Nat) : List Nat :=
  topic ++ [46] ++ channel ++ [46, 100, 108]

/-- The function `getDLQName` (lines 32-47) on strings of bytes; `none` when a
slice expression panics. -/
def getDLQName (topic channel : List Nat) : Option (List Nat) :=
  let deadletter := dlqFormat topic channel
  if (deadletter.length : Int) > maxQueueLength then
    let topicLen : Int := if (topic.length : Int) > 14 then 14 else topic.length
    let channLen : Int :=
      if (channel.length : Int) > maxQueueLength - topicLen - 4 then maxQueueLength - topicLen - 4
      else channel.length
    match sliceTo topic topicLen, sliceTo channel channLen with
    | some t, some c => some (dlqFormat t c)
    | _, _ => none
  else some deadletter

/-! ## Configuration arrays (`config/config.go`) -/

/-- A value of a JSON array as `AsStringArray` tells them apart: a string, or
anything else. -/
inductive JsonValue where
  | str (s : String)
  | other
deriving DecidableEq, Repr

/-- The method `AsStringArray` (lines 315-331); `array` is the result of
`c.Array()`, `none` when it fails. -/
def AsStringArray (array : Option (List JsonValue)) : List String :=
  match array with
  | none => []
  | some genericValues =>
    genericValues.foldl
      (fun arr value =>
        match value with
        | .str s => arr ++ [s]
        | .other => arr) []

/-- The verbs `%v` and `%d` of `fmt` for an `int`, and `strconv.Itoa`: the
decimal digits, after a `-` for a negative number. -/
def itoa (i : Int) : List Char :=
  if i < 0 then '-' :: Nat.toDigits 10 i.natAbs else Nat.toDigits 10 i.natAbs

/-- The body of the loop of `AsHostnameArray` (lines 354-359): the new value of
`arr[i]`. -/
def withDefaultPort (defPort : Int) (value : String) : String :=
  if (splitChar ':' value.data).length = 1 then String.mk (value.data ++ ':' :: itoa defPort)
  else value

/-- The method `AsHostnameArray` (lines 351-362). -/
def AsHostnameArray (array : Option (List JsonValue)) (defPort : Int) : List String :=
  (AsStringArray array).map (withDefaultPort defPort)

/-! ## Time series column names (`cassandra/timeseries/timeseries.go`)

A `time.Time` is the instant it denotes, in nanoseconds since the Unix epoch,
as in `zeroTime`. -/

/-- The function `time.Unix(sec, nsec)`. -/
def timeUnix (sec nsec : Int) : Int :=
  sec * 1000000000 + nsec

/-- The method `Time.Unix`: the seconds since the epoch, rounded down. -/
def Time.Unix (t : Int) : Int :=
  t / 1000000000

/-- The constant `math.MaxInt32`. -/
def maxInt32 : Int := 2147483647

/-- The function `strings.Join(parts, sep)` for a one-character separator. -/
def joinChar (sep : Char) : List (List Char) → List Char
  | [] => []
  | [p] => p
  | p :: q :: rest => p ++ sep :: joinChar sep (q :: rest)

/-- The two errors of `columnNameToTimeId`. -/
inductive ColumnErr where
  /-- The error "Expecting column name of TS-ID (>= 2 parts)", with the number
  of parts found. -/
  | tooFewParts (parts : Nat)
  /-- The error "Expecting UNIX timestamp within TS-ID", with the error of
  `strconv.ParseInt`. -/
  | badTimestamp (e : AtoiErr)
deriving DecidableEq, Repr

/-- The function `columnNameToTimeId` (lines 181-196). `now` is `time.Now()`;
`strconv.ParseInt(s, 10, 64)` is `atoi`, the `int` of which has 64 bits. -/
def columnNameToTimeId (now : Int) (colName : List Char) : String × Int × Option ColumnErr :=
  let parts := splitChar '-' colName
  if parts.length < 2 then ("", now, some (ColumnErr.tooFewParts parts.length))
  else
    match atoi (parts.headD []) with
    | .error e => ("", now, some (ColumnErr.badTimestamp e))
    | .ok ts =>
      if ts > maxInt32 then (String.mk (joinChar '-' parts.tail), timeUnix 0 ts, none)
      else (String.mk (joinChar '-' parts.tail), timeUnix ts 0, none)

/-- The function `idTimeToColumnName` (lines 198-200): the format `"%v-%s"`. -/
def idTimeToColumnName (uid : String) (t : Int) : List Char :=
  itoa (Time.Unix t) ++ '-' :: uid.data

/-! ## Graphite series (`graphite/result.go`)

A `float64` is the rational number it denotes (see the section on binary64
arithmetic); the comparisons of Go on finite values are those of the
rationals. -/

/-- The struct `DataPoint`; a `nil` pointer is `none`. -/
structure DataPoint where
  X : Option ℚ
  Y : Option ℚ
deriving DecidableEq

/-- The fields `Name` and `DataPoints` of the struct `Series`. -/
structure Series where
  Name : String
  DataPoints : List DataPoint
deriving DecidableEq

/-- The method `Series.Max` (lines 108-123); a `nil` receiver is `none`. -/
def Series.Max (tr : Option Series) : ℚ :=
  match tr with
  | none => 0
  | some s =>
    s.DataPoints.foldl
      (fun r dp =>
        match dp.Y with
        | none => r
        | some y => if y > r then y else r) 0

/-- The method `Series.Min` (lines 127-145): the pair `(r, first)` is carried
through the loop. -/
def Series.Min (tr : Option Series) : ℚ :=
  match tr with
  | none => 0
  | some s =>
    (s.DataPoints.foldl
      (fun (st : ℚ × Bool) dp =>
        match dp.Y with
        | none => st
        | some y => if st.2 ∨ y < st.1 then (y, false) else st) (0, true)).1

/-- The non-nil `Y` values of a series, in order. -/
def yValues (s : Series) : List ℚ :=
  s.DataPoints.filterMap (fun dp => dp.Y)

/-- A series with one data point, `Y = -1`. -/
def belowZero : Series :=
  { Name := "load", DataPoints := [{ X := some 1, Y := some (-1) }] }

/-! ## Deduplication (`dedupe/dedupe.go`, `memcache/dedupe.go`)

The memcache server is a finite map that answers every request; the client
reports a `Get` of an absent key as `ErrCacheMiss` and an `Add` of a present key
as `ErrNotStored` (as `auth/cache.go` reads them). -/

/-- Errors of the memcache client. -/
inductive McErr where
  | cacheMiss
  | notStored
  | server (code : Nat)
deriving DecidableEq, Repr

/-- The error values of the package `dedupe`, and an error of the storage
passed on as it is. -/
inductive DedupeErr where
  | keyExistsOnWrite
  | keyExistsOnRead
  | unknown
  | unknownType
  | storage (e : McErr)
deriving DecidableEq, Repr

/-- The keys and values held by the memcache server. -/
abbrev Memcache := AList (fun _ : String => String)

/-- The function `memcache.Get`. -/
def mcGet (m : Memcache) (key : String) : Except McErr String :=
  match m.lookup key with
  | none => .error McErr.cacheMiss
  | some v => .ok v

/-- The function `memcache.Add`: stores the item only when the key is absent. -/
def mcAdd (m : Memcache) (key value : String) : Memcache × Option McErr :=
  match m.lookup key with
  | none => (m.insert key value, none)
  | some _ => (m, some McErr.notStored)

/-- The function `memcache.Delete`. -/
def mcDelete (m : Memcache) (key : String) : Memcache × Option McErr :=
  match m.lookup key with
  | none => (m, some McErr.cacheMiss)
  | some _ => (m.erase key, none)

/-- The method `MemcacheDeduper.Add` (lines 15-26). -/
def MemcacheDeduper.Add (m : Memcache) (key value : String) : Memcache × Option DedupeErr :=
  match mcAdd m key value with
  | (m1, some err) =>
    if err = McErr.notStored then (m1, some DedupeErr.keyExistsOnWrite)
    else (m1, some (DedupeErr.storage err))
  | (m1, none) => (m1, none)

/-- The method `MemcacheDeduper.Exists` (lines 28-34). -/
def MemcacheDeduper.Exists (m : Memcache) (key : String) : Bool × Option DedupeErr :=
  match mcGet m key with
  | .error _ => (false, some DedupeErr.unknown)
  | .ok _ => (true, none)

/-- The method `MemcacheDeduper.Remove` (lines 36-42). -/
def MemcacheDeduper.Remove (m : Memcache) (key : String) : Memcache × Option DedupeErr :=
  match mcDelete m key with
  | (m1, some _) => (m1, some DedupeErr.unknown)
  | (m1, none) => (m1, none)

/-- The interface `DeduperStorage`, over the state `σ` of the storage. -/
structure DeduperStorage (σ : Type) where
  Exists : σ → String → Bool × Option DedupeErr
  Add : σ → String → String → σ × Option DedupeErr
  Remove : σ → String → σ × Option DedupeErr

/-- The storage `&MemcacheDeduper{}`. -/
def memcacheStorage : DeduperStorage Memcache :=
  { Exists := MemcacheDeduper.Exists, Add := MemcacheDeduper.Add,
    Remove := MemcacheDeduper.Remove }

/-- The struct `Deduper`; the field `Type` is written `Type_`. -/
structure Deduper (σ : Type) where
  Type_ : String
  Size : Int
  Prefix : String
  Storage : DeduperStorage σ

/-- The function `adler32.Checksum`. -/
def adler32 (content : List Nat) : Nat :=
  let st := content.foldl
    (fun (st : Nat × Nat) byte =>
      let a := (st.1 + byte) % 65521
      (a, (st.2 + a) % 65521)) (1, 0)
  st.2 * 65536 + st.1

/-- The method `getRevKey` (lines 89-94); `none` is the run-time panic of `%` by
a `Size` of zero. -/
def Deduper.getRevKey {σ : Type} (f : Deduper σ) (content : List Nat) : Option String :=
  if f.Size = 0 then none
  else some (f.Prefix ++ String.mk (itoa (Int.tmod (adler32 content) f.Size)))

/-- The method `getHashKey` (lines 96-102); `md5hex` is the MD5 sum in
hexadecimal. -/
def Deduper.getHashKey {σ : Type} (md5hex : List Nat → String) (f : Deduper σ)
    (content : List Nat) : String :=
  f.Prefix ++ md5hex content

/-- The part that `revbloom` and `hashmap` share (lines 114-130 and 143-161):
look `key` up and add it with `value` when it was not seen. -/
def Deduper.seenOrAdd {σ : Type} (f : Deduper σ) (st : σ) (key value : String) :
    σ × Bool × Option DedupeErr :=
  match f.Storage.Exists st key with
  | (_, some err) => (st, false, some err)
  | (ex, none) =>
    if ex = false then
      match f.Storage.Add st key value with
      | (st1, some errr) =>
        if errr = DedupeErr.keyExistsOnWrite then (st1, true, none)
        else (st1, false, some errr)
      | (st1, none) => (st1, false, none)
    else (st, true, none)

/-- The method `revbloom` (lines 109-133). -/
def Deduper.revbloom {σ : Type} (md5hex : List Nat → String) (f : Deduper σ) (st : σ)
    (content : List Nat) : Option (σ × Bool × Option DedupeErr) :=
  match f.getRevKey content with
  | none => none
  | some key => some (f.seenOrAdd st key (md5hex content))

/-- The method `hashmap` (lines 138-164). -/
def Deduper.hashmap {σ : Type} (md5hex : List Nat → String) (f : Deduper σ) (st : σ)
    (content : List Nat) : σ × Bool × Option DedupeErr :=
  f.seenOrAdd st (f.getHashKey md5hex content) "1"

/-- The method `Contains` (lines 61-71): the storage afterwards, the answer and
the error; `none` when `getRevKey` panics. -/
def Deduper.Contains {σ : Type} (md5hex : List Nat → String) (f : Deduper σ) (st : σ)
    (content : List Nat) : Option (σ × Bool × Option DedupeErr) :=
  if f.Type_ = "revbloom" then f.revbloom md5hex st content
  else if f.Type_ = "hashmap" then some (f.hashmap md5hex st content)
  else some (st, false, none)

/-- The deduper of the package comment, with a hash map. -/
def firehoseDeduper : Deduper Memcache :=
  { Type_ := "hashmap", Size := 1000000, Prefix := "dedupe:firehose:memcache",
    Storage := memcacheStorage }

/-! ## Session tokens (`auth/parse.go`) -/

/-- The bytes of a string, `[]byte(s)`. -/
def utf8Bytes (s : List Char) : List Nat :=
  (s.flatMap String.utf8EncodeChar).map UInt8.toNat

/-- The function `strings.Split(s, sep)` for a separator of one or more
characters: `skip` counts the characters of a separator just found that are
still to be passed over. -/
def splitSubAux (sep : List Char) : Nat → List Char → List (List Char)
  | _, [] => [[]]
  | skip + 1, _ :: cs => splitSubAux sep skip cs
  | 0, c :: cs =>
    if sep.isPrefixOf (c :: cs) then [] :: splitSubAux sep (sep.length - 1) cs
    else
      match splitSubAux sep 0 cs with
      | [] => [[c]]
      | piece :: pieces => (c :: piece) :: pieces

/-- The function `strings.Split(s, sep)` for a non-empty `sep`. -/
def splitSub (sep s : List Char) : List (List Char) :=
  splitSubAux sep 0 s

/-- The function `strings.SplitN(s, sep, 2)` for a one-character separator, when
it returns two parts: what stands before the first `sep` and what stands after
it; `none` when `s` has no `sep`. -/
def splitFirst (sep : Char) : List Char → Option (List Char × List Char)
  | [] => none
  | c :: cs =>
    if c = sep then some ([], cs)
    else (splitFirst sep cs).map (fun kv => (c :: kv.1, kv.2))

/-- The collaborators of `FromSessionToken`. -/
structure TokenWorld where
  /-- The bytes `base64.StdEncoding.DecodeString` returns (its error is dropped
  at line 62). -/
  decode : String → List Nat
  /-- Whether `verify(sig, data)` accepts the signature. -/
  verify : List Nat → List Nat → Bool

/-- The two ways `FromSessionToken` fails. -/
inductive TokenErr where
  | invalid
  | badSignature
deriving DecidableEq, Repr

/-- The body of the loop over the parts of the token (lines 31-64). -/
def applyPart (w : TokenWorld) (u : User) (part : List Char) : User :=
  match splitFirst '=' part with
  | none => u
  | some (k, v) =>
    if k = "am".data then { u with Mech := String.mk v }
    else if k = "d".data then { u with Device := String.mk v }
    else if k = "id".data then { u with Id := String.mk v }
    else if k = "ct".data then
      match atoi v with
      | .error _ => u
      | .ok i => { u with CreatedTs := timeUnix i 0 }
    else if k = "et".data then
      match atoi v with
      | .error _ => u
      | .ok i => { u with ExpiryTs := timeUnix i 0 }
    else if k = "rt".data then
      match atoi v with
      | .error _ => u
      | .ok i => { u with RenewTs := timeUnix i 0 }
    else if k = "r".data then { u with Roles := (splitChar ',' v).map String.mk }
    else if k = "sig".data then { u with Sig := w.decode (String.mk v) }
    else u

/-- The user as it stands after the loop and the assignment of `Data` (lines
27-69). -/
def parsedUser (w : TokenWorld) (s t : String) : User :=
  let u0 : User :=
    { SessId := s, Mech := "", Device := "", Id := "", CreatedTs := zeroTime,
      ExpiryTs := zeroTime, RenewTs := zeroTime, Roles := [], Token := utf8Bytes t.data,
      Sig := [], Data := [] }
  let u1 := (splitChar ':' t.data).foldl (applyPart w) u0
  match splitSub ":sig=".data t.data with
  | [signed, _] => { u1 with Data := utf8Bytes signed }
  | _ => u1

/-- The checks of `userVal` (lines 13-21): the seven fields are not empty. -/
def userValid (u : User) : Bool :=
  decide (u.SessId ≠ "" ∧ u.Mech ≠ "" ∧ u.Device ≠ "" ∧ u.Id ≠ "" ∧ u.Sig ≠ [] ∧
    u.CreatedTs ≠ zeroTime ∧ u.ExpiryTs ≠ zeroTime)

/-- The function `FromSessionToken` (lines 26-84). -/
def FromSessionToken (w : TokenWorld) (s t : String) : Except TokenErr User :=
  let u := parsedUser w s t
  if userValid u then
    if w.verify u.Sig u.Data then .ok u else .error TokenErr.badSignature
  else .error TokenErr.invalid

/-- A token of the form of the comment at line 29, with the role `CUSTOMER`. -/
def customerToken : String :=
  "am=admin:d=cli:id=dave:ct=1372942090:et=1372970890:rt=:r=CUSTOMER:sig=c2ln"

/-- The token `customerToken` with a role appended after the signature. -/
def forgedToken : String :=
  "am=admin:d=cli:id=dave:ct=1372942090:et=1372970890:rt=:r=CUSTOMER:sig=c2ln:r=ADMIN"

/-- The text that stands before `:sig=` in both tokens. -/
def signedText : String :=
  "am=admin:d=cli:id=dave:ct=1372942090:et=1372970890:rt=:r=CUSTOMER"

/-- A world whose key signs `signedText` with the signature that `c2ln` encodes
(the bytes of `sig`) and nothing else. -/
def customerKey : TokenWorld :=
  { decode := fun s => if s = "c2ln" then [115, 105, 103] else [],
    verify := fun sig data => decide (sig = [115, 105, 103] ∧ data = utf8Bytes signedText.data) }

/-- The user of `customerToken` with every field but `Token` and `Roles`. -/
def daveWith (w : TokenWorld) (s : String) (token : String) (roles : List String) : User :=
  { SessId := s, Mech := "admin", Device := "cli", Id := "dave",
    CreatedTs := timeUnix 1372942090 0, ExpiryTs := timeUnix 1372970890 0, RenewTs := zeroTime,
    Roles := roles, Token := utf8Bytes token.data, Sig := w.decode "c2ln",
    Data := utf8Bytes signedText.data }

/-! ## Lemmas: binary64 rounding and `durationToSeconds` -/

theorem roundHalfEven_intCast (k : Int) : roundHalfEven (k : ℚ) = k := by
  simp [roundHalfEven]

theorem abs_roundHalfEven_sub_le (y : ℚ) : |(roundHalfEven y : ℚ) - y| ≤ 1 / 2 := by
  have h1 : (⌊y⌋ : ℚ) ≤ y := Int.floor_le y
  have h2 : y < ⌊y⌋ + 1 := Int.lt_floor_add_one y
  unfold roundHalfEven
  simp only
  rw [abs_le]
  split_ifs with ha hb hc
  · constructor <;> linarith
  · push_cast; constructor <;> linarith
  · constructor <;> linarith
  · push_cast; constructor <;> linarith

theorem binadeF64_eq {x : ℚ} (hx : (2 : ℚ) ^ (-1022 : ℤ) ≤ x) : binadeF64 x = Int.log 2 x := by
  have hpos : (0 : ℚ) < x := lt_of_lt_of_le (by positivity) hx
  unfold binadeF64
  rw [abs_of_pos hpos]
  apply max_eq_left
  have := (Int.zpow_le_iff_le_log (b := 2) (by norm_num) hpos (x := -1022)).1 (by exact_mod_cast hx)
  exact this

theorem roundF64_close {x : ℚ} (hx : (2 : ℚ) ^ (-1022 : ℤ) ≤ x) :
    |roundF64 x - x| ≤ x / 2 ^ 53 := by
  have hpos : (0 : ℚ) < x := lt_of_lt_of_le (by positivity) hx
  have hlog : ((2 : ℕ) : ℚ) ^ Int.log 2 x ≤ x := Int.zpow_log_le_self (by norm_num) hpos
  unfold roundF64
  rw [if_neg (ne_of_gt hpos), binadeF64_eq hx]
  simp only
  set e := Int.log 2 x with he
  have hu : (0 : ℚ) < 2 ^ (e - 52) := by positivity
  have hr := abs_roundHalfEven_sub_le (x / 2 ^ (e - 52))
  have key : (roundHalfEven (x / 2 ^ (e - 52)) : ℚ) * 2 ^ (e - 52) - x
      = ((roundHalfEven (x / 2 ^ (e - 52)) : ℚ) - x / 2 ^ (e - 52)) * 2 ^ (e - 52) := by
    field_simp
  rw [key, abs_mul, abs_of_pos hu]
  have h53 : (2 : ℚ) ^ (e - 52) = 2 ^ e / 2 ^ 52 := by
    rw [zpow_sub₀ (by norm_num)]; norm_num
  have hle : (2 : ℚ) ^ e ≤ x := by exact_mod_cast hlog
  calc |(roundHalfEven (x / 2 ^ (e - 52)) : ℚ) - x / 2 ^ (e - 52)| * 2 ^ (e - 52)
      ≤ 1 / 2 * 2 ^ (e - 52) := by gcongr
    _ = 2 ^ e / 2 ^ 53 := by rw [h53]; ring
    _ ≤ x / 2 ^ 53 := by gcongr

theorem roundF64_exact (m k : ℕ) (hm : m < 2 ^ 53) (hk : k ≤ 1022) :
    roundF64 ((m : ℚ) / 2 ^ k) = (m : ℚ) / 2 ^ k := by
  rcases Nat.eq_zero_or_pos m with h0 | hmpos
  · subst h0; simp [roundF64]
  set x : ℚ := (m : ℚ) / 2 ^ k with hxdef
  have hpos : (0 : ℚ) < x := by positivity
  have hlow : (2 : ℚ) ^ (-(k : ℤ)) ≤ x := by
    rw [hxdef, zpow_neg, zpow_natCast, inv_eq_one_div]
    gcongr
    exact_mod_cast hmpos
  have hx : (2 : ℚ) ^ (-1022 : ℤ) ≤ x :=
    le_trans (zpow_le_zpow_right₀ (by norm_num) (by omega)) hlow
  have hup : x < ((2 : ℕ) : ℚ) ^ ((53 : ℤ) - k) := by
    rw [hxdef]
    push_cast
    rw [zpow_sub₀ (by norm_num), zpow_natCast]
    gcongr
    exact_mod_cast hm
  have he : Int.log 2 x < 53 - k := (Int.lt_zpow_iff_log_lt (by norm_num) hpos).1 hup
  unfold roundF64
  rw [if_neg (ne_of_gt hpos), binadeF64_eq hx]
  simp only
  set e := Int.log 2 x with hedef
  obtain ⟨j, hj⟩ : ∃ j : ℕ, (j : ℤ) = 52 - k - e := ⟨(52 - k - e).toNat, by omega⟩
  have hexp : e - 52 = -((j : ℤ) + k) := by omega
  have hu : (2 : ℚ) ^ (e - 52) = 1 / (2 ^ j * 2 ^ k) := by
    rw [hexp, zpow_neg, zpow_add₀ (by norm_num), zpow_natCast, zpow_natCast, inv_eq_one_div]
  have hq : x / 2 ^ (e - 52) = ((m * 2 ^ j : ℤ) : ℚ) := by
    rw [hu, hxdef]
    push_cast
    field_simp
    ring
  rw [hq, roundHalfEven_intCast, hu, hxdef]
  push_cast
  field_simp
  ring

theorem roundF64_intCast (n : Int) (h0 : 0 ≤ n) (h1 : n < 2 ^ 53) : roundF64 (n : ℚ) = n := by
  obtain ⟨m, rfl⟩ := Int.eq_ofNat_of_zero_le h0
  have := roundF64_exact m 0 (by exact_mod_cast h1) (by norm_num)
  simpa using this

theorem ceil_seconds (d : Int) (h0 : 0 ≤ d) (h1 : d < 2 ^ 20 * 10 ^ 9) :
    ⌈Duration.Seconds d⌉ = ⌈(d : ℚ) / 10 ^ 9⌉ := by
  have hsecond : second = 10 ^ 9 := by norm_num [second]
  unfold Duration.Seconds
  simp only
  rw [Int.tdiv_eq_ediv h0 (by norm_num [second]), Int.tmod_eq_emod h0 (by norm_num [second]),
    hsecond]
  set sec : Int := d / 10 ^ 9 with hsec
  set nsec : Int := d % 10 ^ 9 with hnsec
  have hd : d = sec * 10 ^ 9 + nsec := by
    rw [hsec, hnsec, mul_comm]; exact (Int.ediv_add_emod d (10 ^ 9)).symm
  have hn0 : 0 ≤ nsec := Int.emod_nonneg d (by norm_num)
  have hn1 : nsec < 10 ^ 9 := Int.emod_lt_of_pos d (by norm_num)
  have hs0 : 0 ≤ sec := Int.ediv_nonneg h0 (by norm_num)
  have hs1 : sec < 2 ^ 20 := by
    rw [hsec]; exact Int.ediv_lt_of_lt_mul (by norm_num) h1
  have hrs : roundF64 (sec : ℚ) = sec := roundF64_intCast sec hs0 (by omega)
  have hrn : roundF64 (nsec : ℚ) = nsec := roundF64_intCast nsec hn0 (by omega)
  have hdq : (d : ℚ) / 10 ^ 9 = sec + (nsec : ℚ) / 10 ^ 9 := by
    rw [hd]; push_cast; ring
  rw [hrs, hrn, hdq]
  have hs0q : (0 : ℚ) ≤ sec := by exact_mod_cast hs0
  have hs1q : (sec : ℚ) ≤ 2 ^ 20 := by exact_mod_cast le_of_lt hs1
  by_cases hz : nsec = 0
  · rw [hz]
    have h00 : roundF64 (((0 : ℤ) : ℚ) / 1000000000) = 0 := by simp [roundF64]
    rw [h00]
    simp [hrs]
  · have hn0' : (1 : ℚ) ≤ nsec := by exact_mod_cast (show (1 : ℤ) ≤ nsec by omega)
    have hn1' : (nsec : ℚ) ≤ 10 ^ 9 - 1 := by exact_mod_cast (show nsec ≤ 10 ^ 9 - 1 by omega)
    set a : ℚ := (nsec : ℚ) / 1000000000 with ha
    have ha0 : (1 : ℚ) / 10 ^ 9 ≤ a := by
      rw [ha]; norm_num; linarith
    have ha1 : a ≤ 1 - 1 / 10 ^ 9 := by
      rw [ha]
      rw [div_le_iff₀ (by norm_num)]
      norm_num
      linarith
    have hsmall : (2 : ℚ) ^ (-1022 : ℤ) ≤ 2 ^ (-31 : ℤ) :=
      zpow_le_zpow_right₀ (by norm_num) (by norm_num)
    have h31 : (2 : ℚ) ^ (-31 : ℤ) = 1 / 2147483648 := by norm_num
    have hq := roundF64_close (x := a) (le_trans hsmall (by rw [h31]; linarith))
    rw [abs_le] at hq
    set q : ℚ := roundF64 a with hqdef
    have hqlo : (1 : ℚ) / 2147483648 ≤ q := by linarith [hq.1]
    have hb := roundF64_close (x := (sec : ℚ) + q)
      (le_trans hsmall (by rw [h31]; linarith))
    rw [abs_le] at hb
    set s : ℚ := roundF64 ((sec : ℚ) + q) with hsdef
    have e1 : ⌈s⌉ = sec + 1 := by
      rw [Int.ceil_eq_iff]
      push_cast
      constructor
      · linarith [hb.1, hq.1]
      · linarith [hb.2, hq.2]
    have e2 : ⌈(sec : ℚ) + (nsec : ℚ) / 10 ^ 9⌉ = sec + 1 := by
      rw [Int.ceil_eq_iff]
      push_cast
      have : (nsec : ℚ) / 10 ^ 9 = a := by rw [ha]; norm_num
      rw [this]
      constructor <;> linarith
    rw [e1, e2]

theorem truncToInt_intCast (bits : Nat) (t : Int) (h0 : 0 ≤ t)
    (h1 : t < (2 : Int) ^ (bits - 1)) : truncToInt bits (t : ℚ) = some t := by
  unfold truncToInt
  have hq : (0 : ℚ) ≤ t := by exact_mod_cast h0
  simp only [hq, if_true, Int.floor_intCast]
  rw [if_pos]
  constructor
  · have : (0 : Int) ≤ 2 ^ (bits - 1) := by positivity
    omega
  · exact h1

theorem ceil_div_bounds (d : Int) (h0 : 0 ≤ d) (h1 : d < 2 ^ 20 * 10 ^ 9) :
    0 ≤ ⌈(d : ℚ) / 10 ^ 9⌉ ∧ ⌈(d : ℚ) / 10 ^ 9⌉ ≤ 2 ^ 20 := by
  constructor
  · apply Int.ceil_nonneg
    have : (0 : ℚ) ≤ d := by exact_mod_cast h0
    positivity
  · rw [Int.ceil_le]
    have : (d : ℚ) < 2 ^ 20 * 10 ^ 9 := by exact_mod_cast h1
    rw [div_le_iff₀ (by norm_num)]
    push_cast
    linarith

theorem durationToSeconds_of_scaled (d1 : Int) (h0 : 0 ≤ d1) (h1 : d1 < 2 ^ 20 * 10 ^ 9) :
    truncToInt 32 ((⌈Duration.Seconds d1⌉ : Int) : ℚ) = some ⌈(d1 : ℚ) / 10 ^ 9⌉ := by
  rw [ceil_seconds d1 h0 h1]
  obtain ⟨hlo, hhi⟩ := ceil_div_bounds d1 h0 h1
  have h31 : (2 : Int) ^ (32 - 1) = 2147483648 := by norm_num
  exact truncToInt_intCast 32 _ hlo (by rw [h31]; omega)

theorem durationToSeconds_one (n : Int) (h0 : 0 ≤ n) (h1 : n < 2 ^ 20 * 10 ^ 9) :
    durationToSeconds n 1 = some ⌈(n : ℚ) / 10 ^ 9⌉ := by
  unfold durationToSeconds
  simp only [ne_eq, one_ne_zero, not_false_eq_true, if_true, mul_one]
  rw [roundF64_intCast n h0 (by omega), roundF64_intCast n h0 (by omega),
    truncToInt_intCast 64 n h0 (by norm_num; omega)]
  exact durationToSeconds_of_scaled n h0 h1

theorem durationToSeconds_threeHalves (n : Int) (h0 : 0 ≤ n) (h1 : n < 2 ^ 19 * 10 ^ 9) :
    durationToSeconds n (3 / 2) = some ⌈((3 * n / 2 : Int) : ℚ) / 10 ^ 9⌉ := by
  unfold durationToSeconds
  have hf : ((3 : ℚ) / 2 ≠ 0) := by norm_num
  simp only [hf, ne_eq, not_false_eq_true, if_true]
  rw [roundF64_intCast n h0 (by omega)]
  obtain ⟨m, rfl⟩ := Int.eq_ofNat_of_zero_le h0
  have hm : 3 * m < 2 ^ 53 := by omega
  have hex := roundF64_exact (3 * m) 1 hm (by norm_num)
  have hprod : ((m : ℤ) : ℚ) * (3 / 2) = ((3 * m : ℕ) : ℚ) / 2 ^ 1 := by
    push_cast; ring
  rw [hprod, hex]
  have hfloor : ⌊((3 * m : ℕ) : ℚ) / 2 ^ 1⌋ = (3 * (m : ℤ)) / 2 := by
    have := Rat.floor_intCast_div_natCast (3 * (m : ℤ)) 2
    push_cast at this ⊢
    simpa using this
  have hnn : (0 : ℚ) ≤ ((3 * m : ℕ) : ℚ) / 2 ^ 1 := by positivity
  have htr : truncToInt 64 (((3 * m : ℕ) : ℚ) / 2 ^ 1) = some ((3 * (m : ℤ)) / 2) := by
    unfold truncToInt
    simp only [hnn, if_true, hfloor]
    rw [if_pos]
    constructor <;> omega
  rw [htr]
  exact durationToSeconds_of_scaled _ (by omega) (by omega)

theorem ceil_nanos (d : Int) (K : Int) :
    ⌈(d : ℚ) / 10 ^ 9⌉ = K ↔ (10 ^ 9 * (K - 1) < d ∧ d ≤ 10 ^ 9 * K) := by
  rw [Int.ceil_eq_iff, lt_div_iff₀ (by norm_num), div_le_iff₀ (by norm_num)]
  constructor
  · rintro ⟨h1, h2⟩
    constructor
    · have : ((10 ^ 9 * (K - 1) : ℤ) : ℚ) < (d : ℚ) := by push_cast; linarith
      exact_mod_cast this
    · have : (d : ℚ) ≤ ((10 ^ 9 * K : ℤ) : ℚ) := by push_cast; linarith
      exact_mod_cast this
  · rintro ⟨h1, h2⟩
    have h1' : ((10 ^ 9 * (K - 1) : ℤ) : ℚ) < (d : ℚ) := by exact_mod_cast h1
    have h2' : (d : ℚ) ≤ ((10 ^ 9 * K : ℤ) : ℚ) := by exact_mod_cast h2
    push_cast at h1' h2'
    constructor <;> linarith

theorem ceil_threeHalves (n : Int) (hex : (3 * n) % 2000000000 ≠ 1) :
    ⌈((3 * n / 2 : Int) : ℚ) / 10 ^ 9⌉ = ⌈(3 / 2 : ℚ) * n / 10 ^ 9⌉ := by
  obtain ⟨h1, h2⟩ := (ceil_nanos (3 * n / 2) _).1 rfl
  set K := ⌈((3 * n / 2 : Int) : ℚ) / 10 ^ 9⌉ with hK
  symm
  rw [Int.ceil_eq_iff, lt_div_iff₀ (by norm_num), div_le_iff₀ (by norm_num)]
  have a1 : 2 * 10 ^ 9 * (K - 1) < 3 * n := by omega
  have a2 : 3 * n ≤ 2 * 10 ^ 9 * K := by
    by_contra hc
    have heq : 3 * n = 1 + 2000000000 * K := by omega
    apply hex
    rw [heq, Int.add_mul_emod_self_left]
    rfl
  have a1' : ((2 * 10 ^ 9 * (K - 1) : ℤ) : ℚ) < ((3 * n : ℤ) : ℚ) := by exact_mod_cast a1
  have a2' : ((3 * n : ℤ) : ℚ) ≤ ((2 * 10 ^ 9 * K : ℤ) : ℚ) := by exact_mod_cast a2
  push_cast at a1' a2'
  constructor <;> linarith

/-! ## Lemmas: the lease protocol -/

namespace GlobalLockProtocol

theorem head_readRow {row : List Nat} {u : Nat} (h : (readRow row).head? = some u) :
    u ∈ row ∧ ∀ v ∈ row, u ≤ v := by
  unfold readRow at h
  have hs : (row.insertionSort (fun a b => a ≤ b)).Sorted (fun a b => a ≤ b) :=
    List.sorted_insertionSort _ row
  have hp := List.perm_insertionSort (fun a b : Nat => a ≤ b) row
  cases hl : row.insertionSort (fun a b => a ≤ b) with
  | nil => rw [hl] at h; simp at h
  | cons x xs =>
    rw [hl] at h hs hp
    simp at h
    subst h
    constructor
    · exact hp.subset (List.mem_cons_self _ _)
    · intro v hv
      have hv' : v ∈ x :: xs := hp.symm.subset hv
      rcases List.mem_cons.1 hv' with rfl | hv''
      · exact le_refl _
      · exact List.rel_of_sorted_cons hs v hv''

theorem inv_init : Inv init := by
  refine ⟨?_, ?_, ?_⟩ <;> intro c <;> simp [init, Phase.lockId]

theorem setPhase_self (f : Nat → Phase) (c : Nat) (p : Phase) : setPhase f c p c = p := by
  simp [setPhase]

theorem setPhase_other (f : Nat → Phase) {c d : Nat} (p : Phase) (h : d ≠ c) :
    setPhase f c p d = f d := by
  simp [setPhase, h]

theorem inv_gen {s : State} (hs : Inv s) (c : Nat) : Inv (step s (.gen c)) := by
  simp only [step]
  split
  case h_2 => exact hs
  rename_i hp
  refine ⟨?_, ?_, ?_⟩
  · intro a b u ha hb
    by_cases hac : a = c <;> by_cases hbc : b = c
    · rw [hac, hbc]
    · subst hac
      simp only [setPhase_self, setPhase_other _ _ hbc, Phase.lockId, Option.some.injEq] at ha hb
      have := hs.fresh b u hb
      omega
    · subst hbc
      simp only [setPhase_self, setPhase_other _ _ hac, Phase.lockId, Option.some.injEq] at ha hb
      have := hs.fresh a u ha
      omega
    · simp only [setPhase_other _ _ hbc, setPhase_other _ _ hac] at ha hb
      exact hs.unique a b u ha hb
  · intro a u ha
    by_cases hac : a = c
    · subst hac
      simp only [setPhase_self, Phase.lockId, Option.some.injEq] at ha
      show u < s.clock + 1
      omega
    · simp only [setPhase_other _ _ hac] at ha
      have := hs.fresh a u ha
      show u < s.clock + 1
      omega
  · intro a u ha
    by_cases hac : a = c
    · subst hac
      simp only [setPhase_self] at ha
      cases ha
    · simp only [setPhase_other _ _ hac] at ha
      exact hs.least a u ha

theorem lockId_setPhase_same {f : Nat → Phase} {c : Nat} {p : Phase}
    (h : p.lockId = (f c).lockId) (a : Nat) :
    (setPhase f c p a).lockId = (f a).lockId := by
  by_cases hac : a = c
  · subst hac; rw [setPhase_self, h]
  · rw [setPhase_other _ _ hac]

theorem inv_write {s : State} (hs : Inv s) (c : Nat)
    (hw : writeInOrder s (.write c) = true) : Inv (step s (.write c)) := by
  simp only [step]
  simp only [writeInOrder] at hw
  split
  case h_2 => exact hs
  rename_i u hp
  simp only [hp, List.all_eq_true, decide_eq_true_eq] at hw
  have hid : ∀ a, (setPhase s.phase c (Phase.written u) a).lockId = (s.phase a).lockId :=
    lockId_setPhase_same (by rw [hp]; rfl)
  refine ⟨?_, ?_, ?_⟩
  · intro a b w ha hb
    simp only [hid] at ha hb
    exact hs.unique a b w ha hb
  · intro a w ha
    simp only [hid] at ha
    exact hs.fresh a w ha
  · intro a w ha
    by_cases hac : a = c
    · subst hac
      simp only [setPhase_self] at ha
      cases ha
    · simp only [setPhase_other _ _ hac] at ha
      obtain ⟨hm, hl⟩ := hs.least a w ha
      have hwu : w < u := hw w hm
      constructor
      · show w ∈ insertColumn u s.store
        unfold insertColumn
        split
        · exact hm
        · exact List.mem_cons_of_mem _ hm
      · intro v hv
        have hv' : v ∈ insertColumn u s.store := hv
        unfold insertColumn at hv'
        split at hv'
        · exact hl v hv'
        · rcases List.mem_cons.1 hv' with rfl | h
          · omega
          · exact hl v h

theorem inv_read {s : State} (hs : Inv s) (c : Nat) : Inv (step s (.read c)) := by
  simp only [step]
  split
  case h_2 => exact hs
  rename_i u hp
  split
  · rename_i hhead
    have hid : ∀ a, (setPhase s.phase c (Phase.won u) a).lockId = (s.phase a).lockId :=
      lockId_setPhase_same (by rw [hp]; rfl)
    refine ⟨?_, ?_, ?_⟩
    · intro a b w ha hb
      simp only [hid] at ha hb
      exact hs.unique a b w ha hb
    · intro a w ha
      simp only [hid] at ha
      exact hs.fresh a w ha
    · intro a w ha
      by_cases hac : a = c
      · subst hac
        simp only [setPhase_self, Phase.won.injEq] at ha
        subst ha
        exact head_readRow hhead
      · simp only [setPhase_other _ _ hac] at ha
        exact hs.least a w ha
  · exact hs

theorem inv_release {s : State} (hs : Inv s) (c u : Nat)
    (hu : (s.phase c).lockId = some u) :
    Inv { clock := s.clock, store := deleteColumn u s.store,
          phase := setPhase s.phase c Phase.done } := by
  refine ⟨?_, ?_, ?_⟩
  · intro a b w ha hb
    by_cases hac : a = c
    · subst hac
      simp only [setPhase_self, Phase.lockId] at ha
      cases ha
    · by_cases hbc : b = c
      · subst hbc
        simp only [setPhase_self, Phase.lockId] at hb
        cases hb
      · simp only [setPhase_other _ _ hbc, setPhase_other _ _ hac] at ha hb
        exact hs.unique a b w ha hb
  · intro a w ha
    by_cases hac : a = c
    · subst hac
      simp only [setPhase_self, Phase.lockId] at ha
      cases ha
    · simp only [setPhase_other _ _ hac] at ha
      exact hs.fresh a w ha
  · intro a w ha
    by_cases hac : a = c
    · subst hac
      simp only [setPhase_self] at ha
      cases ha
    · simp only [setPhase_other _ _ hac] at ha
      obtain ⟨hm, hl⟩ := hs.least a w ha
      have hne : w ≠ u := by
        intro h
        apply hac
        apply hs.unique a c u _ hu
        rw [ha, ← h]; rfl
      constructor
      · show w ∈ deleteColumn u s.store
        unfold deleteColumn
        simp [hm, hne]
      · intro v hv
        have hv' : v ∈ deleteColumn u s.store := hv
        unfold deleteColumn at hv'
        exact hl v (List.mem_filter.1 hv').1

theorem inv_unlock {s : State} (hs : Inv s) (c : Nat) : Inv (step s (.unlock c)) := by
  simp only [step]
  split
  · rename_i u hp
    exact inv_release hs c _ (by rw [hp]; rfl)
  · rename_i u hp
    exact inv_release hs c _ (by rw [hp]; rfl)
  · exact hs

theorem inv_step {s : State} (hs : Inv s) (a : Action) (hw : writeInOrder s a = true) :
    Inv (step s a) := by
  cases a with
  | gen c => exact inv_gen hs c
  | write c => exact inv_write hs c hw
  | read c => exact inv_read hs c
  | unlock c => exact inv_unlock hs c

theorem inv_run (acts : List Action) : ∀ s : State, Inv s → writesInOrder s acts = true →
    Inv (run s acts) := by
  induction acts with
  | nil => intro s hs _; exact hs
  | cons a rest ih =>
    intro s hs hw
    simp only [writesInOrder, Bool.and_eq_true] at hw
    exact ih (step s a) (inv_step hs a hw.1) hw.2

theorem mutualExclusion_of_inv {s : State} (hs : Inv s) : MutualExclusion s := by
  intro c d hc hd
  obtain ⟨u, hu⟩ := hc
  obtain ⟨w, hw⟩ := hd
  obtain ⟨hum, hul⟩ := hs.least c u hu
  obtain ⟨hwm, hwl⟩ := hs.least d w hw
  have h1 := hul w hwm
  have h2 := hwl u hum
  have huw : u = w := le_antisymm h1 h2
  apply hs.unique c d u
  · rw [hu]; rfl
  · rw [hw, huw]; rfl

end GlobalLockProtocol

/-! ## Lemmas: `GlobalTimedLock` -/

theorem pollLoop_spec (l : globalLock) (waitFor start : Int) (up : Option StoreErr) :
    ∀ (polls : List Poll) (attempts errs : Nat) (tr : List Event) (o : Outcome),
      pollLoop l waitFor start up polls attempts errs tr = some o →
      (o.lock = some l ∧ o.err = none ∧
        ∃ mid, pollEvents l.id mid ∧ o.trace = tr ++ mid ++ [Event.goRefresher]) ∨
      (o.lock = none ∧ o.err = some LockErr.errContended ∧
        ∃ mid, pollEvents l.id mid ∧ o.trace = tr ++ mid ++ (l.Unlock up).2) := by
  intro polls
  induction polls with
  | nil => intro attempts errs tr o h; simp [pollLoop] at h
  | cons p rest ih =>
    intro attempts errs tr o h
    have hstep : ∀ tr1 : List Event,
        (tr1 = (if attempts > 0 then tr ++ [Event.sleep] else tr) ++ [Event.get l.id]) →
        ∃ pre, pollEvents l.id pre ∧ tr1 = tr ++ pre := by
      intro tr1 h1
      by_cases ha : attempts > 0
      · refine ⟨[Event.sleep, Event.get l.id], ?_, ?_⟩
        · intro e he; simp at he; rcases he with rfl | rfl <;> simp
        · rw [h1, if_pos ha]; simp
      · refine ⟨[Event.get l.id], ?_, ?_⟩
        · intro e he; simp at he; subst he; simp
        · rw [h1, if_neg ha]
    have hrec : ∀ (a e : Nat) (o : Outcome),
        pollLoop l waitFor start up rest a e
          ((if attempts > 0 then tr ++ [Event.sleep] else tr) ++ [Event.get l.id]) = some o →
        (o.lock = some l ∧ o.err = none ∧
          ∃ mid, pollEvents l.id mid ∧ o.trace = tr ++ mid ++ [Event.goRefresher]) ∨
        (o.lock = none ∧ o.err = some LockErr.errContended ∧
          ∃ mid, pollEvents l.id mid ∧ o.trace = tr ++ mid ++ (l.Unlock up).2) := by
      intro a e o ho
      obtain ⟨pre, hpre, hpe⟩ := hstep _ rfl
      rcases ih a e _ o ho with ⟨h1, h2, mid, hm, ht⟩ | ⟨h1, h2, mid, hm, ht⟩
      · left
        refine ⟨h1, h2, pre ++ mid, ?_, ?_⟩
        · intro x hx
          rcases List.mem_append.1 hx with hx | hx
          · exact hpre x hx
          · exact hm x hx
        · rw [ht, hpe]; simp
      · right
        refine ⟨h1, h2, pre ++ mid, ?_, ?_⟩
        · intro x hx
          rcases List.mem_append.1 hx with hx | hx
          · exact hpre x hx
          · exact hm x hx
        · rw [ht, hpe]; simp
    simp only [pollLoop] at h
    split at h
    · right
      cases h
      exact ⟨rfl, rfl, [], (fun e he => by cases he), by simp⟩
    · split at h
      · exact hrec _ _ o h
      · exact hrec _ _ o h
      · exact hrec _ _ o h
      · split at h
        · left
          cases h
          obtain ⟨pre, hpre, hpe⟩ := hstep _ rfl
          exact ⟨rfl, rfl, pre, hpre, by simp only; rw [hpe]⟩
        · exact hrec _ _ o h

theorem count_pollEvents {id : List Nat} {mid : List Event} (h : pollEvents id mid)
    (e : Event) (h1 : e ≠ Event.sleep) (h2 : e ≠ Event.get id) : mid.count e = 0 := by
  rw [List.count_eq_zero]
  intro he
  rcases h e he with h | h
  · exact h1 h
  · exact h2 h

theorem GlobalTimedLock_polling {w : World} {id u : List Nat} {waitFor holdFor : Int}
    (hmin : minHoldFor ≤ holdFor) (hu : w.uuid = some u) (hp : w.pool = none)
    (hw : w.write = none) :
    GlobalTimedLock w id waitFor holdFor =
      pollLoop { id := id, lockId := u, exitClosed := false, unlocked := false } waitFor w.start
        w.unlockPool w.polls 0 0
        [Event.newTimeUUID, Event.connectionPool,
          Event.insert id u (durationToSeconds holdFor 1)] := by
  unfold GlobalTimedLock
  rw [if_neg (not_lt.2 hmin)]
  simp only [hu, hp, hw]

theorem GlobalTimedLock_insert_mem (w : World) (id u : List Nat) (waitFor holdFor : Int)
    (o : Outcome) (hmin : minHoldFor ≤ holdFor) (hu : w.uuid = some u) (hp : w.pool = none)
    (hret : GlobalTimedLock w id waitFor holdFor = some o) :
    Event.insert id u (durationToSeconds holdFor 1) ∈ o.trace := by
  cases hw : w.write with
  | none =>
    rw [GlobalTimedLock_polling hmin hu hp hw] at hret
    rcases pollLoop_spec _ _ _ _ _ _ _ _ o hret with ⟨_, _, mid, _, ht⟩ | ⟨_, _, mid, _, ht⟩ <;>
      rw [ht] <;> simp
  | some e =>
    unfold GlobalTimedLock at hret
    rw [if_neg (not_lt.2 hmin)] at hret
    simp only [hu, hp, hw] at hret
    cases hret
    simp

theorem pollLoop_returns (l : globalLock) (waitFor start : Int) (up : Option StoreErr) :
    ∀ (polls : List Poll) (attempts errs : Nat) (tr : List Event), 0 < attempts →
      (∃ p ∈ polls, p.now > start + waitFor) →
      (pollLoop l waitFor start up polls attempts errs tr).isSome = true := by
  intro polls
  induction polls with
  | nil => intro _ _ _ _ h; obtain ⟨p, hp, _⟩ := h; cases hp
  | cons p rest ih =>
    intro attempts errs tr ha h
    simp only [pollLoop]
    by_cases hx : p.now > start + waitFor
    · rw [if_pos ⟨ha, hx⟩]; rfl
    · have hrest : ∃ q ∈ rest, q.now > start + waitFor := by
        obtain ⟨q, hq, hqx⟩ := h
        rcases List.mem_cons.1 hq with rfl | hq
        · exact absurd hqx hx
        · exact ⟨q, hq, hqx⟩
      rw [if_neg (fun hc => hx hc.2)]
      split
      · exact ih _ _ _ (Nat.succ_pos _) hrest
      · exact ih _ _ _ (Nat.succ_pos _) hrest
      · exact ih _ _ _ (Nat.succ_pos _) hrest
      · split
        · rfl
        · exact ih _ _ _ (Nat.succ_pos _) hrest

theorem GlobalTimedLock_returns (w : World) (id : List Nat) (waitFor holdFor : Int)
    (h : ∃ p ∈ w.polls.tail, p.now > w.start + waitFor) :
    (GlobalTimedLock w id waitFor holdFor).isSome = true := by
  unfold GlobalTimedLock
  split
  · rfl
  · split
    · rfl
    · split
      · rfl
      · split
        · rfl
        · cases hpolls : w.polls with
          | nil => rw [hpolls] at h; obtain ⟨p, hp, _⟩ := h; cases hp
          | cons p rest =>
            rw [hpolls] at h
            simp only [List.tail_cons] at h
            simp only [pollLoop]
            rw [if_neg (fun hc => absurd hc.1 (by decide))]
            split
            · exact pollLoop_returns _ _ _ _ _ _ _ _ (by decide) h
            · exact pollLoop_returns _ _ _ _ _ _ _ _ (by decide) h
            · exact pollLoop_returns _ _ _ _ _ _ _ _ (by decide) h
            · split
              · rfl
              · exact pollLoop_returns _ _ _ _ _ _ _ _ (by decide) h

/-! ## Lemmas: leader election -/

theorem findLoop_plain (g : List Nat → Option Int) (now : Int) (path : String) (seq : Int) :
    ∀ (cs : List Child) (st : FindVars),
      (∀ c ∈ cs, c.data = []) → (∀ c ∈ cs, ∃ n, parseSeq c.name = .ok n) →
      (findLoop g now path seq cs st).err = none ∧
      (findLoop g now path seq cs st).lowestSeq ≤ st.lowestSeq ∧
      (∀ c ∈ cs, ∀ n, parseSeq c.name = .ok n →
        (findLoop g now path seq cs st).lowestSeq ≤ n) ∧
      ((findLoop g now path seq cs st).lowestSeq = st.lowestSeq ∨
        ∃ c ∈ cs, parseSeq c.name = .ok (findLoop g now path seq cs st).lowestSeq) := by
  intro cs
  induction cs with
  | nil =>
    intro st _ _
    simp [findLoop]
  | cons ch rest ih =>
    intro st hdata hparse
    have hd : ch.data = [] := hdata ch (List.mem_cons_self _ _)
    obtain ⟨s, hs⟩ := hparse ch (List.mem_cons_self _ _)
    have hdr : ∀ c ∈ rest, c.data = [] := fun c hc => hdata c (List.mem_cons_of_mem _ hc)
    have hpr : ∀ c ∈ rest, ∃ n, parseSeq c.name = .ok n :=
      fun c hc => hparse c (List.mem_cons_of_mem _ hc)
    -- both continuations of the loop body carry the same `lowestSeq`
    have key : ∀ st1 : FindVars,
        st1.lowestSeq = (if s < st.lowestSeq then s else st.lowestSeq) →
        (findLoop g now path seq rest st1).err = none ∧
        (findLoop g now path seq rest st1).lowestSeq ≤ st.lowestSeq ∧
        (∀ c ∈ ch :: rest, ∀ n, parseSeq c.name = .ok n →
          (findLoop g now path seq rest st1).lowestSeq ≤ n) ∧
        ((findLoop g now path seq rest st1).lowestSeq = st.lowestSeq ∨
          ∃ c ∈ ch :: rest, parseSeq c.name = .ok (findLoop g now path seq rest st1).lowestSeq) := by
      intro st1 h1
      obtain ⟨e1, e2, e3, e4⟩ := ih st1 hdr hpr
      have hle : st1.lowestSeq ≤ st.lowestSeq ∧ st1.lowestSeq ≤ s := by
        rw [h1]; split <;> constructor <;> omega
      refine ⟨e1, le_trans e2 hle.1, ?_, ?_⟩
      · intro c hc n hn
        rcases List.mem_cons.1 hc with rfl | hc
        · rw [hs] at hn
          cases hn
          exact le_trans e2 hle.2
        · exact e3 c hc n hn
      · rcases e4 with e4 | ⟨c, hc, hcn⟩
        · by_cases hlt : s < st.lowestSeq
          · right
            refine ⟨ch, List.mem_cons_self _ _, ?_⟩
            rw [e4, h1, if_pos hlt, hs]
          · left
            rw [e4, h1, if_neg hlt]
        · right
          exact ⟨c, List.mem_cons_of_mem _ hc, hcn⟩
    simp only [findLoop, hd, List.length_nil, gt_iff_lt, lt_self_iff_false, false_and,
      if_false, hs]
    split
    · exact key _ rfl
    · exact key _ rfl

theorem lowest_is_min (g : List Nat → Option Int) (now : Int) (path : String)
    (cs : List Child) (hdata : ∀ c ∈ cs, c.data = [])
    (hparse : ∀ c ∈ cs, ∃ n, parseSeq c.name = .ok n)
    (c : Child) (hc : c ∈ cs) (s : Int) (hs : parseSeq c.name = .ok s) :
    (findLowestSequenceNode g now (.ok cs) path s).err = none ∧
    (∀ d ∈ cs, ∀ n, parseSeq d.name = .ok n →
      (findLowestSequenceNode g now (.ok cs) path s).lowestSeq ≤ n) ∧
    ∃ d ∈ cs, parseSeq d.name = .ok (findLowestSequenceNode g now (.ok cs) path s).lowestSeq := by
  unfold findLowestSequenceNode
  simp only
  obtain ⟨e1, _, e3, e4⟩ := findLoop_plain g now path s cs
    { ttl := zeroTime, lowestSeq := s, prevSeq := 0, prevSeqPath := "", deleted := [] }
    hdata hparse
  refine ⟨e1, e3, ?_⟩
  rcases e4 with e4 | e4
  · exact ⟨c, hc, by rw [e4]; exact hs⟩
  · exact e4

/-! ## Lemmas: reaper -/

theorem lookup_resetPath_ne {paths : Paths} {p q : String} (h : p ≠ q) :
    (resetPath paths q).lookup p = paths.lookup p := by
  unfold resetPath
  exact AList.lookup_insert_ne h

theorem lookup_incrementPath_ne {paths : Paths} {p q : String} (h : p ≠ q) :
    (incrementPath paths q).1.lookup p = paths.lookup p := by
  unfold incrementPath
  split
  · exact AList.lookup_insert_ne h
  · rfl

theorem lookup_removePath_ne {paths : Paths} {p q : String} (h : p ≠ q) :
    (removePath paths q).lookup p = paths.lookup p := by
  unfold removePath
  split
  · split
    · exact AList.lookup_erase_ne h
    · rfl
  · rfl

theorem reapPath_other (sw : Sweep) (st : Paths × List String) {p q : String} (h : p ≠ q) :
    (reapPath sw st q).1.lookup p = st.1.lookup p ∧ (p ∈ (reapPath sw st q).2 ↔ p ∈ st.2) := by
  unfold reapPath
  split
  · simp only
    split
    · split
      · simp [lookup_removePath_ne h, lookup_incrementPath_ne h, h]
      · simp [lookup_removePath_ne h, lookup_incrementPath_ne h, h]
      · simp [lookup_resetPath_ne h, lookup_incrementPath_ne h, h]
    · simp [lookup_incrementPath_ne h]
  · simp [lookup_resetPath_ne h]

theorem reapPath_self (sw : Sweep) (st : Paths × List String) {p : String} {n : Int}
    (h : st.1.lookup p = some n) :
    (reapPath sw st p).1.lookup p = (trackedStep sw p n).1 ∧
    (p ∈ (reapPath sw st p).2 ↔ p ∈ st.2 ∨ (trackedStep sw p n).2 = true) := by
  have hinc : incrementPath st.1 p = (st.1.insert p (n + 1), n + 1) := by
    unfold incrementPath; rw [h]
  unfold reapPath trackedStep
  by_cases he : (sw.look p).empty = true
  · rw [if_pos he, if_pos he]
    simp only [hinc]
    by_cases hn : n + 1 ≥ reaperThreshold
    · rw [if_pos hn, if_pos hn]
      have hrem : (removePath (st.1.insert p (n + 1)) p).lookup p = none := by
        unfold removePath
        rw [AList.lookup_insert]
        simp only
        rw [if_pos hn]
        exact AList.lookup_erase p _
      have hres : (resetPath (st.1.insert p (n + 1)) p).lookup p = some 0 := by
        unfold resetPath; exact AList.lookup_insert _
      split
      · rename_i hd; simp [hrem, hd]
      · rename_i hd; simp [hrem, hd]
      · rename_i e hne hd
        have h1 : sw.del p ≠ none := by rw [hd]; simp
        have h2 : sw.del p ≠ some ZkErr.noNode := by
          rw [hd]; intro hc; exact hne (by cases hc; rfl)
        simp [hres, h1, h2]
    · rw [if_neg hn, if_neg hn]
      simp [AList.lookup_insert]
  · rw [if_neg he, if_neg he]
    simp [resetPath, AList.lookup_insert]

theorem foldl_reapPath_other (sw : Sweep) {p : String} :
    ∀ (l : List String) (st : Paths × List String), p ∉ l →
      (l.foldl (reapPath sw) st).1.lookup p = st.1.lookup p ∧
      (p ∈ (l.foldl (reapPath sw) st).2 ↔ p ∈ st.2) := by
  intro l
  induction l with
  | nil => intro st _; simp
  | cons q rest ih =>
    intro st hp
    have hq : p ≠ q := fun h => hp (by rw [h]; exact List.mem_cons_self _ _)
    have hr : p ∉ rest := fun h => hp (List.mem_cons_of_mem _ h)
    obtain ⟨h1, h2⟩ := ih (reapPath sw st q) hr
    obtain ⟨h3, h4⟩ := reapPath_other sw st hq
    rw [List.foldl_cons, h1, h2, h3, h4]
    exact ⟨rfl, Iff.rfl⟩

theorem foldl_reapPath_self (sw : Sweep) {p : String} {n : Int} :
    ∀ (l : List String) (st : Paths × List String), l.Nodup → p ∈ l →
      st.1.lookup p = some n →
      (l.foldl (reapPath sw) st).1.lookup p = (trackedStep sw p n).1 ∧
      (p ∈ (l.foldl (reapPath sw) st).2 ↔ p ∈ st.2 ∨ (trackedStep sw p n).2 = true) := by
  intro l
  induction l with
  | nil => intro st _ hp; cases hp
  | cons q rest ih =>
    intro st hnd hp hl
    rw [List.nodup_cons] at hnd
    rw [List.foldl_cons]
    by_cases hq : p = q
    · subst hq
      obtain ⟨h1, h2⟩ := foldl_reapPath_other sw rest (reapPath sw st p) hnd.1
      obtain ⟨h3, h4⟩ := reapPath_self sw st hl
      rw [h1, h2, h3, h4]
      exact ⟨rfl, Iff.rfl⟩
    · have hr : p ∈ rest := by
        rcases List.mem_cons.1 hp with h | h
        · exact absurd h hq
        · exact h
      obtain ⟨h3, h4⟩ := reapPath_other sw st hq
      obtain ⟨h1, h2⟩ := ih (reapPath sw st q) hnd.2 hr (by rw [h3]; exact hl)
      rw [h1, h2, h4]
      exact ⟨rfl, Iff.rfl⟩

theorem reap_tracked (sw : Sweep) (paths : Paths) {p : String} {n : Int}
    (h : paths.lookup p = some n) :
    (reap sw paths).1.lookup p = (trackedStep sw p n).1 ∧
    (p ∈ (reap sw paths).2 ↔ (trackedStep sw p n).2 = true) := by
  have hperm := (sw.order paths.keys).2
  have hnd : (sw.order paths.keys).1.Nodup := hperm.nodup_iff.2 paths.keys_nodup
  have hmem : p ∈ (sw.order paths.keys).1 := by
    apply hperm.symm.subset
    rw [← AList.mem_keys, ← AList.lookup_isSome, h]
    rfl
  obtain ⟨h1, h2⟩ := foldl_reapPath_self sw _ (paths, []) hnd hmem h
  unfold reap
  rw [h1, h2]
  simp

theorem reap_untracked (sw : Sweep) (paths : Paths) {p : String}
    (h : paths.lookup p = none) :
    (reap sw paths).1.lookup p = none ∧ p ∉ (reap sw paths).2 := by
  have hperm := (sw.order paths.keys).2
  have hmem : p ∉ (sw.order paths.keys).1 := by
    intro hc
    have := hperm.subset hc
    rw [← AList.mem_keys, ← AList.lookup_isSome, h] at this
    cases this
  obtain ⟨h1, h2⟩ := foldl_reapPath_other sw _ (paths, []) hmem
  unfold reap
  rw [h1, h2]
  exact ⟨h, by simp⟩

theorem calm_reap (sw : Sweep) (paths : Paths) (p : String) (b : Bool) (hc : calm paths p b) :
    (p ∈ (reap sw paths).2 → b = true ∧ (sw.look p).empty = true) ∧
    calm (reap sw paths).1 p (sw.look p).empty := by
  have hthr : reaperThreshold = 2 := rfl
  cases hl : paths.lookup p with
  | none =>
    obtain ⟨h1, h2⟩ := reap_untracked sw paths hl
    refine ⟨fun h => absurd h h2, ?_⟩
    intro n hn
    rw [h1] at hn
    cases hn
  | some n =>
    obtain ⟨h1, h2⟩ := reap_tracked sw paths hl
    have hn := hc n hl
    unfold trackedStep at h1 h2
    by_cases he : (sw.look p).empty = true
    · rw [if_pos he] at h1 h2
      by_cases ht : n + 1 ≥ reaperThreshold
      · rw [if_pos ht] at h1 h2
        rw [hthr] at ht
        constructor
        · intro _
          rcases hn with hn | hn
          · omega
          · exact ⟨hn.2, he⟩
        · intro m hm
          rw [h1] at hm
          simp only at hm
          split at hm
          · cases hm
          · cases hm
            left; exact le_refl _
      · rw [if_neg ht] at h1 h2
        rw [hthr] at ht
        constructor
        · intro h
          have := h2.1 h
          simp at this
        · intro m hm
          rw [h1] at hm
          simp only [Option.some.injEq] at hm
          right
          exact ⟨by omega, he⟩
    · rw [if_neg he] at h1 h2
      constructor
      · intro h
        have := h2.1 h
        simp at this
      · intro m hm
        rw [h1] at hm
        simp only [Option.some.injEq] at hm
        left; omega

theorem calm_reapAll (p : String) :
    ∀ (sweeps : List Sweep) (paths : Paths) (b : Bool), calm paths p b →
      ∀ (k : Nat) (att : List String), (reapAll sweeps paths)[k]? = some att → p ∈ att →
        (∃ cur, sweeps[k]? = some cur ∧ (cur.look p).empty = true) ∧
        (k = 0 → b = true) ∧
        (0 < k → ∃ prev, sweeps[k - 1]? = some prev ∧ (prev.look p).empty = true) := by
  intro sweeps
  induction sweeps with
  | nil => intro paths b _ k att h; simp [reapAll] at h
  | cons sw rest ih =>
    intro paths b hc k att h hp
    obtain ⟨h1, h2⟩ := calm_reap sw paths p b hc
    cases k with
    | zero =>
      simp only [reapAll, List.getElem?_cons_zero, Option.some.injEq] at h
      subst h
      obtain ⟨hb, he⟩ := h1 hp
      exact ⟨⟨sw, by simp, he⟩, fun _ => hb, fun h => absurd h (by omega)⟩
    | succ k =>
      simp only [reapAll, List.getElem?_cons_succ] at h
      obtain ⟨⟨cur, hcur, hce⟩, hz, hs⟩ := ih _ _ h2 k att h hp
      refine ⟨⟨cur, by simpa using hcur, hce⟩, fun h => absurd h (by omega), fun _ => ?_⟩
      cases k with
      | zero => exact ⟨sw, by simp, hz rfl⟩
      | succ k =>
        obtain ⟨prev, hprev, hpe⟩ := hs (by omega)
        exact ⟨prev, by simpa using hprev, hpe⟩

namespace GlobalLockProtocol

/-- C1, as amended. Mutual exclusion of the global lock as an invariant of the
reachable states: in the model of one row whose lease columns are read back
sorted by name and never expire, with any number of contenders stepping through
(generate lock id, write lease, read row and win iff the first column is the own
lock id, unlock), lock ids distinct and increasing in order of generation, every
interleaving in which each lease write carries a lock id larger than all lease
columns then in the row leaves at most one contender in the state "won and not
yet unlocked". -/
theorem globalLock_mutualExclusion_ordered (acts : List Action)
    (h : writesInOrder init acts = true) : MutualExclusion (run init acts) :=
  mutualExclusion_of_inv (inv_run acts init inv_init h)

/-- Witness of C1 as amended: two contenders that write in order; contender 1
wins only after contender 0 has unlocked. -/
theorem globalLock_mutualExclusion_ordered_witness :
    writesInOrder init promptWriters = true ∧ MutualExclusion (run init promptWriters) :=
  ⟨by decide, globalLock_mutualExclusion_ordered promptWriters (by decide)⟩

/-- Counterexample to C1 as stated: contender 0 generates its lock id first,
contender 1 generates, writes and wins, then contender 0 writes its (smaller)
lease and wins as well: both are in the state "won and not yet unlocked". -/
theorem globalLock_two_holders :
    (run init lateWriter).phase 0 = Phase.won 0 ∧
    (run init lateWriter).phase 1 = Phase.won 1 ∧
    ¬ MutualExclusion (run init lateWriter) := by
  refine ⟨by decide, by decide, ?_⟩
  intro h
  have h01 : (0 : Nat) = 1 := h 0 1 ⟨0, by decide⟩ ⟨1, by decide⟩
  exact absurd h01 (by decide)

end GlobalLockProtocol

/-- C2. Leader uniqueness for one children listing: for a non-empty list of
children with empty payloads, names that all parse with `parseSeq` and pairwise
distinct sequence numbers, there is a child `w` whose sequence number `m` is the
minimum of the listing, and a child passes the win test of `waitForWinner` (its
own sequence number equals the `lowestSeq` that `findLowestSequenceNode` returns
for the listing) if and only if it is `w`. -/
theorem leader_unique (g : List Nat → Option Int) (now : Int) (path : String)
    (cs : List Child) (hne : cs ≠ []) (hdata : ∀ c ∈ cs, c.data = [])
    (hparse : ∀ c ∈ cs, ∃ n, parseSeq c.name = .ok n)
    (hdist : (cs.map (fun c => parseSeq c.name)).Nodup) :
    ∃ w ∈ cs, ∃ m, parseSeq w.name = .ok m ∧
      (∀ c ∈ cs, ∀ s, parseSeq c.name = .ok s → m ≤ s) ∧
      (∀ c ∈ cs, ∀ s, parseSeq c.name = .ok s →
        (winTest g now (.ok cs) path s = true ↔ c = w)) := by
  obtain ⟨c0, hc0⟩ := List.exists_mem_of_ne_nil cs hne
  obtain ⟨s0, hs0⟩ := hparse c0 hc0
  obtain ⟨_, hmin0, w, hw, hwm⟩ := lowest_is_min g now path cs hdata hparse c0 hc0 s0 hs0
  refine ⟨w, hw, _, hwm, hmin0, ?_⟩
  intro c hc s hs
  obtain ⟨herr, hmin, d, hd, hdm⟩ := lowest_is_min g now path cs hdata hparse c hc s hs
  have heq : (findLowestSequenceNode g now (.ok cs) path s).lowestSeq =
      (findLowestSequenceNode g now (.ok cs) path s0).lowestSeq :=
    le_antisymm (hmin w hw _ hwm) (hmin0 d hd _ hdm)
  unfold winTest
  simp only [herr, Option.isNone_none, Bool.true_and, decide_eq_true_eq]
  rw [heq]
  constructor
  · intro h
    apply List.inj_on_of_nodup_map hdist hc hw
    show parseSeq c.name = parseSeq w.name
    rw [hs, hwm, h]
  · intro h
    subst h
    rw [hs] at hwm
    cases hwm
    rfl

/-- Witness of C2: the listing `lock-0000000000`, `lock-0000000001`. -/
theorem leader_unique_witness :
    firstTwo ≠ [] ∧ (firstTwo.map (fun c => parseSeq c.name)).Nodup ∧
    ∃ w ∈ firstTwo, ∃ m, parseSeq w.name = .ok m ∧
      (∀ c ∈ firstTwo, ∀ s, parseSeq c.name = .ok s → m ≤ s) ∧
      (∀ c ∈ firstTwo, ∀ s, parseSeq c.name = .ok s →
        (winTest (fun _ => none) 0 (.ok firstTwo) "/sync/regionleader/leader-x" s = true ↔
          c = w)) :=
  ⟨by decide, by decide,
   leader_unique (fun _ => none) 0 "/sync/regionleader/leader-x" firstTwo (by decide)
    (by decide)
    (fun c hc => by
      simp only [firstTwo, List.mem_cons, List.mem_singleton, List.not_mem_nil, or_false] at hc
      rcases hc with rfl | rfl
      · exact ⟨0, by decide⟩
      · exact ⟨1, by decide⟩)
    (by decide)⟩

/-- C3, the code at the failing input. For the children `lock-0000000000`,
`lock-0000000001` and the own sequence number 1, `findLowestSequenceNode`
returns `lowestSeq = 0` and the empty string as `prevSeqPath`, not
`lock-0000000000`: the test `s > prevSeq` with `prevSeq` starting at 0 never
selects a predecessor whose sequence number is 0. -/
theorem predecessor_of_second_node :
    findLowestSequenceNode (fun _ => none) 0 (.ok firstTwo) "/sync/regionleader/leader-x" 1
      = { lowestSeq := 0, prevSeqPath := "", err := none, deleted := [] } := by
  decide

/-- C4. Validation of `holdFor`: when `holdFor` is below two seconds
`GlobalTimedLock` returns `(nil, ErrHoldFor)` with an empty trace (no lock id
generated, no store write, read or delete); when `holdFor` is at least two
seconds the error it returns, if it returns, is never `ErrHoldFor`. -/
theorem holdFor_validation (w : World) (id : List Nat) (waitFor holdFor : Int) :
    (holdFor < 2 * 10 ^ 9 →
      GlobalTimedLock w id waitFor holdFor =
        some { lock := none, err := some LockErr.errHoldFor, trace := [], errs := 0 }) ∧
    (2 * 10 ^ 9 ≤ holdFor →
      (GlobalTimedLock w id waitFor holdFor).map (fun o => o.err) ≠
        some (some LockErr.errHoldFor)) := by
  have hmin : minHoldFor = 2 * 10 ^ 9 := by norm_num [minHoldFor, second]
  constructor
  · intro h
    unfold GlobalTimedLock
    rw [if_pos (by rw [hmin]; exact h)]
  · intro h
    cases ho : GlobalTimedLock w id waitFor holdFor with
    | none => simp
    | some o =>
      have hne : o.err ≠ some LockErr.errHoldFor := by
        unfold GlobalTimedLock at ho
        rw [if_neg (by rw [hmin]; exact not_lt.2 h)] at ho
        split at ho
        · cases ho; simp
        · split at ho
          · cases ho; simp
          · split at ho
            · cases ho; simp
            · rcases pollLoop_spec _ _ _ _ _ _ _ _ o ho with ⟨_, h2, _⟩ | ⟨_, h2, _⟩ <;>
                rw [h2] <;> simp
      simpa using hne

/-- Witness of C4: one nanosecond below two seconds, and exactly two seconds. -/
theorem holdFor_validation_witness :
    GlobalTimedLock freeRow [1] 1000000000 1999999999 =
        some { lock := none, err := some LockErr.errHoldFor, trace := [], errs := 0 } ∧
    (GlobalTimedLock freeRow [1] 1000000000 2000000000).map (fun o => o.err) ≠
        some (some LockErr.errHoldFor) :=
  ⟨(holdFor_validation freeRow [1] 1000000000 1999999999).1 (by norm_num),
   (holdFor_validation freeRow [1] 1000000000 2000000000).2 (by norm_num)⟩

/-- C5, as amended. Give-up path: when the lock id was generated, the pool was
obtained and the lease write succeeded, and `GlobalTimedLock` returns without a
lock, then it returns `ErrContended`, the exit signal was closed exactly once
(one `Unlock`), the delete of the column `lockId` under row `id` was attempted
exactly once if the connection pool was available inside `Unlock` and not at all
otherwise, no other column was deleted, and no refresher was started; whatever
the reads of the poll loop returned. -/
theorem giveUp_path (w : World) (id u : List Nat) (waitFor holdFor : Int) (o : Outcome)
    (hmin : minHoldFor ≤ holdFor) (hu : w.uuid = some u) (hp : w.pool = none)
    (hw : w.write = none) (hret : GlobalTimedLock w id waitFor holdFor = some o)
    (hlost : o.lock = none) :
    o.err = some LockErr.errContended ∧
    o.trace.count Event.closeExit = 1 ∧
    deleteCount id u o.trace = (if w.unlockPool = none then 1 else 0) ∧
    (∀ key column, Event.deleteColumns key column ∈ o.trace → key = id ∧ column = u) ∧
    Event.goRefresher ∉ o.trace := by
  rw [GlobalTimedLock_polling hmin hu hp hw] at hret
  rcases pollLoop_spec _ _ _ _ _ _ _ _ o hret with ⟨h1, _, _⟩ | ⟨_, h2, mid, hm, ht⟩
  · rw [hlost] at h1; cases h1
  · refine ⟨h2, ?_, ?_, ?_, ?_⟩
    · rw [ht]
      simp only [List.count_append, count_pollEvents hm Event.closeExit (by simp) (by simp)]
      cases w.unlockPool <;> simp [globalLock.Unlock]
    · rw [ht]
      unfold deleteCount
      simp only [List.count_append,
        count_pollEvents hm (Event.deleteColumns id u) (by simp) (by simp)]
      cases w.unlockPool <;> simp [globalLock.Unlock]
    · intro key column hmem
      rw [ht] at hmem
      simp only [List.mem_append] at hmem
      rcases hmem with (hmem | hmem) | hmem
      · simp at hmem
      · rcases hm _ hmem with h | h <;> cases h
      · cases hup : w.unlockPool <;> rw [hup] at hmem <;> simp [globalLock.Unlock] at hmem
        exact hmem
    · intro hmem
      rw [ht] at hmem
      simp only [List.mem_append] at hmem
      rcases hmem with (hmem | hmem) | hmem
      · simp at hmem
      · rcases hm _ hmem with h | h <;> cases h
      · cases hup : w.unlockPool <;> rw [hup] at hmem <;> simp [globalLock.Unlock] at hmem

/-- Witness of C5 as amended: another lease stays first until the deadline. -/
theorem giveUp_path_witness :
    GlobalTimedLock otherHolder [1] 1000000000 3000000000 = some otherHolderOutcome ∧
    otherHolderOutcome.lock = none ∧
    otherHolderOutcome.err = some LockErr.errContended ∧
    otherHolderOutcome.trace.count Event.closeExit = 1 ∧
    deleteCount [1] [7] otherHolderOutcome.trace =
      (if otherHolder.unlockPool = none then 1 else 0) ∧
    (∀ key column, Event.deleteColumns key column ∈ otherHolderOutcome.trace →
      key = [1] ∧ column = [7]) ∧
    Event.goRefresher ∉ otherHolderOutcome.trace :=
  ⟨rfl, rfl,
   giveUp_path otherHolder [1] [7] 1000000000 3000000000 otherHolderOutcome (by decide)
     rfl rfl rfl rfl rfl⟩

/-- Counterexample to C5 as stated: the lease is written, every read fails, the
deadline passes, and the connection pool is not available inside `Unlock`:
`GlobalTimedLock` returns `(nil, ErrContended)` and no delete of the own lease
was attempted. -/
theorem giveUp_without_delete :
    (GlobalTimedLock (failingReads (some ⟨9⟩)) [1] 1000000000 3000000000).map
      (fun o => (o.lock, o.err, deleteCount [1] [7] o.trace)) =
      some (none, some LockErr.errContended, 0) := by
  decide

/-- C7, as amended. Renewal TTL: for `holdFor` of `n` nanoseconds with
`2 * 10 ^ 9 ≤ n ≤ 86400 * 10 ^ 9`, `durationToSeconds(holdFor, 1.5)`, the TTL of
the insert of the refresher, is `ceil(floor(1.5 * n) / 10 ^ 9)`: the scaled
duration is cut to whole nanoseconds before the seconds are rounded up. It is
`ceil(1.5 * n / 10 ^ 9)` whenever `3 * n` does not leave remainder 1 modulo
`2 * 10 ^ 9`. -/
theorem renewal_ttl (n : Int) (h1 : 2 * 10 ^ 9 ≤ n) (h2 : n ≤ 86400 * 10 ^ 9) :
    durationToSeconds n (3 / 2) = some ⌈((3 * n / 2 : Int) : ℚ) / 10 ^ 9⌉ ∧
    (∀ l : globalLock, refreshInsert l n =
      Event.insert l.id l.lockId (some ⌈((3 * n / 2 : Int) : ℚ) / 10 ^ 9⌉)) ∧
    ((3 * n) % 2000000000 ≠ 1 →
      durationToSeconds n (3 / 2) = some ⌈(3 / 2 : ℚ) * n / 10 ^ 9⌉) := by
  have h := durationToSeconds_threeHalves n (by omega) (by omega)
  refine ⟨h, ?_, ?_⟩
  · intro l
    unfold refreshInsert
    rw [h]
  · intro hex
    rw [h, ceil_threeHalves n hex]

/-- Witness of C7 as amended: `holdFor` of three seconds. -/
theorem renewal_ttl_witness :
    (2 * 10 ^ 9 ≤ (3000000000 : Int) ∧ (3000000000 : Int) ≤ 86400 * 10 ^ 9) ∧
    durationToSeconds 3000000000 (3 / 2) =
      some ⌈((3 * 3000000000 / 2 : Int) : ℚ) / 10 ^ 9⌉ :=
  ⟨by norm_num, (renewal_ttl 3000000000 (by norm_num) (by norm_num)).1⟩

/-- Counterexample to C7 as stated: for `n = 2666666667` the code writes a TTL
of 4 seconds, while `ceil(1.5 * n / 10 ^ 9) = ceil(4.0000000005) = 5`. -/
theorem renewal_ttl_truncated :
    (2 * 10 ^ 9 ≤ (2666666667 : Int) ∧ (2666666667 : Int) ≤ 86400 * 10 ^ 9) ∧
    durationToSeconds 2666666667 (3 / 2) = some 4 ∧
    ⌈(3 / 2 : ℚ) * 2666666667 / 10 ^ 9⌉ = 5 := by
  refine ⟨by norm_num, ?_, ?_⟩
  · rw [durationToSeconds_threeHalves _ (by norm_num) (by norm_num)]
    congr 1
    rw [ceil_nanos]
    norm_num
  · rw [Int.ceil_eq_iff]
    norm_num

/-- C8. Initial lease TTL: for `holdFor` of `n` nanoseconds with
`2 * 10 ^ 9 ≤ n ≤ 86400 * 10 ^ 9`, `durationToSeconds(holdFor, 1.0)` is
`ceil(n / 10 ^ 9)`; it is at least 2, covers `n` nanoseconds, and it is the TTL
of the lease column that `GlobalTimedLock` has inserted whenever it got as far
as the insert. -/
theorem initial_ttl (n : Int) (h1 : 2 * 10 ^ 9 ≤ n) (h2 : n ≤ 86400 * 10 ^ 9) :
    durationToSeconds n 1 = some ⌈(n : ℚ) / 10 ^ 9⌉ ∧
    2 ≤ ⌈(n : ℚ) / 10 ^ 9⌉ ∧
    n ≤ ⌈(n : ℚ) / 10 ^ 9⌉ * 10 ^ 9 ∧
    (∀ (w : World) (id u : List Nat) (waitFor : Int) (o : Outcome),
      w.uuid = some u → w.pool = none → GlobalTimedLock w id waitFor n = some o →
      Event.insert id u (some ⌈(n : ℚ) / 10 ^ 9⌉) ∈ o.trace) := by
  have h := durationToSeconds_one n (by omega) (by omega)
  obtain ⟨c1, c2⟩ := (ceil_nanos n _).1 rfl
  refine ⟨h, by omega, by omega, ?_⟩
  intro w id u waitFor o hu hp hret
  have hmin : minHoldFor ≤ n := by
    have : minHoldFor = 2 * 10 ^ 9 := by norm_num [minHoldFor, second]
    rw [this]; exact h1
  have := GlobalTimedLock_insert_mem w id u waitFor n o hmin hu hp hret
  rw [h] at this
  exact this

/-- Witness of C8: `holdFor` of three seconds in the world `freeRow`. -/
theorem initial_ttl_witness :
    (2 * 10 ^ 9 ≤ (3000000000 : Int) ∧ (3000000000 : Int) ≤ 86400 * 10 ^ 9) ∧
    durationToSeconds 3000000000 1 = some ⌈((3000000000 : Int) : ℚ) / 10 ^ 9⌉ ∧
    GlobalTimedLock freeRow [1] 1000000000 3000000000 = some freeRowOutcome ∧
    Event.insert [1] [7] (some ⌈((3000000000 : Int) : ℚ) / 10 ^ 9⌉) ∈ freeRowOutcome.trace :=
  ⟨by norm_num, (initial_ttl 3000000000 (by norm_num) (by norm_num)).1, rfl,
   (initial_ttl 3000000000 (by norm_num) (by norm_num)).2.2.2 freeRow [1] [7] 1000000000
     freeRowOutcome rfl rfl rfl⟩

/-- C9. Reaper hysteresis, for a tracked path `p` whose count is 0: (i) when
two consecutive sweeps both see `p` missing or without children, the first does
not attempt its deletion and the second does; (ii) in any sequence of sweeps, a
sweep attempts the deletion of `p` only if it is not the first one and both it
and the sweep right before it saw `p` missing or without children; so (iii) the
observations non-empty, anything, non-empty never produce a delete. -/
theorem reaper_hysteresis (paths : Paths) (p : String) (h0 : paths.lookup p = some 0) :
    (∀ sw1 sw2 : Sweep, (sw1.look p).empty = true → (sw2.look p).empty = true →
      p ∉ (reap sw1 paths).2 ∧ p ∈ (reap sw2 (reap sw1 paths).1).2) ∧
    (∀ (sweeps : List Sweep) (k : Nat) (att : List String),
      (reapAll sweeps paths)[k]? = some att → p ∈ att →
        0 < k ∧ ∃ prev cur, sweeps[k - 1]? = some prev ∧ sweeps[k]? = some cur ∧
          (prev.look p).empty = true ∧ (cur.look p).empty = true) ∧
    (∀ sw1 sw2 sw3 : Sweep, (sw1.look p).empty = false → (sw3.look p).empty = false →
      ∀ att ∈ reapAll [sw1, sw2, sw3] paths, p ∉ att) := by
  have hthr : reaperThreshold = 2 := rfl
  have hcalm : calm paths p false := by
    intro n hn
    rw [h0] at hn
    cases hn
    left; exact le_refl _
  have hii : ∀ (sweeps : List Sweep) (k : Nat) (att : List String),
      (reapAll sweeps paths)[k]? = some att → p ∈ att →
        0 < k ∧ ∃ prev cur, sweeps[k - 1]? = some prev ∧ sweeps[k]? = some cur ∧
          (prev.look p).empty = true ∧ (cur.look p).empty = true := by
    intro sweeps k att h hp
    obtain ⟨⟨cur, hcur, hce⟩, hz, hs⟩ := calm_reapAll p sweeps paths false hcalm k att h hp
    have hk : 0 < k := by
      rcases Nat.eq_zero_or_pos k with h | h
      · exact absurd (hz h) (by simp)
      · exact h
    obtain ⟨prev, hprev, hpe⟩ := hs hk
    exact ⟨hk, prev, cur, hprev, hcur, hpe, hce⟩
  refine ⟨?_, hii, ?_⟩
  · intro sw1 sw2 he1 he2
    obtain ⟨h1, h2⟩ := reap_tracked sw1 paths h0
    have ht1 : trackedStep sw1 p 0 = (some 1, false) := by
      unfold trackedStep
      rw [if_pos he1, if_neg (by rw [hthr]; norm_num)]
      rfl
    rw [ht1] at h1 h2
    obtain ⟨h3, h4⟩ := reap_tracked sw2 (reap sw1 paths).1 h1
    have ht2 : (trackedStep sw2 p 1).2 = true := by
      unfold trackedStep
      rw [if_pos he2, if_pos (by rw [hthr]; norm_num)]
    constructor
    · intro h
      have := h2.1 h
      simp at this
    · exact h4.2 ht2
  · intro sw1 sw2 sw3 he1 he3 att hatt hp
    obtain ⟨k, hk⟩ := List.mem_iff_getElem?.1 hatt
    obtain ⟨hpos, prev, cur, hprev, hcur, hpe, hce⟩ := hii [sw1, sw2, sw3] k att hk hp
    match k, hpos with
    | 1, _ =>
      simp at hprev
      subst hprev
      rw [he1] at hpe
      cases hpe
    | 2, _ =>
      simp at hcur
      subst hcur
      rw [he3] at hce
      cases hce
    | (k + 3), _ => simp at hcur

/-- Witness of C9 on the reaper that tracks `/ns/a` with count 0: two sweeps
that see it without children. -/
theorem reaper_hysteresis_witness :
    oneTracked.lookup "/ns/a" = some 0 ∧
    "/ns/a" ∉ (reap (sweepOf (fun _ => childless) (fun _ => none)) oneTracked).2 ∧
    "/ns/a" ∈ (reap (sweepOf (fun _ => missing) (fun _ => none))
      (reap (sweepOf (fun _ => childless) (fun _ => none)) oneTracked).1).2 :=
  ⟨by decide,
   (reaper_hysteresis oneTracked "/ns/a" (by decide)).1
     (sweepOf (fun _ => childless) (fun _ => none))
     (sweepOf (fun _ => missing) (fun _ => none)) rfl rfl⟩

/-- C10. Outcome of the delete: in a sweep that attempts to delete `p`, when the
delete returns success or `ErrNoNode` the path is no longer tracked after the
sweep, and when it returns any other error the path is still tracked with
count 0. -/
theorem reap_delete_outcome (sw : Sweep) (paths : Paths) (p : String)
    (h : p ∈ (reap sw paths).2) :
    ((sw.del p = none ∨ sw.del p = some ZkErr.noNode) → (reap sw paths).1.lookup p = none) ∧
    (¬ (sw.del p = none ∨ sw.del p = some ZkErr.noNode) →
      (reap sw paths).1.lookup p = some 0) := by
  cases hl : paths.lookup p with
  | none => exact absurd h (reap_untracked sw paths hl).2
  | some n =>
    obtain ⟨h1, h2⟩ := reap_tracked sw paths hl
    have ht := h2.1 h
    unfold trackedStep at h1 ht
    by_cases he : (sw.look p).empty = true
    · rw [if_pos he] at h1 ht
      by_cases hn : n + 1 ≥ reaperThreshold
      · rw [if_pos hn] at h1
        simp only at h1
        constructor
        · intro hd; rw [h1, if_pos hd]
        · intro hd; rw [h1, if_neg hd]
      · rw [if_neg hn] at ht
        simp at ht
    · rw [if_neg he] at ht
      simp at ht

/-- Witness of C10: the second empty sweep of `/ns/a`, with a delete that
succeeds and with a delete that fails. -/
theorem reap_delete_outcome_witness :
    "/ns/a" ∈ (reap (sweepOf (fun _ => childless) (fun _ => none)) seenEmptyOnce).2 ∧
    (reap (sweepOf (fun _ => childless) (fun _ => none)) seenEmptyOnce).1.lookup "/ns/a"
      = none ∧
    (reap (sweepOf (fun _ => childless) (fun _ => some (ZkErr.other 1)))
      seenEmptyOnce).1.lookup "/ns/a" = some 0 :=
  ⟨by decide,
   (reap_delete_outcome (sweepOf (fun _ => childless) (fun _ => none)) seenEmptyOnce "/ns/a"
     (by decide)).1 (Or.inl rfl),
   (reap_delete_outcome (sweepOf (fun _ => childless) (fun _ => some (ZkErr.other 1)))
     seenEmptyOnce "/ns/a" (by decide)).2 (by decide)⟩

/-! ## Lemmas: registry, lock paths, `parseSeq`, `createParents`, scope -/

theorem containsSub_iff (sub : List Char) (s : List Char) :
    containsSub sub s = true ↔ List.IsInfix sub s := by
  induction s with
  | nil =>
    simp only [containsSub, List.isEmpty_iff, List.infix_nil]
  | cons c cs ih =>
    simp only [containsSub, Bool.or_eq_true, ih, List.infix_cons_iff, List.isPrefixOf_iff_prefix]

theorem replaceChar_length (old new : Char) (s : List Char) :
    (replaceChar old new s).length = s.length := by
  simp [replaceChar]

theorem replaceChar_getElem? (old new : Char) (s : List Char) (i : Nat) (c : Char)
    (h : s[i]? = some c) : (replaceChar old new s)[i]? = some (if c = old then new else c) := by
  simp [replaceChar, h]

theorem replaceChar_of_not_mem (old new : Char) (s : List Char) (h : old ∉ s) :
    replaceChar old new s = s := by
  unfold replaceChar
  conv_rhs => rw [← List.map_id s]
  apply List.map_congr_left
  intro c hc
  have : c ≠ old := fun hco => h (hco ▸ hc)
  simp [this]

theorem constructLockPath_path (ns id : String) :
    (constructLockPath ns id).1 = "/" ++ ns ++ "/" ++ String.mk (replaceChar '/' '#' id.data) := by
  unfold constructLockPath
  simp only
  split
  · rfl
  · split <;> rfl

theorem string_mk_eq_empty (l : List Char) : String.mk l = "" ↔ l = [] := by
  constructor
  · intro h
    have := congrArg String.data h
    simpa using this
  · intro h; subst h; rfl

theorem constructLockPath_err (ns id : String) :
    (constructLockPath ns id).2 ≠ none ↔
      (ns = "" ∨ id = "" ∨ List.IsInfix ['/', '/'] (constructLockPath ns id).1.data) := by
  have hid : String.mk (replaceChar '/' '#' id.data) = "" ↔ id = "" := by
    rw [string_mk_eq_empty]
    constructor
    · intro h
      have hl := congrArg List.length h
      rw [replaceChar_length] at hl
      have : id.data = [] := List.length_eq_zero.1 hl
      exact String.ext this
    · intro h; subst h; rfl
  rw [constructLockPath_path]
  unfold constructLockPath
  simp only
  by_cases h1 : ns = "" ∨ String.mk (replaceChar '/' '#' id.data) = ""
  · rw [if_pos h1]
    simp only [ne_eq, reduceCtorEq, not_false_eq_true, true_iff]
    rcases h1 with h | h
    · exact Or.inl h
    · exact Or.inr (Or.inl (hid.1 h))
  · rw [if_neg h1]
    have hns : ns ≠ "" := fun h => h1 (Or.inl h)
    have hidn : id ≠ "" := fun h => h1 (Or.inr (hid.2 h))
    by_cases h2 : containsSub ['/', '/']
        ("/" ++ ns ++ "/" ++ String.mk (replaceChar '/' '#' id.data)).data = true
    · rw [if_pos h2]
      simp only [ne_eq, reduceCtorEq, not_false_eq_true, true_iff]
      exact Or.inr (Or.inr ((containsSub_iff _ _).1 h2))
    · rw [if_neg h2]
      simp only [ne_eq, not_true_eq_false, false_iff, not_or]
      exact ⟨hns, hidn, fun h => h2 ((containsSub_iff _ _).2 h)⟩

theorem constructLockPath_eq_iff (ns id1 id2 : String) :
    (constructLockPath ns id1).1 = (constructLockPath ns id2).1 ↔
      replaceChar '/' '#' id1.data = replaceChar '/' '#' id2.data := by
  rw [constructLockPath_path, constructLockPath_path]
  constructor
  · intro h
    have := congrArg String.data h
    simpa using this
  · intro h
    rw [h]

theorem splitChar_ne_nil (sep : Char) (l : List Char) : splitChar sep l ≠ [] := by
  cases l with
  | nil => simp [splitChar]
  | cons c cs =>
    unfold splitChar
    split
    · simp
    · split <;> simp

theorem splitChar_append_sep (sep : Char) :
    ∀ (a b : List Char), splitChar sep (a ++ sep :: b) = splitChar sep a ++ splitChar sep b := by
  intro a
  induction a with
  | nil => intro b; simp [splitChar]
  | cons x a ih =>
    intro b
    by_cases hx : x = sep
    · simp [splitChar, hx, ih b]
    · have hne := splitChar_ne_nil sep a
      cases hs : splitChar sep a with
      | nil => exact absurd hs hne
      | cons piece pieces =>
        simp [splitChar, hx, ih b, hs]

theorem splitChar_of_not_mem (sep : Char) :
    ∀ (d : List Char), sep ∉ d → splitChar sep d = [d] := by
  intro d
  induction d with
  | nil => intro _; rfl
  | cons x d ih =>
    intro h
    have hx : x ≠ sep := fun hx => h (hx ▸ List.mem_cons_self _ _)
    have hd : sep ∉ d := fun hd => h (List.mem_cons_of_mem _ hd)
    simp [splitChar, hx, ih hd]

theorem splitChar_slashJoin :
    ∀ segs : List (List Char), (∀ s ∈ segs, '/' ∉ s) →
      splitChar '/' (slashJoin segs) = [] :: segs := by
  intro segs
  induction segs with
  | nil => intro _; rfl
  | cons s rest ih =>
    intro h
    have hs : '/' ∉ s := h s (List.mem_cons_self _ _)
    have hr : ∀ x ∈ rest, '/' ∉ x := fun x hx => h x (List.mem_cons_of_mem _ hx)
    have ihr := ih hr
    cases rest with
    | nil =>
      simp [slashJoin, splitChar, splitChar_of_not_mem '/' s hs]
    | cons t rest2 =>
      have hj : slashJoin (t :: rest2) = '/' :: (t ++ slashJoin rest2) := rfl
      rw [hj] at ihr
      have htail : splitChar '/' (t ++ slashJoin rest2) = t :: rest2 := by
        simpa [splitChar] using ihr
      have hgoal : slashJoin (s :: t :: rest2) = '/' :: (s ++ '/' :: (t ++ slashJoin rest2)) := rfl
      rw [hgoal]
      simp [splitChar, splitChar_append_sep, splitChar_of_not_mem '/' s hs, htail]

theorem slashJoin_append (a b : List (List Char)) :
    slashJoin (a ++ b) = slashJoin a ++ slashJoin b := by
  induction a with
  | nil => rfl
  | cons s a ih => simp [slashJoin, ih]

theorem inits_eq_nil_cons_tail {α : Type} (l : List α) : l.inits = [] :: l.inits.tail := by
  cases l with
  | nil => rfl
  | cons a l => rw [List.inits_cons]; rfl

theorem parentRequests_nil (done : List (List Char)) : parentRequests done [] = [] := rfl

theorem parentRequests_cons (done : List (List Char)) (s : List Char)
    (rest : List (List Char)) :
    parentRequests done (s :: rest) =
      String.mk (slashJoin (done ++ [s])) :: parentRequests (done ++ [s]) rest := by
  unfold parentRequests
  rw [List.inits_cons, List.tail_cons, inits_eq_nil_cons_tail rest]
  simp [List.map_map, Function.comp_def, List.append_assoc]

theorem next_path (done : List (List Char)) (p : List Char) :
    String.mk (slashJoin done) ++ "/" ++ String.mk p = String.mk (slashJoin (done ++ [p])) := by
  apply String.ext
  simp [slashJoin_append, slashJoin]

theorem createLoop_spec (create : String → Option ZkErr) :
    ∀ (rest done : List (List Char)) (issued : List String),
      ∃ sent, (createLoop create rest (String.mk (slashJoin done)) issued).2 = issued ++ sent ∧
        List.IsPrefix sent (parentRequests done rest) ∧
        ((createLoop create rest (String.mk (slashJoin done)) issued).1 = none →
          sent = parentRequests done rest ∧ ∀ q ∈ sent, createOk (create q)) ∧
        (∀ e, (createLoop create rest (String.mk (slashJoin done)) issued).1 = some e →
          ∃ earlier q, sent = earlier ++ [q] ∧ create q = some e ∧ e ≠ ZkErr.nodeExists ∧
            ∀ x ∈ earlier, createOk (create x)) := by
  intro rest
  induction rest with
  | nil =>
    intro done issued
    refine ⟨[], by simp [createLoop], List.nil_prefix, ?_, ?_⟩
    · intro _
      exact ⟨rfl, fun q hq => by cases hq⟩
    · intro e he
      simp [createLoop] at he
  | cons p rest ih =>
    intro done issued
    have hq := next_path done p
    have hreq := parentRequests_cons done p rest
    -- the loop goes on after a create that is `nil` or `ErrNodeExists`
    have goOn : createOk (create (String.mk (slashJoin (done ++ [p])))) →
        ∀ r, r = createLoop create rest (String.mk (slashJoin (done ++ [p])))
            (issued ++ [String.mk (slashJoin (done ++ [p]))]) →
        ∃ sent, r.2 = issued ++ sent ∧
          List.IsPrefix sent (parentRequests done (p :: rest)) ∧
          (r.1 = none → sent = parentRequests done (p :: rest) ∧
            ∀ q ∈ sent, createOk (create q)) ∧
          (∀ e, r.1 = some e →
            ∃ earlier q, sent = earlier ++ [q] ∧ create q = some e ∧ e ≠ ZkErr.nodeExists ∧
              ∀ x ∈ earlier, createOk (create x)) := by
      intro hok r hr
      obtain ⟨sent, h1, h2, h3, h4⟩ := ih (done ++ [p])
        (issued ++ [String.mk (slashJoin (done ++ [p]))])
      rw [← hr] at h1 h3 h4
      refine ⟨String.mk (slashJoin (done ++ [p])) :: sent, ?_, ?_, ?_, ?_⟩
      · rw [h1]; simp
      · rw [hreq]
        exact (List.prefix_cons_inj _).2 h2
      · intro hn
        obtain ⟨e1, e2⟩ := h3 hn
        refine ⟨by rw [hreq, e1], ?_⟩
        intro q hq2
        rcases List.mem_cons.1 hq2 with rfl | hq2
        · exact hok
        · exact e2 q hq2
      · intro e he
        obtain ⟨earlier, q, e1, e2, e3, e4⟩ := h4 e he
        refine ⟨String.mk (slashJoin (done ++ [p])) :: earlier, q, by rw [e1]; rfl, e2, e3, ?_⟩
        intro x hx
        rcases List.mem_cons.1 hx with rfl | hx
        · exact hok
        · exact e4 x hx
    simp only [createLoop, hq]
    split
    · rename_i hc
      exact goOn (Or.inl hc) _ rfl
    · rename_i hc
      exact goOn (Or.inr hc) _ rfl
    · rename_i e hne hc
      refine ⟨[String.mk (slashJoin (done ++ [p]))], rfl, ?_, ?_, ?_⟩
      · rw [hreq]
        exact (List.prefix_cons_inj _).2 List.nil_prefix
      · intro hn; cases hn
      · intro e2 he2
        simp only [Option.some.injEq] at he2
        subst he2
        exact ⟨[], _, rfl, hc, hne, fun x hx => by cases hx⟩

theorem deleteLoop_first_success (node : String) :
    ∀ (fails : List (Option ZkErr)) (ok : Option ZkErr) (rest : List (Option ZkErr))
      (tr : List LeaderEvent),
      (∀ o ∈ fails, deleteDone o = false) → deleteDone ok = true →
      deleteLoop node (fails ++ ok :: rest) tr =
        some (tr ++ retryEvents node fails.length ++ [LeaderEvent.delete node]) := by
  intro fails
  induction fails with
  | nil =>
    intro ok rest tr _ hok
    simp [deleteLoop, hok, retryEvents]
  | cons o fails ih =>
    intro ok rest tr hf hok
    have ho : deleteDone o = false := hf o (List.mem_cons_self _ _)
    have hf2 : ∀ x ∈ fails, deleteDone x = false := fun x hx => hf x (List.mem_cons_of_mem _ hx)
    have hstep : deleteLoop node ((o :: fails) ++ ok :: rest) tr =
        deleteLoop node (fails ++ ok :: rest)
          (tr ++ [LeaderEvent.delete node, LeaderEvent.sleep]) := by
      simp only [List.cons_append, deleteLoop, ho, Bool.false_eq_true, if_false]
      rfl
    rw [hstep, ih ok rest _ hf2 hok]
    simp [retryEvents]

theorem exists_first_success (dels : List (Option ZkErr))
    (h : ∃ o ∈ dels, deleteDone o = true) :
    ∃ fails ok rest, dels = fails ++ ok :: rest ∧ (∀ o ∈ fails, deleteDone o = false) ∧
      deleteDone ok = true := by
  induction dels with
  | nil => obtain ⟨o, ho, _⟩ := h; cases ho
  | cons d rest ih =>
    by_cases hd : deleteDone d = true
    · exact ⟨[], d, rest, rfl, (fun o ho => by cases ho), hd⟩
    · have hr : ∃ o ∈ rest, deleteDone o = true := by
        obtain ⟨o, ho, hod⟩ := h
        rcases List.mem_cons.1 ho with rfl | ho
        · exact absurd hod hd
        · exact ⟨o, ho, hod⟩
      obtain ⟨fails, ok, rest2, he, hf, hok⟩ := ih hr
      refine ⟨d :: fails, ok, rest2, by rw [he]; rfl, ?_, hok⟩
      intro o ho
      rcases List.mem_cons.1 ho with rfl | ho
      · simpa using hd
      · exact hf o ho

theorem unregister_split (rl : Nat) :
    ∀ (a b : List Nat), rl ∉ a → unregister rl (a ++ rl :: b) = a ++ b := by
  intro a
  induction a with
  | nil => intro b _; simp [unregister]
  | cons x a ih =>
    intro b h
    have hx : x ≠ rl := fun hx => h (hx ▸ List.mem_cons_self _ _)
    have ha : rl ∉ a := fun ha => h (List.mem_cons_of_mem _ ha)
    simp [unregister, hx, ih b ha]

theorem unregister_of_not_mem (rl : Nat) : ∀ (l : List Nat), rl ∉ l → unregister rl l = l := by
  intro l
  induction l with
  | nil => intro _; rfl
  | cons x l ih =>
    intro h
    have hx : x ≠ rl := fun hx => h (hx ▸ List.mem_cons_self _ _)
    have ha : rl ∉ l := fun ha => h (List.mem_cons_of_mem _ ha)
    simp [unregister, hx, ih ha]

theorem Rescind_first (s : Leaders) (rl : Nat) (l : regionLeader)
    (fails : List (Option ZkErr)) (ok : Option ZkErr) (rest : List (Option ZkErr))
    (hl : s.heap[rl]? = some l) (hfresh : l.cleanupDone = false)
    (hfails : ∀ o ∈ fails, deleteDone o = false) (hok : deleteDone ok = true) :
    Rescind s rl (fails ++ ok :: rest) =
      some ({ heap := s.heap.set rl { l with rescindedClosed := true, cleanupDone := true },
              rls := unregister rl s.rls },
            [LeaderEvent.closeRescinded rl] ++ retryEvents l.lockNode fails.length ++
              [LeaderEvent.delete l.lockNode, LeaderEvent.unregister rl]) := by
  unfold Rescind
  rw [hl]
  simp only [hfresh, Bool.false_eq_true, if_false]
  rw [deleteLoop_first_success l.lockNode fails ok rest _ hfails hok]
  simp

theorem Rescind_done (s : Leaders) (rl : Nat) (l : regionLeader) (dels : List (Option ZkErr))
    (hl : s.heap[rl]? = some l) (hdone : l.cleanupDone = true) :
    Rescind s rl dels = some (s, []) := by
  unfold Rescind
  rw [hl]
  simp [hdone]

theorem unregister_eq_erase (rl : Nat) : ∀ l : List Nat, unregister rl l = l.erase rl := by
  intro l
  induction l with
  | nil => rfl
  | cons x l ih =>
    by_cases hx : x = rl
    · subst hx; simp [unregister]
    · simp [unregister, hx, ih, List.erase_cons]

theorem leadersOk_noLeaders : LeadersOk noLeaders :=
  ⟨List.nodup_nil, (fun rl h => by cases h)⟩

theorem leadersOk_newRegionLeader (s s1 : Leaders) (node : String) (rl : Nat)
    (h : LeadersOk s) (hr : newRegionLeader s node none = some (s1, rl)) : LeadersOk s1 := by
  have hlt : ∀ x ∈ s.rls, x < s.heap.length := by
    intro x hx
    obtain ⟨l, hl, _⟩ := h.live x hx
    exact (List.getElem?_eq_some.1 hl).1
  simp only [newRegionLeader, Option.some.injEq, Prod.mk.injEq] at hr
  obtain ⟨hs1, _⟩ := hr
  subst hs1
  constructor
  · show (s.rls ++ [s.heap.length]).Nodup
    rw [List.nodup_append]
    refine ⟨h.nodup, List.nodup_singleton _, ?_⟩
    intro a ha hb
    rw [List.mem_singleton] at hb
    have := hlt a ha
    omega
  · intro x hx
    have hx2 : x ∈ s.rls ++ [s.heap.length] := hx
    rcases List.mem_append.1 hx2 with hm | hm
    · obtain ⟨l, hl, hd⟩ := h.live x hm
      refine ⟨l, ?_, hd⟩
      show (s.heap ++ _)[x]? = some l
      rw [List.getElem?_append_left (hlt x hm)]
      exact hl
    · rw [List.mem_singleton] at hm
      subst hm
      exact ⟨_, List.getElem?_concat_length _ _, rfl⟩

theorem leadersOk_Rescind (s s1 : Leaders) (rl : Nat) (dels : List (Option ZkErr))
    (tr : List LeaderEvent) (h : LeadersOk s) (hr : Rescind s rl dels = some (s1, tr)) :
    LeadersOk s1 := by
  unfold Rescind at hr
  split at hr
  · cases hr; exact h
  · rename_i l hl
    split at hr
    · cases hr; exact h
    · split at hr
      · cases hr
      · cases hr
        constructor
        · show (unregister rl s.rls).Nodup
          rw [unregister_eq_erase]
          exact h.nodup.erase rl
        · intro x hx
          have hx2 : x ∈ unregister rl s.rls := hx
          rw [unregister_eq_erase, h.nodup.mem_erase_iff] at hx2
          obtain ⟨lx, hlx, hdx⟩ := h.live x hx2.2
          refine ⟨lx, ?_, hdx⟩
          show (s.heap.set rl _)[x]? = some lx
          rw [List.getElem?_set_ne (fun hc => hx2.1 hc.symm)]
          exact hlx

theorem leadersOk_run : ∀ (ops : List LeaderOp) (s0 s : Leaders), LeadersOk s0 →
    noEarlyRescind ops → runLeaderOps s0 ops = some s → LeadersOk s := by
  intro ops
  induction ops with
  | nil =>
    intro s0 s h0 _ hr
    simp only [runLeaderOps, Option.some.injEq] at hr
    exact hr ▸ h0
  | cons op rest ih =>
    intro s0 s h0 hne hr
    have hrest : noEarlyRescind rest := fun node early hm =>
      hne node early (List.mem_cons_of_mem _ hm)
    cases op with
    | elected node early =>
      have he : early = none := hne node early (List.mem_cons_self _ _)
      subst he
      simp only [runLeaderOps] at hr
      split at hr
      · cases hr
      · rename_i r hres
        exact ih _ s (leadersOk_newRegionLeader s0 r.1 node r.2 h0 hres) hrest hr
    | rescind rl dels =>
      simp only [runLeaderOps] at hr
      split at hr
      · cases hr
      · rename_i r hres
        exact ih _ s (leadersOk_Rescind s0 r.1 rl dels r.2 h0 hres) hrest hr

theorem rescindAll_registry (dels : Nat → List (Option ZkErr)) :
    ∀ (todo : List Nat) (s : Leaders), s.rls = todo → LeadersOk s →
      (∀ rl ∈ todo, ∃ o ∈ dels rl, deleteDone o = true) →
      ∃ s1 tr, rescindAll dels todo s = some (s1, tr) ∧ s1.rls = [] ∧
        (∀ rl ∈ todo, rescindedIn s1 rl) ∧ (∀ x, rescindedIn s x → rescindedIn s1 x) := by
  intro todo
  induction todo with
  | nil =>
    intro s hs _ _
    exact ⟨s, [], rfl, hs, (fun rl h => by cases h), fun x h => h⟩
  | cons rl rest ih =>
    intro s hs hok hdel
    have hmem : rl ∈ s.rls := by rw [hs]; exact List.mem_cons_self _ _
    obtain ⟨l, hl, hfresh⟩ := hok.live rl hmem
    obtain ⟨fails, ok, more, hsplit, hfails, hdone⟩ :=
      exists_first_success (dels rl) (hdel rl (List.mem_cons_self _ _))
    have hres := Rescind_first s rl l fails ok more hl hfresh hfails hdone
    rw [← hsplit] at hres
    have hok1 := leadersOk_Rescind s _ rl (dels rl) _ hok hres
    have hrls : unregister rl s.rls = rest := by
      rw [hs]; simp [unregister]
    obtain ⟨s1, tr, hall, hempty, hclosed, hmono⟩ :=
      ih _ hrls hok1 (fun x hx => hdel x (List.mem_cons_of_mem _ hx))
    have hlt : rl < s.heap.length := (List.getElem?_eq_some.1 hl).1
    have hstep : ∀ x, rescindedIn s x →
        rescindedIn { heap := s.heap.set rl { l with rescindedClosed := true, cleanupDone := true },
                      rls := unregister rl s.rls } x := by
      intro x ⟨lx, hlx, hcx⟩
      by_cases hx : x = rl
      · subst hx
        exact ⟨_, List.getElem?_set_self hlt, rfl⟩
      · refine ⟨lx, ?_, hcx⟩
        show (s.heap.set rl _)[x]? = some lx
        rw [List.getElem?_set_ne (fun hc => hx hc.symm)]
        exact hlx
    refine ⟨s1, ([LeaderEvent.closeRescinded rl] ++ retryEvents l.lockNode fails.length ++
          [LeaderEvent.delete l.lockNode, LeaderEvent.unregister rl]) ++ tr,
      ?_, hempty, ?_, fun x hx => hmono x (hstep x hx)⟩
    · simp only [rescindAll, hres, hall]
    · intro x hx
      rcases List.mem_cons.1 hx with rfl | hx
      · exact hmono _ ⟨_, List.getElem?_set_self hlt, rfl⟩
      · exact hclosed x hx

theorem doRecoverSession_error (w : AuthWorld) (sessId : String) (e : CallErr)
    (h : (doRecoverSession w sessId).2.1 = some e) :
    (doRecoverSession w sessId).1 = none := by
  unfold doRecoverSession at h ⊢
  simp only at h ⊢
  split
  · rename_i hq
    rw [if_pos hq] at h
    cases hr : w.readsession sessId with
    | failed e2 => rfl
    | replied sid token =>
      rw [hr] at h
      simp only at h
      split at h <;> cases h
  · rename_i hq
    rw [if_neg hq] at h
    cases h

theorem RecoverSession_error (s : realScope) (w : AuthWorld) (sessId : String) (e : CallErr)
    (h : (RecoverSession s w sessId).2.1 = some e) :
    (RecoverSession s w sessId).1 = { s with authUser := none } := by
  unfold RecoverSession at h ⊢
  simp only at h ⊢
  have hu : (doRecoverSession w sessId).2.1 = some e := by
    split at h <;> exact h
  have hnone := doRecoverSession_error w sessId e hu
  rw [hu, hnone]
  simp

theorem lastSegment_append (sep : Char) (a d : List Char) (h : sep ∉ d) :
    (splitChar sep (a ++ sep :: d)).getLastD [] = d := by
  rw [splitChar_append_sep, splitChar_of_not_mem sep d h]
  simp

theorem digitVal_digitChar (x : Nat) (h : x < 10) : digitVal (Nat.digitChar x) = some x := by
  interval_cases x <;> decide

theorem digitChar_not_sign (x : Nat) (h : x < 10) :
    Nat.digitChar x ≠ '-' ∧ Nat.digitChar x ≠ '+' := by
  interval_cases x <;> decide

theorem parseDigits_digitChars :
    ∀ (ds : List Nat) (acc : Nat), (∀ x ∈ ds, x < 10) →
      parseDigits (ds.map Nat.digitChar) acc =
        some (acc * 10 ^ ds.length + Nat.ofDigits 10 ds.reverse) := by
  intro ds
  induction ds with
  | nil => intro acc _; simp [parseDigits]
  | cons d ds ih =>
    intro acc h
    have hd : d < 10 := h d (List.mem_cons_self _ _)
    have hds : ∀ x ∈ ds, x < 10 := fun x hx => h x (List.mem_cons_of_mem _ hx)
    simp only [List.map_cons, parseDigits, digitVal_digitChar d hd, ih _ hds,
      List.reverse_cons, Nat.ofDigits_append, Nat.ofDigits_singleton, List.length_reverse,
      List.length_cons]
    congr 1
    ring

theorem parseDigits_none_of_bad :
    ∀ (cs : List Char) (acc : Nat), (∃ c ∈ cs, digitVal c = none) → parseDigits cs acc = none := by
  intro cs
  induction cs with
  | nil => intro _ h; obtain ⟨c, hc, _⟩ := h; cases hc
  | cons c cs ih =>
    intro acc h
    cases hv : digitVal c with
    | none => simp [parseDigits, hv]
    | some v =>
      have hr : ∃ x ∈ cs, digitVal x = none := by
        obtain ⟨x, hx, hxv⟩ := h
        rcases List.mem_cons.1 hx with rfl | hx
        · rw [hv] at hxv; cases hxv
        · exact ⟨x, hx, hxv⟩
      simp [parseDigits, hv, ih _ hr]

theorem atoi_digitChars (ds : List Nat) (hne : ds ≠ []) (h : ∀ x ∈ ds, x < 10)
    (hr : Nat.ofDigits 10 ds.reverse < 2 ^ 63) :
    atoi (ds.map Nat.digitChar) = .ok ((Nat.ofDigits 10 ds.reverse : Nat) : Int) := by
  cases ds with
  | nil => exact absurd rfl hne
  | cons d ds =>
    have hd : d < 10 := h d (List.mem_cons_self _ _)
    obtain ⟨hm, hp⟩ := digitChar_not_sign d hd
    have hpd := parseDigits_digitChars (d :: ds) 0 h
    simp only [zero_mul, zero_add] at hpd
    unfold atoi
    simp only [List.map_cons]
    split
    · rename_i heq; cases heq
    · rename_i heq; simp only [List.cons.injEq] at heq; exact absurd heq.1 hm
    · rename_i heq; simp only [List.cons.injEq] at heq; exact absurd heq.1 hp
    · simp only [List.map_cons] at hpd
      have hr2 : Nat.ofDigits 10 (ds.reverse ++ [d]) < 9223372036854775808 := by
        simpa using hr
      simp [hpd, hr2]

theorem atoi_bad (seg : List Char)
    (h : seg = [] ∨ ∃ i c, seg[i]? = some c ∧ digitVal c = none ∧
      ¬ (i = 0 ∧ (c = '+' ∨ c = '-'))) :
    atoi seg = .error AtoiErr.badSyntax := by
  rcases h with rfl | ⟨i, c, hi, hc, hnot⟩
  · rfl
  · have hmem : c ∈ seg := (List.mem_iff_getElem?.2 ⟨_, hi⟩)
    have tailBad : ∀ (s0 : Char) (rest : List Char), seg = s0 :: rest →
        (s0 = '+' ∨ s0 = '-') → ∃ x ∈ rest, digitVal x = none := by
      intro s0 rest hs hsign
      subst hs
      cases i with
      | zero =>
        simp only [List.getElem?_cons_zero, Option.some.injEq] at hi
        subst hi
        exact absurd ⟨rfl, hsign⟩ hnot
      | succ j =>
        simp only [List.getElem?_cons_succ] at hi
        exact ⟨c, (List.mem_iff_getElem?.2 ⟨_, hi⟩), hc⟩
    unfold atoi
    split
    · rfl
    · rename_i ds
      have hb := tailBad '-' ds rfl (Or.inr rfl)
      simp only
      split
      · rfl
      · simp [parseDigits_none_of_bad ds 0 hb]
    · rename_i ds
      have hb := tailBad '+' ds rfl (Or.inl rfl)
      simp only
      split
      · rfl
      · simp [parseDigits_none_of_bad ds 0 hb]
    · simp only
      split
      · rfl
      · simp [parseDigits_none_of_bad seg 0 ⟨c, hmem, hc⟩]

theorem ofDigits_replicate_zero (k : Nat) : Nat.ofDigits 10 (List.replicate k 0) = 0 := by
  induction k with
  | zero => rfl
  | succ k ih => rw [List.replicate_succ, Nat.ofDigits_cons, ih]

theorem parentRequests_getElem? :
    ∀ (done segs : List (List Char)) (i : Nat), i < segs.length →
      (parentRequests done segs)[i]? =
        some (String.mk (slashJoin (done ++ segs.take (i + 1)))) := by
  intro done segs
  induction segs generalizing done with
  | nil => intro i hi; cases hi
  | cons s rest ih =>
    intro i hi
    rw [parentRequests_cons]
    cases i with
    | zero => simp
    | succ j =>
      have hj : j < rest.length := by simpa using hi
      rw [List.getElem?_cons_succ, ih (done ++ [s]) j hj]
      simp

/-! ## Theorems: reaper classification, `Unlock`, `Rescind`, lock paths, `parseSeq`,
`createParents`, `addPath`, `RecoverSession` -/

/-- C11. Reaper lookup classification, for a tracked path `p` with count `n`:
when the lookup reports "not exists" with an error other than `ErrNoNode`, the
sweep leaves the count 0 and attempts no delete of `p`; when it reports "not
exists" with no error or with `ErrNoNode`, `incrementPath` raises the count by
exactly 1 (that count stays in the map when it is below the threshold, and
otherwise the sweep goes on to the delete); when `p` exists with at least one
child, the sweep leaves the count 0 and attempts no delete. -/
theorem reaper_lookup_classification (sw : Sweep) (paths : Paths) (p : String) (n : Int)
    (h : paths.lookup p = some n) :
    ((sw.look p).found = false →
      (∃ e, (sw.look p).err = some e ∧ e ≠ ZkErr.noNode) →
      (reap sw paths).1.lookup p = some 0 ∧ p ∉ (reap sw paths).2) ∧
    ((sw.look p).found = false →
      ((sw.look p).err = none ∨ (sw.look p).err = some ZkErr.noNode) →
      incrementPath paths p = (paths.insert p (n + 1), n + 1) ∧
      (n + 1 < reaperThreshold →
        (reap sw paths).1.lookup p = some (n + 1) ∧ p ∉ (reap sw paths).2) ∧
      (reaperThreshold ≤ n + 1 → p ∈ (reap sw paths).2)) ∧
    ((sw.look p).found = true → 1 ≤ (sw.look p).numChildren →
      (reap sw paths).1.lookup p = some 0 ∧ p ∉ (reap sw paths).2) := by
  obtain ⟨h1, h2⟩ := reap_tracked sw paths h
  refine ⟨?_, ?_, ?_⟩
  · intro hf ⟨e, he, hne⟩
    have hempty : (sw.look p).empty = false := by
      simp [ExistsReply.empty, hf, he, hne]
    simp only [trackedStep, hempty] at h1 h2
    exact ⟨h1, fun hc => by simpa using h2.1 hc⟩
  · intro hf herr
    have hempty : (sw.look p).empty = true := by
      rcases herr with he | he <;> simp [ExistsReply.empty, hf, he]
    refine ⟨by unfold incrementPath; rw [h], ?_, ?_⟩
    · intro hlt
      have hn : ¬ (n + 1 ≥ reaperThreshold) := not_le.2 hlt
      simp only [trackedStep, hempty, if_true, if_neg hn] at h1 h2
      exact ⟨h1, fun hc => by simpa using h2.1 hc⟩
    · intro hge
      have hn : n + 1 ≥ reaperThreshold := hge
      simp only [trackedStep, hempty, if_true, if_pos hn] at h2
      exact h2.2 trivial
  · intro hf hc
    have hempty : (sw.look p).empty = false := by
      have : (sw.look p).numChildren > 0 := by omega
      simp [ExistsReply.empty, hf, this]
    simp only [trackedStep, hempty] at h1 h2
    exact ⟨h1, fun hc => by simpa using h2.1 hc⟩

/-- Witness of C11: `/ns/a` tracked with count 0, looked up as missing with
`ErrNoNode`, ends the sweep with count 1 and no delete. -/
theorem reaper_lookup_classification_witness :
    oneTracked.lookup "/ns/a" = some 0 ∧
    (reap (sweepOf (fun _ => missing) (fun _ => none)) oneTracked).1.lookup "/ns/a"
      = some (0 + 1) ∧
    "/ns/a" ∉ (reap (sweepOf (fun _ => missing) (fun _ => none)) oneTracked).2 :=
  ⟨by decide,
   ((reaper_lookup_classification (sweepOf (fun _ => missing) (fun _ => none)) oneTracked
      "/ns/a" 0 (by decide)).2.1 rfl (Or.inr rfl)).2.1 (by decide)⟩

/-- C12, as amended. Sequential idempotence of `Unlock`: the first `Unlock` on an
acquired lock closes the exit signal once, does not panic, and attempts the
delete of the column `lockId` under row `id` exactly once when the connection
pool is available and not at all when the pool lookup fails (no other column is
ever deleted); every later `Unlock` returns the same lock and makes no call, so
`Unlock` twice has the same effect as `Unlock` once. -/
theorem unlock_idempotent (gl : globalLock) (p1 p2 : Option StoreErr)
    (hu : gl.unlocked = false) (he : gl.exitClosed = false) :
    (gl.Unlock p1).2.count Event.closeExit = 1 ∧
    deleteCount gl.id gl.lockId (gl.Unlock p1).2 = (if p1 = none then 1 else 0) ∧
    (∀ key column, Event.deleteColumns key column ∈ (gl.Unlock p1).2 →
      key = gl.id ∧ column = gl.lockId) ∧
    Event.goPanic ∉ (gl.Unlock p1).2 ∧
    (gl.Unlock p1).1.exitClosed = true ∧
    (gl.Unlock p1).1.Unlock p2 = ((gl.Unlock p1).1, []) := by
  cases p1 <;> simp [globalLock.Unlock, hu, he, deleteCount]

/-- Witness of C12 as amended: the lock of row `[1]` with lock id `[7]`, pool
available. -/
theorem unlock_idempotent_witness :
    (heldLock.unlocked = false ∧ heldLock.exitClosed = false) ∧
    (heldLock.Unlock none).2.count Event.closeExit = 1 ∧
    deleteCount heldLock.id heldLock.lockId (heldLock.Unlock none).2 = 1 ∧
    (heldLock.Unlock none).1.Unlock none = ((heldLock.Unlock none).1, []) :=
  ⟨⟨rfl, rfl⟩, (unlock_idempotent heldLock none none rfl rfl).1,
   (unlock_idempotent heldLock none none rfl rfl).2.1,
   (unlock_idempotent heldLock none none rfl rfl).2.2.2.2.2⟩

/-- Counterexample to C12 as stated: when the connection pool is not available
the first `Unlock` closes the exit signal, marks the lock unlocked and attempts
no delete. -/
theorem unlock_without_delete :
    heldLock.Unlock (some ⟨9⟩) =
      ({ id := [1], lockId := [7], exitClosed := true, unlocked := true },
       [Event.closeExit, Event.connectionPool]) ∧
    deleteCount [1] [7] (heldLock.Unlock (some ⟨9⟩)).2 = 0 := by
  decide

/-- C13. The body of `Rescind` runs exactly once and in order: for a leader whose
`cleanup` has not run, with deletes that fail `fails.length` times and then
return success or `ErrNoNode`, the first `Rescind` closes the rescinded signal,
then issues the deletes of `lockNode` (a sleep after each failure) up to the
first that succeeds, and only then removes the leader from the registry, the
other entries and their order unchanged; a later `Rescind` makes no call and
returns the same state. -/
theorem rescind_exactly_once (s : Leaders) (rl : Nat) (l : regionLeader)
    (fails : List (Option ZkErr)) (ok : Option ZkErr) (rest : List (Option ZkErr))
    (hl : s.heap[rl]? = some l) (hfresh : l.cleanupDone = false)
    (hfails : ∀ o ∈ fails, deleteDone o = false) (hok : deleteDone ok = true) :
    ∃ s1, Rescind s rl (fails ++ ok :: rest) =
        some (s1, [LeaderEvent.closeRescinded rl] ++ retryEvents l.lockNode fails.length ++
          [LeaderEvent.delete l.lockNode, LeaderEvent.unregister rl]) ∧
      rescindedIn s1 rl ∧
      (∀ a b, s.rls = a ++ rl :: b → rl ∉ a → s1.rls = a ++ b) ∧
      (rl ∉ s.rls → s1.rls = s.rls) ∧
      (∀ dels2, Rescind s1 rl dels2 = some (s1, [])) := by
  have hlt : rl < s.heap.length := (List.getElem?_eq_some.1 hl).1
  refine ⟨_, Rescind_first s rl l fails ok rest hl hfresh hfails hok, ?_, ?_, ?_, ?_⟩
  · exact ⟨_, List.getElem?_set_self hlt, rfl⟩
  · intro a b hs ha
    show unregister rl s.rls = a ++ b
    rw [hs, unregister_split rl a b ha]
  · intro hn
    exact unregister_of_not_mem rl s.rls hn
  · intro dels2
    exact Rescind_done _ rl _ dels2 (List.getElem?_set_self hlt) rfl

/-- Witness of C13: leader 0 of `twoLeaders`, one failed delete, then
`ErrNoNode`. -/
theorem rescind_exactly_once_witness :
    twoLeaders.heap[0]? = some leaderA ∧ leaderA.cleanupDone = false ∧
    ∃ s1, Rescind twoLeaders 0 ([some (ZkErr.other 1)] ++ some ZkErr.noNode :: []) =
        some (s1, [LeaderEvent.closeRescinded 0] ++
          retryEvents "/sync/regionleader/a/lock-0000000000" 1 ++
          [LeaderEvent.delete "/sync/regionleader/a/lock-0000000000",
           LeaderEvent.unregister 0]) ∧
      rescindedIn s1 0 ∧
      (∀ a b, twoLeaders.rls = a ++ 0 :: b → 0 ∉ a → s1.rls = a ++ b) ∧
      (0 ∉ twoLeaders.rls → s1.rls = twoLeaders.rls) ∧
      (∀ dels2, Rescind s1 0 dels2 = some (s1, [])) :=
  ⟨rfl, rfl,
   rescind_exactly_once twoLeaders 0 leaderA [some (ZkErr.other 1)] (some ZkErr.noNode) []
    rfl rfl (by decide) (by decide)⟩

/-- C14, the code at the failing input. One election whose watcher goroutine
fails in `GetW` and finishes its `Rescind` before `newRegionLeader` registers the
leader: the registry then holds a leader whose `cleanup` is spent, and
`CleanupRegionLeaders` returns without a call and leaves it there, whatever the
deletes would answer. When no watcher rescinds before its leader is registered,
`CleanupRegionLeaders` empties the registry and closes the signal of every
registered leader, as after `threeElections`. -/
theorem cleanup_leaves_early_rescinded :
    runLeaderOps noLeaders earlyWatcher = some lateRegistered ∧
    lateRegistered.rls = [0] ∧
    rescindedIn lateRegistered 0 ∧
    (∀ dels, CleanupRegionLeaders lateRegistered dels = some (lateRegistered, [])) ∧
    runLeaderOps noLeaders threeElections = some twoLeaders ∧
    (∀ (ops : List LeaderOp) (s : Leaders) (dels : Nat → List (Option ZkErr)),
      noEarlyRescind ops → runLeaderOps noLeaders ops = some s →
      (∀ rl ∈ s.rls, ∃ o ∈ dels rl, deleteDone o = true) →
      ∃ s1 tr, CleanupRegionLeaders s dels = some (s1, tr) ∧ s1.rls = [] ∧
        ∀ rl ∈ s.rls, rescindedIn s1 rl) := by
  refine ⟨by decide, rfl, ⟨_, rfl, rfl⟩, fun dels => rfl, by decide, ?_⟩
  intro ops s dels hne hs hdel
  have hok := leadersOk_run ops noLeaders s leadersOk_noLeaders hne hs
  obtain ⟨s1, tr, h1, h2, h3, _⟩ := rescindAll_registry dels s.rls s rfl hok hdel
  exact ⟨s1, tr, h1, h2, h3⟩

/-- C15, as amended. Two ids get the same region lock path exactly when they are
equal after every `/` is replaced by `#`; in particular, for every namespace,
two different ids that contain no `/` get different paths. -/
theorem lockPath_independence (ns id1 id2 : String) :
    ((constructLockPath ns id1).1 = (constructLockPath ns id2).1 ↔
      replaceChar '/' '#' id1.data = replaceChar '/' '#' id2.data) ∧
    ('/' ∉ id1.data → '/' ∉ id2.data → id1 ≠ id2 →
      (constructLockPath ns id1).1 ≠ (constructLockPath ns id2).1) := by
  refine ⟨constructLockPath_eq_iff ns id1 id2, ?_⟩
  intro h1 h2 hne heq
  rw [constructLockPath_eq_iff, replaceChar_of_not_mem _ _ _ h1,
    replaceChar_of_not_mem _ _ _ h2] at heq
  exact hne (String.ext heq)

/-- Witness of C15 as amended: the ids `a-b` and `a#b` under the namespace `ns`. -/
theorem lockPath_independence_witness :
    (constructLockPath "ns" "a-b").1 ≠ (constructLockPath "ns" "a#b").1 :=
  (lockPath_independence "ns" "a-b" "a#b").2 (by decide) (by decide) (by decide)

/-- Counterexample to C15 as stated: the non-empty ids `a/b` and `a#b` differ and
both get the path `/ns/a#b`, without error. -/
theorem lockPath_collision :
    ("ns" : String) ≠ "" ∧ ("a/b" : String) ≠ "" ∧ ("a#b" : String) ≠ "" ∧
    ("a/b" : String) ≠ "a#b" ∧
    constructLockPath "ns" "a/b" = ("/ns/a#b", none) ∧
    constructLockPath "ns" "a#b" = ("/ns/a#b", none) := by
  decide

/-- C16. Result and failure condition of `constructLockPath`: the returned path
is `/` + namespace + `/` + id', where id' has the length of the id and at every
position the character of the id, `#` standing for `/`; an error is returned if
and only if the namespace is empty, or the id is empty, or the path contains
`//`. The cases of `TestConstructLockPath` come out as the test expects. -/
theorem constructLockPath_spec (ns id : String) :
    (∃ id1 : String, (constructLockPath ns id).1 = "/" ++ ns ++ "/" ++ id1 ∧
      id1.data.length = id.data.length ∧
      ∀ (i : Nat) (c : Char), id.data[i]? = some c →
        id1.data[i]? = some (if c = '/' then '#' else c)) ∧
    ((constructLockPath ns id).2 ≠ none ↔
      (ns = "" ∨ id = "" ∨ List.IsInfix ['/', '/'] (constructLockPath ns id).1.data)) ∧
    constructLockPath "ns" "id" = ("/ns/id", none) ∧
    constructLockPath "ns" "some/id" = ("/ns/some#id", none) ∧
    (constructLockPath "/ns" "/id").2 ≠ none ∧
    (constructLockPath "" "/id").2 ≠ none ∧
    (constructLockPath "ns" "").2 ≠ none := by
  refine ⟨⟨String.mk (replaceChar '/' '#' id.data), constructLockPath_path ns id,
    replaceChar_length _ _ _, fun i c h => replaceChar_getElem? _ _ _ i c h⟩,
    constructLockPath_err ns id, by decide, by decide, by decide, by decide, by decide⟩

/-- C17. Sequence parsing: for every string `p`, `parseSeq` of `p` + `-` + `d` is
`n` for every non-empty string `d` of decimal digits whose value `n` is below
`2 ^ 31`, in particular for `n` written with `k` leading zeros; and `parseSeq`
fails when the text after the last `-` of its argument (the whole argument when
it has no `-`) is empty or has a character that is neither a digit nor a leading
sign. The node name `lock-0000000042` under an election path that has a `-`
parses to 42. -/
theorem parseSeq_spec :
    (∀ (p : String) (ds : List Nat), ds ≠ [] → (∀ x ∈ ds, x < 10) →
      Nat.ofDigits 10 ds.reverse < 2 ^ 31 →
      parseSeq (p ++ "-" ++ String.mk (ds.map Nat.digitChar)) =
        .ok ((Nat.ofDigits 10 ds.reverse : Nat) : Int)) ∧
    (∀ (p : String) (n k : Nat), n < 2 ^ 31 → 0 < k + (Nat.digits 10 n).length →
      parseSeq (p ++ "-" ++
        String.mk ((List.replicate k 0 ++ (Nat.digits 10 n).reverse).map Nat.digitChar)) =
        .ok (n : Int)) ∧
    (∀ (a seg : List Char), '-' ∉ seg →
      (seg = [] ∨ ∃ i c, seg[i]? = some c ∧ digitVal c = none ∧
        ¬ (i = 0 ∧ (c = '+' ∨ c = '-'))) →
      parseSeq (String.mk (a ++ '-' :: seg)) = .error AtoiErr.badSyntax ∧
      parseSeq (String.mk seg) = .error AtoiErr.badSyntax) ∧
    parseSeq "/sync/regionleader/a-b/lock-0000000042" = .ok 42 ∧
    parseSeq "/sync/regionleader/a/lock-" = .error AtoiErr.badSyntax ∧
    parseSeq "/sync/regionleader/a/lock-12a" = .error AtoiErr.badSyntax := by
  have main : ∀ (p : String) (ds : List Nat), ds ≠ [] → (∀ x ∈ ds, x < 10) →
      Nat.ofDigits 10 ds.reverse < 2 ^ 31 →
      parseSeq (p ++ "-" ++ String.mk (ds.map Nat.digitChar)) =
        .ok ((Nat.ofDigits 10 ds.reverse : Nat) : Int) := by
    intro p ds hne hd hlt
    have hnm : '-' ∉ ds.map Nat.digitChar := by
      intro hm
      obtain ⟨x, hx, hxe⟩ := List.mem_map.1 hm
      exact (digitChar_not_sign x (hd x hx)).1 hxe
    unfold parseSeq
    have hdata : (p ++ "-" ++ String.mk (ds.map Nat.digitChar)).data =
        p.data ++ '-' :: ds.map Nat.digitChar := by
      simp
    rw [hdata, lastSegment_append '-' _ _ hnm]
    exact atoi_digitChars ds hne hd (lt_trans hlt (by norm_num))
  refine ⟨main, ?_, ?_, by decide, by decide, by decide⟩
  · intro p n k hn hk
    have hval : Nat.ofDigits 10 (List.replicate k 0 ++ (Nat.digits 10 n).reverse).reverse = n := by
      rw [List.reverse_append, List.reverse_reverse, List.reverse_replicate,
        Nat.ofDigits_append, Nat.ofDigits_digits, ofDigits_replicate_zero]
      simp
    have h := main p (List.replicate k 0 ++ (Nat.digits 10 n).reverse)
      (by
        intro hc
        have hl := congrArg List.length hc
        rw [List.length_append, List.length_replicate, List.length_reverse,
          List.length_nil] at hl
        omega)
      (by
        intro x hx
        rcases List.mem_append.1 hx with hx | hx
        · rw [(List.mem_replicate.1 hx).2]; norm_num
        · exact Nat.digits_lt_base (by norm_num) (List.mem_reverse.1 hx))
      (by rw [hval]; exact hn)
    rw [hval] at h
    exact h
  · intro a seg hseg hbad
    constructor
    · unfold parseSeq
      show atoi ((splitChar '-' (a ++ '-' :: seg)).getLastD []) = _
      rw [lastSegment_append '-' _ _ hseg]
      exact atoi_bad seg hbad
    · unfold parseSeq
      show atoi ((splitChar '-' seg).getLastD []) = _
      rw [splitChar_of_not_mem '-' seg hseg]
      exact atoi_bad seg hbad

/-- C18. Parent creation: for the path `/s1/s2/.../sk`, `createParents` issues
the create requests `/s1`, `/s1/s2`, ... in that order, up to the end or up to
the first create that returns an error other than `ErrNodeExists`, which it
returns; its result is `nil` if and only if every one of the `k` creates returns
`nil` or `ErrNodeExists`, and then all `k` requests were issued;
`zookeeper.CreateParents` is the same function. -/
theorem createParents_spec (create : String → Option ZkErr) (segs : List (List Char))
    (hseg : ∀ s ∈ segs, '/' ∉ s) :
    List.IsPrefix (createParents create (String.mk (slashJoin segs))).2
      (parentRequests [] segs) ∧
    ((createParents create (String.mk (slashJoin segs))).1 = none ↔
      ∀ q ∈ parentRequests [] segs, createOk (create q)) ∧
    ((createParents create (String.mk (slashJoin segs))).1 = none →
      (createParents create (String.mk (slashJoin segs))).2 = parentRequests [] segs) ∧
    (∀ e, (createParents create (String.mk (slashJoin segs))).1 = some e →
      ∃ earlier q, (createParents create (String.mk (slashJoin segs))).2 = earlier ++ [q] ∧
        create q = some e ∧ e ≠ ZkErr.nodeExists ∧ ∀ x ∈ earlier, createOk (create x)) ∧
    (∀ i, i < segs.length →
      (parentRequests [] segs)[i]? = some (String.mk (slashJoin (segs.take (i + 1))))) ∧
    CreateParents create (String.mk (slashJoin segs)) =
      createParents create (String.mk (slashJoin segs)) := by
  have hrun : createParents create (String.mk (slashJoin segs)) =
      createLoop create segs (String.mk (slashJoin [])) [] := by
    unfold createParents
    rw [splitChar_slashJoin segs hseg]
    rfl
  obtain ⟨sent, h1, h2, h3, h4⟩ := createLoop_spec create segs [] []
  rw [← hrun] at h1 h3 h4
  simp only [List.nil_append] at h1
  refine ⟨by rw [h1]; exact h2, ?_, ?_, ?_, ?_, rfl⟩
  · constructor
    · intro hn
      obtain ⟨e1, e2⟩ := h3 hn
      rw [← e1]
      exact e2
    · intro hall
      cases hr : (createParents create (String.mk (slashJoin segs))).1 with
      | none => rfl
      | some e =>
        obtain ⟨earlier, q, e1, e2, e3, _⟩ := h4 e hr
        have hq : q ∈ parentRequests [] segs := h2.subset (by rw [e1]; simp)
        rcases hall q hq with hc | hc
        · rw [hc] at e2; cases e2
        · rw [hc] at e2
          simp only [Option.some.injEq] at e2
          exact absurd e2.symm e3
  · intro hn
    rw [h1]
    exact (h3 hn).1
  · intro e he
    obtain ⟨earlier, q, e1, e2, e3, e4⟩ := h4 e he
    exact ⟨earlier, q, by rw [h1, e1], e2, e3, e4⟩
  · intro i hi
    exact parentRequests_getElem? [] segs i hi

/-- Witness of C18: the election path `/sync/regionleader/x` when the create of
`/sync/regionleader` fails. -/
theorem createParents_spec_witness :
    (String.mk (slashJoin ["sync".data, "regionleader".data, "x".data]) =
      "/sync/regionleader/x") ∧
    createParents (fun p => if p = "/sync/regionleader" then some (ZkErr.other 3)
        else some ZkErr.nodeExists) "/sync/regionleader/x" =
      (some (ZkErr.other 3), ["/sync", "/sync/regionleader"]) ∧
    List.IsPrefix
      (createParents (fun p => if p = "/sync/regionleader" then some (ZkErr.other 3)
        else some ZkErr.nodeExists)
        (String.mk (slashJoin ["sync".data, "regionleader".data, "x".data]))).2
      (parentRequests [] ["sync".data, "regionleader".data, "x".data]) :=
  ⟨by decide, by decide,
   (createParents_spec (fun p => if p = "/sync/regionleader" then some (ZkErr.other 3)
        else some ZkErr.nodeExists) ["sync".data, "regionleader".data, "x".data]
      (by decide)).1⟩

/-- C19. The method `addPath` is an idempotent reset: after `addPath(p)` the path
`p` is tracked with count 0, every other path has the count (or the absence) it
had, and `addPath(p)` twice gives the same map as once. -/
theorem addPath_idempotent_reset (paths : Paths) (p : String) :
    (addPath paths p).lookup p = some 0 ∧
    (∀ q, q ≠ p → (addPath paths p).lookup q = paths.lookup q) ∧
    addPath (addPath paths p) p = addPath paths p := by
  refine ⟨?_, ?_, ?_⟩
  · exact AList.lookup_insert _
  · intro q hq
    exact AList.lookup_insert_ne hq
  · unfold addPath resetPath
    exact AList.insert_insert _

/-- C20, the code at the failing input. A scope that holds the authenticated
user `alice` calls `RecoverSession` while the cache has nothing and the login
service fails: the call returns the error, `triedAuth` is as before, and
`authUser` is now `nil`. -/
theorem recoverSession_drops_user :
    aliceScope.authUser = some alice ∧
    RecoverSession aliceScope loginDown "sess-2" =
      ({ authUser := none, toEndpoint := "", fromService := "", triedAuth := true,
         authorised := false },
       some ⟨"com.HailoOSS.service.login.foo"⟩,
       [AuthEvent.cacheFetch "sess-2", AuthEvent.readSession "sess-2"]) := by
  decide

/-! ## Lemmas: refresh interval -/

theorem refreshInterval_eq (n : Int) (h0 : 0 ≤ n) (h1 : n < 2 ^ 19 * 10 ^ 9) :
    refreshInterval n = some (3 * n / 4) := by
  unfold refreshInterval
  rw [roundF64_intCast n h0 (by omega)]
  obtain ⟨m, rfl⟩ := Int.eq_ofNat_of_zero_le h0
  have hm : 3 * m < 2 ^ 53 := by omega
  have hex := roundF64_exact (3 * m) 2 hm (by norm_num)
  have hprod : ((m : ℤ) : ℚ) * (3 / 4) = ((3 * m : ℕ) : ℚ) / 2 ^ 2 := by
    push_cast; ring
  rw [hprod, hex]
  have hfloor : ⌊((3 * m : ℕ) : ℚ) / 2 ^ 2⌋ = (3 * (m : ℤ)) / 4 := by
    have := Rat.floor_intCast_div_natCast (3 * (m : ℤ)) 4
    push_cast at this ⊢
    norm_num at this ⊢
    exact this
  have hnn : (0 : ℚ) ≤ ((3 * m : ℕ) : ℚ) / 2 ^ 2 := by positivity
  unfold truncToInt
  simp only [hnn, if_true, hfloor]
  rw [if_pos]
  constructor <;> omega

theorem floor_threeQuarters (n : Int) : ⌊(3 / 4 : ℚ) * n⌋ = 3 * n / 4 := by
  have := Rat.floor_intCast_div_natCast (3 * n) 4
  push_cast at this
  rw [← this]
  congr 1
  ring

/-! ## Lemmas: hosts, queue names, configuration arrays -/

theorem seenIn_iff (host : String) (hostsB : List String) :
    seenIn host hostsB = true ↔ host ∈ hostsB := by
  induction hostsB with
  | nil => simp [seenIn]
  | cons b rest ih =>
    unfold seenIn
    by_cases h : b = host
    · simp [h]
    · have h2 : ¬ host = b := fun e => h e.symm
      simp [h, h2, ih]

theorem diffHosts_foldl (hostsB : List String) :
    ∀ (hostsA acc : List String),
      hostsA.foldl (fun delta host => if seenIn host hostsB then delta else delta ++ [host]) acc =
        acc ++ hostsA.filter (fun h => decide (h ∉ hostsB)) := by
  intro hostsA
  induction hostsA with
  | nil => intro acc; simp
  | cons a rest ih =>
    intro acc
    rw [List.foldl_cons, ih]
    by_cases h : a ∈ hostsB
    · simp [(seenIn_iff a hostsB).2 h, h]
    · have hs : seenIn a hostsB = false := by
        cases hq : seenIn a hostsB
        · rfl
        · exact absurd ((seenIn_iff a hostsB).1 hq) h
      simp [hs, h]

theorem diffHosts_eq_filter (hostsA hostsB : List String) :
    diffHosts hostsA hostsB = hostsA.filter (fun h => decide (h ∉ hostsB)) := by
  unfold diffHosts
  rw [diffHosts_foldl]
  simp

theorem splitChar_length (sep : Char) :
    ∀ l : List Char, (splitChar sep l).length = l.count sep + 1 := by
  intro l
  induction l with
  | nil => simp [splitChar]
  | cons c cs ih =>
    unfold splitChar
    by_cases h : c = sep
    · subst h
      simp [ih]
    · have hne := splitChar_ne_nil sep cs
      rw [if_neg h]
      cases hs : splitChar sep cs with
      | nil => exact absurd hs hne
      | cons p ps =>
        rw [hs] at ih
        simp only [List.length_cons] at ih ⊢
        rw [List.count_cons_of_ne (fun e => h e.symm)]
        exact ih

theorem splitChar_length_eq_one (sep : Char) (l : List Char) :
    (splitChar sep l).length = 1 ↔ sep ∉ l := by
  rw [splitChar_length, ← List.count_eq_zero]
  omega

theorem asStringArray_strs (ss : List String) :
    AsStringArray (some (ss.map JsonValue.str)) = ss := by
  unfold AsStringArray
  have h : ∀ (l acc : List String),
      (l.map JsonValue.str).foldl
        (fun arr value =>
          match value with
          | .str s => arr ++ [s]
          | .other => arr) acc = acc ++ l := by
    intro l
    induction l with
    | nil => intro acc; simp
    | cons a rest ih => intro acc; simp [ih]
  simpa using h ss []

theorem sliceTo_natCast (s : List Nat) (k : Nat) (h : k ≤ s.length) :
    sliceTo s (k : Int) = some (s.take k) := by
  unfold sliceTo
  rw [if_pos ⟨by omega, by omega⟩]
  simp

/-! ## Lemmas: decimal rendering, `joinChar`, column names, series -/

theorem toDigitsCore_spec :
    ∀ (fuel n : Nat) (ds : List Char), n < fuel →
      ∃ pre : List Char, Nat.toDigitsCore 10 fuel n ds = pre ++ ds ∧ pre ≠ [] ∧
        (∀ c ∈ pre, ∃ d, digitVal c = some d) ∧
        (∀ (rest : List Char) (acc : Nat),
          parseDigits (pre ++ rest) acc = parseDigits rest (acc * 10 ^ pre.length + n)) := by
  intro fuel
  induction fuel with
  | zero => intro n ds h; omega
  | succ fuel ih =>
    intro n ds h
    have hd : digitVal (Nat.digitChar (n % 10)) = some (n % 10) :=
      digitVal_digitChar (n % 10) (Nat.mod_lt _ (by norm_num))
    unfold Nat.toDigitsCore
    by_cases h0 : n / 10 = 0
    · refine ⟨[Nat.digitChar (n % 10)], by simp [h0], by simp, ?_, ?_⟩
      · intro c hc
        rw [List.mem_singleton] at hc
        exact ⟨n % 10, hc ▸ hd⟩
      · intro rest acc
        have hn : n % 10 = n := Nat.mod_eq_of_lt (by omega)
        rw [hn] at hd ⊢
        simp only [List.singleton_append, parseDigits, hd, List.length_singleton, pow_one]
        rfl
    · obtain ⟨pre, hpre, hne, hdig, hparse⟩ :=
        ih (n / 10) (Nat.digitChar (n % 10) :: ds) (by omega)
      refine ⟨pre ++ [Nat.digitChar (n % 10)], by simp [h0, hpre], by simp, ?_, ?_⟩
      · intro c hc
        rcases List.mem_append.1 hc with hc | hc
        · exact hdig c hc
        · rw [List.mem_singleton] at hc
          exact ⟨n % 10, hc ▸ hd⟩
      · intro rest acc
        rw [List.append_assoc, hparse]
        simp only [List.singleton_append, parseDigits, hd, List.length_append,
          List.length_singleton]
        congr 1
        have := Nat.div_add_mod n 10
        rw [pow_succ]
        nlinarith [Nat.div_add_mod n 10]

theorem toDigits_spec (n : Nat) :
    Nat.toDigits 10 n ≠ [] ∧ (∀ c ∈ Nat.toDigits 10 n, ∃ d, digitVal c = some d) ∧
      parseDigits (Nat.toDigits 10 n) 0 = some n := by
  obtain ⟨pre, hpre, hne, hdig, hparse⟩ := toDigitsCore_spec (n + 1) n [] (by omega)
  unfold Nat.toDigits
  rw [hpre, List.append_nil]
  refine ⟨hne, hdig, ?_⟩
  have := hparse [] 0
  simpa [parseDigits] using this

theorem digit_not_sign (c : Char) (d : Nat) (h : digitVal c = some d) : c ≠ '-' ∧ c ≠ '+' := by
  have h1 : digitVal '-' = none := by decide
  have h2 : digitVal '+' = none := by decide
  constructor
  · intro hc
    rw [hc, h1] at h
    cases h
  · intro hc
    rw [hc, h2] at h
    cases h

theorem atoi_toDigits (n : Nat) (h : n < 2 ^ 63) : atoi (Nat.toDigits 10 n) = .ok (n : Int) := by
  obtain ⟨hne, hdig, hparse⟩ := toDigits_spec n
  cases hds : Nat.toDigits 10 n with
  | nil => exact absurd hds hne
  | cons c cs =>
    rw [hds] at hdig hparse
    obtain ⟨d, hd⟩ := hdig c (List.mem_cons_self _ _)
    obtain ⟨hm, hp⟩ := digit_not_sign c d hd
    unfold atoi
    split
    · rename_i heq; cases heq
    · rename_i heq; simp only [List.cons.injEq] at heq; exact absurd heq.1 hm
    · rename_i heq; simp only [List.cons.injEq] at heq; exact absurd heq.1 hp
    · have h2 : n < 9223372036854775808 := by simpa using h
      simp [hparse, h2]

theorem toDigits_no_dash (n : Nat) : '-' ∉ Nat.toDigits 10 n := by
  intro hm
  obtain ⟨d, hd⟩ := (toDigits_spec n).2.1 _ hm
  exact (digit_not_sign _ d hd).1 rfl

theorem joinChar_cons_head (sep c : Char) (p : List Char) (ps : List (List Char)) :
    joinChar sep ((c :: p) :: ps) = c :: joinChar sep (p :: ps) := by
  cases ps with
  | nil => rfl
  | cons q rest => rfl

theorem joinChar_splitChar (sep : Char) : ∀ l : List Char, joinChar sep (splitChar sep l) = l := by
  intro l
  induction l with
  | nil => rfl
  | cons c cs ih =>
    have hne := splitChar_ne_nil sep cs
    unfold splitChar
    cases hs : splitChar sep cs with
    | nil => exact absurd hs hne
    | cons p ps =>
      rw [hs] at ih
      by_cases h : c = sep
      · subst h
        simp only [if_true]
        show [] ++ c :: joinChar c (p :: ps) = c :: cs
        rw [ih]
        rfl
      · simp only [if_neg h]
        rw [joinChar_cons_head, ih]

theorem series_max_foldl :
    ∀ (dps : List DataPoint) (r : ℚ),
      dps.foldl
        (fun r dp =>
          match dp.Y with
          | none => r
          | some y => if y > r then y else r) r =
      (dps.filterMap (fun dp => dp.Y)).foldl max r := by
  intro dps
  induction dps with
  | nil => intro r; rfl
  | cons dp rest ih =>
    intro r
    rw [List.foldl_cons, ih]
    cases hy : dp.Y with
    | none => simp [List.filterMap_cons, hy]
    | some y =>
      simp only [List.filterMap_cons, hy, List.foldl_cons]
      congr 1
      by_cases h : y > r
      · rw [if_pos h, max_eq_right (le_of_lt h)]
      · rw [if_neg h, max_eq_left (not_lt.1 h)]

theorem unix_timeUnix (sec : Int) : Time.Unix (timeUnix sec 0) = sec := by
  unfold Time.Unix timeUnix
  omega

theorem splitChar_column (n : Nat) (uid : List Char) :
    splitChar '-' (Nat.toDigits 10 n ++ '-' :: uid) = Nat.toDigits 10 n :: splitChar '-' uid := by
  rw [splitChar_append_sep, splitChar_of_not_mem '-' _ (toDigits_no_dash n)]
  rfl

theorem columnName_of_digits (now : Int) (n : Nat) (uid : String) (h : n < 2 ^ 63) :
    columnNameToTimeId now (Nat.toDigits 10 n ++ '-' :: uid.data) =
      if (n : Int) > maxInt32 then (uid, timeUnix 0 n, none) else (uid, timeUnix n 0, none) := by
  unfold columnNameToTimeId
  have hlen : ¬ (Nat.toDigits 10 n :: splitChar '-' uid.data).length < 2 := by
    have := splitChar_length '-' uid.data
    simp only [List.length_cons]
    omega
  simp only [splitChar_column, hlen, if_false, List.headD_cons, atoi_toDigits n h, List.tail_cons,
    joinChar_splitChar]

theorem hashmap_memcache_miss (md5hex : List Nat → String) (f : Deduper Memcache) (m : Memcache)
    (content : List Nat) (hs : f.Storage = memcacheStorage)
    (hm : m.lookup (f.getHashKey md5hex content) = none) :
    f.hashmap md5hex m content = (m, false, some DedupeErr.unknown) := by
  unfold Deduper.hashmap Deduper.seenOrAdd
  rw [hs]
  simp only [memcacheStorage, MemcacheDeduper.Exists, mcGet, hm]

/-! ## Lemmas: session tokens -/

theorem parsedUser_customer (w : TokenWorld) (s : String) :
    parsedUser w s customerToken = daveWith w s customerToken ["CUSTOMER"] := by
  rfl

theorem parsedUser_forged (w : TokenWorld) (s : String) :
    parsedUser w s forgedToken = daveWith w s forgedToken ["ADMIN"] := by
  rfl

/-! ## Theorems: sessions, deduplication, series, hosts, leases, tokens, queue and column names -/

/-- C21, as amended. An expired cached user is re-validated only when it can be
renewed: when the cache returns, without error, a user whose `ExpiryTs` is
before the current time, `doRecoverSession` calls `readsession` exactly when
`CanAutoRenew` holds (`RenewTs` is set). Then a failed call gives `nil` and the
error, and a reply with a session gives the user of `FromSessionToken`. When
`RenewTs` is not set, the cached user is returned with no error and no call to
the login service. -/
theorem expired_cache_revalidated (w : AuthWorld) (sessId : String) (u : User) (hit : Bool)
    (hfetch : w.fetch sessId = (some u, hit, none)) (hexp : u.ExpiryTs < w.now) :
    (AuthEvent.readSession sessId ∈ (doRecoverSession w sessId).2.2 ↔ u.CanAutoRenew = true) ∧
    (u.CanAutoRenew = false →
      doRecoverSession w sessId = (some u, none, [AuthEvent.cacheFetch sessId])) ∧
    (u.CanAutoRenew = true →
      (∀ e, w.readsession sessId = LoginReply.failed e →
        (doRecoverSession w sessId).1 = none ∧ (doRecoverSession w sessId).2.1 = some e) ∧
      (∀ sid token, w.readsession sessId = LoginReply.replied sid token →
        ¬ (sid = "" ∧ token = "") →
        (doRecoverSession w sessId).1 = w.fromSessionToken sid token ∧
        (doRecoverSession w sessId).2.1 = none)) := by
  have hq : queryLogin w.now (some u, hit, none) = u.CanAutoRenew := by
    simp [queryLogin, hexp]
  refine ⟨?_, ?_, ?_⟩
  · cases hc : u.CanAutoRenew
    · have hd : doRecoverSession w sessId = (some u, none, [AuthEvent.cacheFetch sessId]) := by
        unfold doRecoverSession
        simp only [hfetch, hq, hc]
        rfl
      rw [hd]
      simp
    · unfold doRecoverSession
      simp only [hfetch, hq, hc, if_true]
      cases hr : w.readsession sessId with
      | failed e => simp
      | replied sid token =>
        simp only []
        split <;> simp
  · intro hc
    unfold doRecoverSession
    simp only [hfetch, hq, hc]
    rfl
  · intro hc
    refine ⟨?_, ?_⟩
    · intro e he
      unfold doRecoverSession
      simp only [hfetch, hq, hc, if_true, he]
      simp
    · intro sid token hr hne
      unfold doRecoverSession
      simp only [hfetch, hq, hc, if_true, hr, if_neg hne]
      cases hf : w.fromSessionToken sid token <;> exact ⟨rfl, rfl⟩

/-- Witness of C21 as amended: the renewable expired user, login service down. -/
theorem expired_cache_revalidated_witness :
    ((renewableCache (LoginReply.failed ⟨"down"⟩)).fetch "sess-1" =
        (some renewableAlice, true, none) ∧
      renewableAlice.ExpiryTs < (renewableCache (LoginReply.failed ⟨"down"⟩)).now) ∧
    (AuthEvent.readSession "sess-1" ∈
        (doRecoverSession (renewableCache (LoginReply.failed ⟨"down"⟩)) "sess-1").2.2 ↔
      renewableAlice.CanAutoRenew = true) :=
  ⟨⟨rfl, by decide⟩,
   (expired_cache_revalidated (renewableCache (LoginReply.failed ⟨"down"⟩)) "sess-1"
      renewableAlice true rfl (by decide)).1⟩

/-- Counterexample to C21 as stated: the cache holds `alice`, expired and with no
`RenewTs`; `doRecoverSession` returns her with no error and makes no call to the
login service. -/
theorem expired_cache_returned :
    staleCache.fetch "sess-1" = (some alice, true, none) ∧
    alice.ExpiryTs < staleCache.now ∧
    doRecoverSession staleCache "sess-1" = (some alice, none, [AuthEvent.cacheFetch "sess-1"]) ∧
    AuthEvent.readSession "sess-1" ∉ (doRecoverSession staleCache "sess-1").2.2 := by
  refine ⟨rfl, by decide, by decide, by decide⟩

/-- C22, the code at the failing input. The deduper of the package comment (type
`hashmap`, storage `MemcacheDeduper`) on a memcache without the key of the
content: `Contains` returns `(false, ErrorUnknown)` and adds nothing, so the
next `Contains` on the same content returns the same. This holds for every
content, every MD5 function and every memcache that lacks the key. -/
theorem memcache_dedupe_miss (md5hex : List Nat → String) (content : List Nat) :
    firehoseDeduper.Contains md5hex ∅ content = some (∅, false, some DedupeErr.unknown) ∧
    (∀ m : Memcache, m.lookup (firehoseDeduper.getHashKey md5hex content) = none →
      firehoseDeduper.Contains md5hex m content = some (m, false, some DedupeErr.unknown)) ∧
    (∀ m m1 : Memcache, ∀ seen err,
      firehoseDeduper.Contains md5hex m content = some (m1, seen, err) → m1 = m) := by
  have hgen : ∀ m : Memcache, m.lookup (firehoseDeduper.getHashKey md5hex content) = none →
      firehoseDeduper.Contains md5hex m content = some (m, false, some DedupeErr.unknown) := by
    intro m hm
    unfold Deduper.Contains
    have h1 : ¬ firehoseDeduper.Type_ = "revbloom" := by decide
    have h2 : firehoseDeduper.Type_ = "hashmap" := by decide
    rw [if_neg h1, if_pos h2, hashmap_memcache_miss md5hex firehoseDeduper m content rfl hm]
  refine ⟨hgen ∅ (AList.lookup_empty _), hgen, ?_⟩
  intro m m1 seen err h
  cases hm : m.lookup (firehoseDeduper.getHashKey md5hex content) with
  | none =>
    rw [hgen m hm] at h
    simp only [Option.some.injEq, Prod.mk.injEq] at h
    exact h.1.symm
  | some v =>
    unfold Deduper.Contains at h
    have h1 : ¬ firehoseDeduper.Type_ = "revbloom" := by decide
    have h2 : firehoseDeduper.Type_ = "hashmap" := by decide
    rw [if_neg h1, if_pos h2] at h
    unfold Deduper.hashmap Deduper.seenOrAdd at h
    simp only [firehoseDeduper, memcacheStorage, MemcacheDeduper.Exists, mcGet] at h hm
    simp only [Deduper.getHashKey] at h hm
    rw [hm] at h
    simp only [Bool.true_eq_false, if_false, Option.some.injEq, Prod.mk.injEq] at h
    exact h.1.symm

/-- C23, the code at the failing input. The series with the single data point
`Y = -1` has greatest `Y` value -1 and `Max` returns 0; for every series `Max`
is the greatest of 0 and the non-nil `Y` values, so it is the maximum only when
some `Y` is at least 0. The sibling `Min` returns -1 on the same series and the
least `Y` also when every `Y` is above 0. -/
theorem max_of_negative_series :
    yValues belowZero = [-1] ∧
    Series.Max (some belowZero) = 0 ∧
    Series.Min (some belowZero) = -1 ∧
    Series.Min (some { Name := "load", DataPoints := [{ X := some 1, Y := some 1 }] }) = 1 ∧
    (∀ s : Series, Series.Max (some s) = (yValues s).foldl max 0) := by
  refine ⟨rfl, ?_, ?_, ?_, ?_⟩
  · norm_num [Series.Max, belowZero]
  · norm_num [Series.Min, belowZero]
  · norm_num [Series.Min]
  · intro s
    exact series_max_foldl s.DataPoints 0

/-- C24. The function `diffHosts` is list difference: its result is the sub-list
of `A`, in the order of `A` and with its repetitions, of the elements that do
not occur in `B`; every element of the result is in `A` and not in `B`,
`diffHosts(A, [])` is `A` and `diffHosts([], B)` is empty. The four cases of
`TestDiffHosts` come out as the test expects. -/
theorem diffHosts_spec (A B : List String) :
    diffHosts A B = A.filter (fun h => decide (h ∉ B)) ∧
    List.Sublist (diffHosts A B) A ∧
    (∀ h, h ∈ diffHosts A B ↔ h ∈ A ∧ h ∉ B) ∧
    (∀ h, h ∉ B → (diffHosts A B).count h = A.count h) ∧
    diffHosts A [] = A ∧
    diffHosts [] B = [] ∧
    diffHosts [] ["10.0.0.1", "10.0.0.2", "10.0.0.3"] = [] ∧
    diffHosts ["10.0.0.1", "10.0.0.2", "10.0.0.3"] [] = ["10.0.0.1", "10.0.0.2", "10.0.0.3"] ∧
    diffHosts ["10.0.0.1", "10.0.0.2", "10.0.0.3"] ["10.0.0.1"] = ["10.0.0.2", "10.0.0.3"] ∧
    diffHosts ["10.0.0.1", "10.0.0.2", "10.0.0.3"]
      ["10.0.0.1", "10.0.0.2", "10.0.0.4", "10.0.0.5"] = ["10.0.0.3"] := by
  refine ⟨diffHosts_eq_filter A B, ?_, ?_, ?_, ?_, rfl, by decide, by decide, by decide,
    by decide⟩
  · rw [diffHosts_eq_filter]
    exact List.filter_sublist A
  · intro h
    rw [diffHosts_eq_filter]
    simp [List.mem_filter]
  · intro h hB
    rw [diffHosts_eq_filter, List.count_filter]
    simpa using hB
  · rw [diffHosts_eq_filter]
    simp

/-- C25. The method `AsHostnameArray` adds the default port only where it is
missing: for a config array of the strings `s1 .. sk` and a default port `p`,
the result has length `k` and its entry `i` is `si` + `:` + the decimal of `p`
when `si` has no `:`, and `si` when it has one. The case of `TestHostnameArray`
comes out as the test expects. -/
theorem asHostnameArray_spec (ss : List String) (p : Int) :
    (AsHostnameArray (some (ss.map JsonValue.str)) p).length = ss.length ∧
    (∀ (i : Nat) (s : String), ss[i]? = some s →
      (':' ∉ s.data →
        (AsHostnameArray (some (ss.map JsonValue.str)) p)[i]? =
          some (String.mk (s.data ++ ':' :: itoa p))) ∧
      (':' ∈ s.data → (AsHostnameArray (some (ss.map JsonValue.str)) p)[i]? = some s)) ∧
    AsHostnameArray (some [JsonValue.str "a", JsonValue.str "b", JsonValue.str "c:8080"]) 1024 =
      ["a:1024", "b:1024", "c:8080"] := by
  refine ⟨?_, ?_, by decide⟩
  · unfold AsHostnameArray
    rw [asStringArray_strs]
    simp
  · intro i s hi
    unfold AsHostnameArray
    rw [asStringArray_strs, List.getElem?_map, hi]
    constructor
    · intro h
      simp [withDefaultPort, (splitChar_length_eq_one ':' s.data).2 h]
    · intro h
      have : ¬ (splitChar ':' s.data).length = 1 := fun e =>
        (splitChar_length_eq_one ':' s.data).1 e h
      simp [withDefaultPort, this]

/-- C26. The first poll is unconditional: once the lease is written,
`GlobalTimedLock` reads the row with no sleep and no deadline check before it,
so for every `waitFor` (zero and negative ones too) and every clock, a first
read whose first column is the own `lockId` gives the lock and a `nil` error.
The deadline is checked before the second read: when the first read shows
another lease and the clock is past `start + waitFor` at the second iteration,
the result is `ErrContended` after that single read. -/
theorem first_poll_unconditional (w : World) (id u : List Nat) (waitFor holdFor : Int)
    (p : Poll) (rest : List Poll)
    (hh : minHoldFor ≤ holdFor) (hu : w.uuid = some u) (hp : w.pool = none)
    (hw : w.write = none) (hpolls : w.polls = p :: rest) :
    (∀ cols, p.read = .row (some (u :: cols)) →
      GlobalTimedLock w id waitFor holdFor = some (wonAtFirstRead id u holdFor)) ∧
    (∀ c cols p2 rest2, p.read = .row (some (c :: cols)) → c ≠ u → rest = p2 :: rest2 →
      p2.now > w.start + waitFor →
      GlobalTimedLock w id waitFor holdFor =
        some (contendedAtSecondCheck id u holdFor w.unlockPool)) := by
  have hlt : ¬ holdFor < minHoldFor := by omega
  constructor
  · intro cols hread
    unfold GlobalTimedLock
    simp only [hlt, if_false, hu, hp, hw, hpolls, pollLoop, hread]
    simp [wonAtFirstRead]
  · intro c cols p2 rest2 hread hc hrest hnow
    unfold GlobalTimedLock
    simp only [hlt, if_false, hu, hp, hw, hpolls, hrest, pollLoop, hread]
    simp [contendedAtSecondCheck, hc, hnow]

/-- Witness of C26: the world `freeRow` with a negative `waitFor`. -/
theorem first_poll_unconditional_witness :
    (minHoldFor ≤ 3000000000 ∧ freeRow.uuid = some [7] ∧ freeRow.pool = none ∧
      freeRow.write = none ∧ freeRow.polls = [{ now := 0, read := .row (some [[7]]) }]) ∧
    GlobalTimedLock freeRow [1] (-5000000000) 3000000000 =
      some (wonAtFirstRead [1] [7] 3000000000) :=
  ⟨⟨by decide, rfl, rfl, rfl, rfl⟩,
   (first_poll_unconditional freeRow [1] [7] (-5000000000) 3000000000
      { now := 0, read := .row (some [[7]]) } [] (by decide) rfl rfl rfl rfl).1 [] rfl⟩

/-- C27. Lease coverage arithmetic: for `holdFor` of `n` nanoseconds with
`2 * 10 ^ 9 ≤ n ≤ 86400 * 10 ^ 9`, the refresh interval is
`r = floor(0.75 * n)` nanoseconds, the initial TTL in nanoseconds is at least
`n`, which is more than `r`, and the renewal TTL in nanoseconds is at least
`2 * r`. -/
theorem lease_coverage (n : Int) (h0 : 2 * 10 ^ 9 ≤ n) (h1 : n ≤ 86400 * 10 ^ 9) :
    ∃ r t1 t2 : Int, refreshInterval n = some r ∧ r = ⌊(3 / 4 : ℚ) * n⌋ ∧
      durationToSeconds n 1 = some t1 ∧ durationToSeconds n (3 / 2) = some t2 ∧
      n ≤ t1 * 10 ^ 9 ∧ r < n ∧ 2 * r ≤ t2 * 10 ^ 9 := by
  refine ⟨3 * n / 4, ⌈(n : ℚ) / 10 ^ 9⌉, ⌈((3 * n / 2 : Int) : ℚ) / 10 ^ 9⌉,
    refreshInterval_eq n (by omega) (by omega), (floor_threeQuarters n).symm,
    durationToSeconds_one n (by omega) (by omega),
    durationToSeconds_threeHalves n (by omega) (by omega), ?_, ?_, ?_⟩
  · obtain ⟨_, c2⟩ := (ceil_nanos n _).1 rfl
    omega
  · omega
  · obtain ⟨_, c2⟩ := (ceil_nanos (3 * n / 2) _).1 rfl
    omega

/-- Witness of C27: `holdFor` of five seconds (the default), refreshed every
3.75 seconds. -/
theorem lease_coverage_witness :
    (2 * 10 ^ 9 ≤ (5000000000 : Int) ∧ (5000000000 : Int) ≤ 86400 * 10 ^ 9) ∧
    ∃ r t1 t2 : Int, refreshInterval 5000000000 = some r ∧
      r = ⌊(3 / 4 : ℚ) * (5000000000 : Int)⌋ ∧
      durationToSeconds 5000000000 1 = some t1 ∧
      durationToSeconds 5000000000 (3 / 2) = some t2 ∧
      5000000000 ≤ t1 * 10 ^ 9 ∧ r < 5000000000 ∧ 2 * r ≤ t2 * 10 ^ 9 :=
  ⟨by norm_num, lease_coverage 5000000000 (by norm_num) (by norm_num)⟩

/-- C28, the code at the failing input. The token `customerToken` and the same
token with `:r=ADMIN` appended after the signature have the same signed text and
the same signature; under a key that signs that text both are accepted, the
first with the roles `[CUSTOMER]` and the second with the roles `[ADMIN]`. The
same holds for every key and every session id: whenever the first token is
accepted, so is the second, with the same `Data` and `Sig` and the role
`ADMIN`. -/
theorem forged_role_accepted :
    FromSessionToken customerKey "sess-1" customerToken =
      .ok (daveWith customerKey "sess-1" customerToken ["CUSTOMER"]) ∧
    FromSessionToken customerKey "sess-1" forgedToken =
      .ok (daveWith customerKey "sess-1" forgedToken ["ADMIN"]) ∧
    splitSub ":sig=".data customerToken.data = [signedText.data, "c2ln".data] ∧
    splitSub ":sig=".data forgedToken.data = [signedText.data, "c2ln:r=ADMIN".data] ∧
    (∀ (w : TokenWorld) (s : String) (u1 : User),
      FromSessionToken w s customerToken = .ok u1 →
      ∃ u2, FromSessionToken w s forgedToken = .ok u2 ∧
        u1.Data = u2.Data ∧ u1.Sig = u2.Sig ∧ u1.Roles = ["CUSTOMER"] ∧ u2.Roles = ["ADMIN"]) := by
  refine ⟨?_, ?_, by decide, by decide, ?_⟩
  · unfold FromSessionToken
    rw [parsedUser_customer]
    rfl
  · unfold FromSessionToken
    rw [parsedUser_forged]
    rfl
  · intro w s u1 h
    unfold FromSessionToken at h ⊢
    rw [parsedUser_customer] at h
    rw [parsedUser_forged]
    have hv : userValid (daveWith w s forgedToken ["ADMIN"]) =
        userValid (daveWith w s customerToken ["CUSTOMER"]) := rfl
    have hs : (daveWith w s forgedToken ["ADMIN"]).Sig =
        (daveWith w s customerToken ["CUSTOMER"]).Sig := rfl
    have hd : (daveWith w s forgedToken ["ADMIN"]).Data =
        (daveWith w s customerToken ["CUSTOMER"]).Data := rfl
    simp only [hv, hs, hd]
    by_cases h1 : userValid (daveWith w s customerToken ["CUSTOMER"]) = true
    · simp only [h1, if_true] at h ⊢
      by_cases h2 : w.verify (daveWith w s customerToken ["CUSTOMER"]).Sig
          (daveWith w s customerToken ["CUSTOMER"]).Data = true
      · simp only [h2, if_true] at h ⊢
        have hu : daveWith w s customerToken ["CUSTOMER"] = u1 := by
          injection h
        subst hu
        exact ⟨_, rfl, rfl, rfl, rfl, rfl⟩
      · simp only [h2] at h
        cases h
    · simp only [h1] at h
      cases h

/-- C29. Dead-letter queue name bound: for every topic and channel,
`getDLQName` slices within range, its result has at most 32 bytes, it is
`topic` + `.` + `channel` + `.dl` when that has at most 32 bytes, and otherwise
it is the first `min(len(topic), 14)` bytes of `topic`, then `.`, a prefix of
`channel` and `.dl`. -/
theorem getDLQName_spec (topic channel : List Nat) :
    (∃ name, getDLQName topic channel = some name ∧
      name.length ≤ 32 ∧
      ((dlqFormat topic channel).length ≤ 32 → name = dlqFormat topic channel) ∧
      (32 < (dlqFormat topic channel).length →
        ∃ pre, List.IsPrefix pre channel ∧
          name = dlqFormat (topic.take (min topic.length 14)) pre)) ∧
    getDLQName (asciiBytes "orders") (asciiBytes "billing") =
      some (asciiBytes "orders.billing.dl") ∧
    getDLQName (asciiBytes "a-topic-name-of-29-characters") (asciiBytes "a-long-channel-name") =
      some (asciiBytes "a-topic-name-o.a-long-channel.dl") := by
  refine ⟨?_, by decide, by decide⟩
  by_cases hlen : (dlqFormat topic channel).length ≤ 32
  · refine ⟨dlqFormat topic channel, ?_, hlen, fun _ => rfl, fun h => absurd hlen (by omega)⟩
    unfold getDLQName
    have : ¬ (((dlqFormat topic channel).length : Int) > maxQueueLength) := by
      unfold maxQueueLength
      omega
    simp only [this, if_false]
  · have hgt : (((dlqFormat topic channel).length : Int) > maxQueueLength) := by
      unfold maxQueueLength
      omega
    have ht : (if (topic.length : Int) > 14 then (14 : Int) else (topic.length : Int)) =
        ((min topic.length 14 : Nat) : Int) := by
      split_ifs <;> omega
    have hc : (if (channel.length : Int) > (32 : Int) - ((min topic.length 14 : Nat) : Int) - 4
          then (32 : Int) - ((min topic.length 14 : Nat) : Int) - 4 else (channel.length : Int)) =
        ((min channel.length (32 - min topic.length 14 - 4) : Nat) : Int) := by
      split_ifs <;> omega
    refine ⟨dlqFormat (topic.take (min topic.length 14))
        (channel.take (min channel.length (32 - min topic.length 14 - 4))), ?_, ?_,
      fun h => absurd h hlen, fun _ => ⟨_, List.take_prefix _ channel, rfl⟩⟩
    · unfold getDLQName
      simp only [hgt, if_true, maxQueueLength, ht, hc]
      rw [sliceTo_natCast topic _ (by omega), sliceTo_natCast channel _ (by omega)]
      have hgt2 : (((dlqFormat topic channel).length : Int) > 32) := hgt
      simp only [hgt2, if_true]
    · simp only [dlqFormat, List.length_append, List.length_take, List.length_cons,
        List.length_nil]
      omega

/-- C30, as amended. Round trip of the column name: for every uid (with or
without `-`) and every time `t` of whole seconds with Unix seconds from 0 to
`2 ^ 31 - 1`, `columnNameToTimeId(idTimeToColumnName(uid, t))` is `(uid, t)`
with a `nil` error. From `2 ^ 31` seconds on the seconds are read as
nanoseconds, and before 1970 the result is an error. -/
theorem columnName_roundTrip (uid : String) (sec now : Int) :
    (0 ≤ sec → sec ≤ 2 ^ 31 - 1 →
      columnNameToTimeId now (idTimeToColumnName uid (timeUnix sec 0)) =
        (uid, timeUnix sec 0, none)) ∧
    (2 ^ 31 ≤ sec → sec < 2 ^ 63 →
      columnNameToTimeId now (idTimeToColumnName uid (timeUnix sec 0)) =
        (uid, timeUnix 0 sec, none)) ∧
    (sec < 0 →
      columnNameToTimeId now (idTimeToColumnName uid (timeUnix sec 0)) =
        ("", now, some (ColumnErr.badTimestamp AtoiErr.badSyntax))) ∧
    columnNameToTimeId 0 (idTimeToColumnName "a-b" (timeUnix 1372942090 0)) =
      ("a-b", timeUnix 1372942090 0, none) := by
  have hpos : ∀ s : Int, 0 ≤ s → s < 2 ^ 63 →
      columnNameToTimeId now (idTimeToColumnName uid (timeUnix s 0)) =
        if s > maxInt32 then (uid, timeUnix 0 s, none) else (uid, timeUnix s 0, none) := by
    intro s h0 h1
    obtain ⟨n, rfl⟩ := Int.eq_ofNat_of_zero_le h0
    have hcol : idTimeToColumnName uid (timeUnix (n : Int) 0) =
        Nat.toDigits 10 n ++ '-' :: uid.data := by
      unfold idTimeToColumnName itoa
      rw [unix_timeUnix]
      simp
    rw [hcol]
    exact columnName_of_digits now n uid (by exact_mod_cast h1)
  refine ⟨?_, ?_, ?_, ?_⟩
  · intro h0 h1
    rw [hpos sec h0 (by omega), if_neg (by unfold maxInt32; omega)]
  · intro h0 h1
    rw [hpos sec (by omega) h1, if_pos (by unfold maxInt32; omega)]
  · intro hneg
    have hcol : idTimeToColumnName uid (timeUnix sec 0) =
        '-' :: (Nat.toDigits 10 sec.natAbs ++ '-' :: uid.data) := by
      unfold idTimeToColumnName itoa
      rw [unix_timeUnix, if_pos hneg]
      rfl
    rw [hcol]
    unfold columnNameToTimeId
    have hsplit : splitChar '-' ('-' :: (Nat.toDigits 10 sec.natAbs ++ '-' :: uid.data)) =
        [] :: Nat.toDigits 10 sec.natAbs :: splitChar '-' uid.data := by
      rw [← splitChar_column]
      simp [splitChar]
    simp only [hsplit, List.length_cons, List.headD_cons]
    rw [if_neg (by omega)]
    rfl
  · decide

/-- Counterexample to C30 as stated: for the uid `a-b`, the time `2 ^ 31` seconds
after the epoch comes back as `2 ^ 31` nanoseconds after the epoch, and the
time one second before the epoch comes back as an error. -/
theorem columnName_out_of_range :
    columnNameToTimeId 0 (idTimeToColumnName "a-b" (timeUnix 2147483648 0)) =
      ("a-b", 2147483648, none) ∧
    timeUnix 2147483648 0 = 2147483648000000000 ∧
    idTimeToColumnName "a-b" (timeUnix (-1) 0) = "-1-a-b".data ∧
    columnNameToTimeId 0 (idTimeToColumnName "a-b" (timeUnix (-1) 0)) =
      ("", 0, some (ColumnErr.badTimestamp AtoiErr.badSyntax)) := by
  refine ⟨by decide, by decide, by decide, by decide⟩

end HailoSync
